import Mathlib

set_option maxHeartbeats 1000000

/-!
Verification of the segmentation and reconstruction engine of `ph_coder_docstr`.

A Python string is modelled as its list of characters (`PyStr`); a file's text is
modelled as its list of lines, i.e. the value of `content.split("\n")` — a list of
newline-free strings, which `"\n".join` maps back to the original text bijectively.
All functions below are shallow embeddings of the Python source in
`ph_coder_docstr/parser.py`, `ph_coder_docstr/processor.py` and
`ph_coder_docstr/api_client.py`.
-/

/-- A Python string: its list of characters. -/
abbrev PyStr := List Char

/-- A line of a file (an element of `content.split("\n")`): a newline-free string. -/
abbrev Line := PyStr

/-- Python whitespace characters, as used by `str.strip`, `str.split` and the
regex class for whitespace. -/
def wsChar (c : Char) : Bool :=
  c == ' ' || c == '\t' || c == '\n' || c == '\r' || c == '\x0b' || c == '\x0c'

/-- Python `str.lstrip()`: drop leading whitespace. -/
def pyLStrip (s : PyStr) : PyStr := s.dropWhile wsChar

/-- Python `str.strip()`: drop leading and trailing whitespace. -/
def pyStrip (s : PyStr) : PyStr :=
  ((s.dropWhile wsChar).reverse.dropWhile wsChar).reverse

/-- Python truthiness of `s.strip()` negated: a string is blank when it strips
to the empty string. -/
def isBlankL (s : PyStr) : Bool := pyStrip s == []

/-- The leading-whitespace width of a line: `len(line) - len(line.lstrip())`. -/
def indentWidth (s : PyStr) : Nat := s.length - (pyLStrip s).length

/-- Helper for `splitNl`: accumulate the current piece (reversed). -/
def splitNlAux : List Char → List Char → List (List Char)
  | [], cur => [cur.reverse]
  | c :: cs, cur =>
    if c = '\n' then cur.reverse :: splitNlAux cs []
    else splitNlAux cs (c :: cur)

/-- Python `s.split("\n")`. -/
def splitNl (s : PyStr) : List PyStr := splitNlAux s []

/-- Python `"\n".join(ls)`. -/
def joinNl : List PyStr → PyStr
  | [] => []
  | [l] => l
  | l :: ls => l ++ '\n' :: joinNl ls

/-- Helper for `pyWords`: accumulate the current word (reversed). -/
def pyWordsAux : List Char → List Char → List (List Char)
  | [], cur => if cur.isEmpty then [] else [cur.reverse]
  | c :: cs, cur =>
    if wsChar c then
      if cur.isEmpty then pyWordsAux cs [] else cur.reverse :: pyWordsAux cs []
    else pyWordsAux cs (c :: cur)

/-- Python `s.split()` with no argument: split on whitespace runs, no empty words. -/
def pyWords (s : PyStr) : List PyStr := pyWordsAux s []

/-! ### Regular expressions

The function-start recognizers of `CodeParser.FUNCTION_PATTERNS` are embedded as
regular-expression syntax trees over the character classes they use, matched by
a total Brzozowski-derivative matcher.  `re.match` anchors at the start of the
line only, except for the decorator pattern which is `$`-anchored and must match
the whole line. -/

/-- The character classes occurring in the function-start patterns. -/
inductive CC
  | ws
  | word
  | wordStar
  | notRParen
  | notColon
  | wordBracket
  | wordWsComma
  | wordBrStarDot
  | one (c : Char)
deriving Repr, DecidableEq

/-- Membership test of a character class. -/
def CC.test : CC → Char → Bool
  | .ws, c => wsChar c
  | .word, c => c.isAlphanum || c == '_'
  | .wordStar, c => c.isAlphanum || c == '_' || c == '*'
  | .notRParen, c => c != ')'
  | .notColon, c => c != ':'
  | .wordBracket, c => c.isAlphanum || c == '_' || c == '[' || c == ']' || c == '<' || c == '>'
  | .wordWsComma, c => c.isAlphanum || c == '_' || wsChar c || c == ','
  | .wordBrStarDot, c => c.isAlphanum || c == '_' || c == '[' || c == ']' || c == '*' || c == '.'
  | .one d, c => c == d

/-- Whether a character class provably contains no whitespace character. -/
def CC.nonWS : CC → Bool
  | .ws => false
  | .word => true
  | .wordStar => true
  | .notRParen => false
  | .notColon => false
  | .wordBracket => true
  | .wordWsComma => false
  | .wordBrStarDot => true
  | .one d => !wsChar d

/-- Regular-expression syntax trees. -/
inductive Rx
  | fail
  | eps
  | cls (cc : CC)
  | seq (a b : Rx)
  | alt (a b : Rx)
  | star (a : Rx)
deriving Repr, DecidableEq

/-- Does the regex accept the empty string? -/
def Rx.nullable : Rx → Bool
  | .fail => false
  | .eps => true
  | .cls _ => false
  | .seq a b => a.nullable && b.nullable
  | .alt a b => a.nullable || b.nullable
  | .star _ => true

/-- Brzozowski derivative with respect to one character. -/
def Rx.deriv : Rx → Char → Rx
  | .fail, _ => .fail
  | .eps, _ => .fail
  | .cls cc, c => if cc.test c then .eps else .fail
  | .seq a b, c =>
    if a.nullable then .alt (.seq (a.deriv c) b) (b.deriv c)
    else .seq (a.deriv c) b
  | .alt a b, c => .alt (a.deriv c) (b.deriv c)
  | .star a, c => .seq (a.deriv c) (.star a)

/-- Whole-string acceptance. -/
def Rx.accepts (r : Rx) (s : List Char) : Bool :=
  (s.foldl Rx.deriv r).nullable

/-- Python `re.match` semantics: does the regex accept some prefix of the string? -/
def Rx.matchesStart : Rx → List Char → Bool
  | r, [] => r.nullable
  | r, c :: cs => r.nullable || (r.deriv c).matchesStart cs

/-- The match semantics of a regex, as an inductive relation. -/
inductive RxMatch : Rx → List Char → Prop
  | eps : RxMatch .eps []
  | cls {cc : CC} {c : Char} : cc.test c = true → RxMatch (.cls cc) [c]
  | seq {a b : Rx} {s t : List Char} :
      RxMatch a s → RxMatch b t → RxMatch (.seq a b) (s ++ t)
  | altL {a b : Rx} {s : List Char} : RxMatch a s → RxMatch (.alt a b) s
  | altR {a b : Rx} {s : List Char} : RxMatch b s → RxMatch (.alt a b) s
  | starNil {a : Rx} : RxMatch (.star a) []
  | starCons {a : Rx} {s t : List Char} :
      RxMatch a s → RxMatch (.star a) t → RxMatch (.star a) (s ++ t)

theorem Rx.nullable_sound : ∀ {r : Rx}, r.nullable = true → RxMatch r []
  | .eps, _ => .eps
  | .seq a b, h => by
    simp only [Rx.nullable, Bool.and_eq_true] at h
    exact RxMatch.seq (Rx.nullable_sound h.1) (Rx.nullable_sound h.2)
  | .alt a b, h => by
    simp only [Rx.nullable, Bool.or_eq_true] at h
    rcases h with h | h
    · exact .altL (Rx.nullable_sound h)
    · exact .altR (Rx.nullable_sound h)
  | .star _, _ => .starNil

theorem Rx.deriv_sound : ∀ {r : Rx} {c : Char} {s : List Char},
    RxMatch (r.deriv c) s → RxMatch r (c :: s) := by
  intro r
  induction r with
  | fail => intro c s h; cases h
  | eps => intro c s h; cases h
  | cls cc =>
    intro c s h
    simp only [Rx.deriv] at h
    by_cases ht : cc.test c
    · rw [if_pos ht] at h
      cases h
      exact .cls ht
    · rw [if_neg ht] at h; cases h
  | seq a b iha ihb =>
    intro c s h
    simp only [Rx.deriv] at h
    by_cases hn : a.nullable
    · rw [if_pos hn] at h
      cases h with
      | altL h =>
        cases h with
        | seq h1 h2 =>
          exact RxMatch.seq (iha h1) h2
      | altR h =>
        exact RxMatch.seq (Rx.nullable_sound hn) (ihb h)
    · rw [if_neg hn] at h
      cases h with
      | seq h1 h2 =>
        exact RxMatch.seq (iha h1) h2
  | alt a b iha ihb =>
    intro c s h
    cases h with
    | altL h => exact .altL (iha h)
    | altR h => exact .altR (ihb h)
  | star a iha =>
    intro c s h
    simp only [Rx.deriv] at h
    cases h with
    | seq h1 h2 =>
      exact RxMatch.starCons (iha h1) h2

theorem Rx.accepts_sound {r : Rx} {s : List Char} (h : r.accepts s = true) :
    RxMatch r s := by
  induction s generalizing r with
  | nil => exact Rx.nullable_sound h
  | cons c cs ih =>
    have : (r.deriv c).accepts cs = true := h
    exact Rx.deriv_sound (ih this)

theorem Rx.matchesStart_sound {r : Rx} {s : List Char}
    (h : r.matchesStart s = true) : ∃ t u, s = t ++ u ∧ RxMatch r t := by
  induction s generalizing r with
  | nil => exact ⟨[], [], rfl, Rx.nullable_sound h⟩
  | cons c cs ih =>
    simp only [Rx.matchesStart, Bool.or_eq_true] at h
    rcases h with h | h
    · exact ⟨[], c :: cs, rfl, Rx.nullable_sound h⟩
    · obtain ⟨t, u, hs, hm⟩ := ih h
      exact ⟨c :: t, u, by rw [hs]; rfl, Rx.deriv_sound hm⟩

/-- Whether every string accepted by the regex must contain a non-whitespace
character (a sufficient syntactic check). -/
def Rx.nwB : Rx → Bool
  | .fail => true
  | .eps => false
  | .cls cc => cc.nonWS
  | .seq a b => a.nwB || b.nwB
  | .alt a b => a.nwB && b.nwB
  | .star _ => false

theorem wsChar_elim {c : Char} (h : wsChar c = true) :
    c = ' ' ∨ c = '\t' ∨ c = '\n' ∨ c = '\r' ∨ c = '\x0b' ∨ c = '\x0c' := by
  simp only [wsChar, Bool.or_eq_true, beq_iff_eq] at h
  tauto

theorem wsChar_isAlphanum {c : Char} (h : wsChar c = true) : c.isAlphanum = false := by
  rcases wsChar_elim h with rfl | rfl | rfl | rfl | rfl | rfl <;> decide

theorem CC.nonWS_sound {cc : CC} {c : Char} (h : cc.nonWS = true)
    (ht : cc.test c = true) : wsChar c = false := by
  by_contra hw
  simp only [Bool.not_eq_false] at hw
  have halnum := wsChar_isAlphanum hw
  cases cc with
  | ws => simp [CC.nonWS] at h
  | word =>
    simp only [CC.test, Bool.or_eq_true, beq_iff_eq] at ht
    rcases ht with ht | ht
    · rw [halnum] at ht; cases ht
    · subst ht; simp [wsChar] at hw
  | wordStar =>
    simp only [CC.test, Bool.or_eq_true, beq_iff_eq] at ht
    rcases ht with (ht | ht) | ht
    · rw [halnum] at ht; cases ht
    · subst ht; simp [wsChar] at hw
    · subst ht; simp [wsChar] at hw
  | notRParen => simp [CC.nonWS] at h
  | notColon => simp [CC.nonWS] at h
  | wordBracket =>
    simp only [CC.test, Bool.or_eq_true, beq_iff_eq] at ht
    rcases ht with ((((ht | ht) | ht) | ht) | ht) | ht
    · rw [halnum] at ht; cases ht
    all_goals subst ht; simp [wsChar] at hw
  | wordWsComma => simp [CC.nonWS] at h
  | wordBrStarDot =>
    simp only [CC.test, Bool.or_eq_true, beq_iff_eq] at ht
    rcases ht with ((((ht | ht) | ht) | ht) | ht) | ht
    · rw [halnum] at ht; cases ht
    all_goals subst ht; simp [wsChar] at hw
  | one d =>
    simp only [CC.nonWS, Bool.not_eq_true'] at h
    simp only [CC.test, beq_iff_eq] at ht
    subst ht; rw [h] at hw; cases hw

theorem Rx.nwB_sound : ∀ {r : Rx} {s : List Char}, r.nwB = true → RxMatch r s →
    ∃ c ∈ s, wsChar c = false := by
  intro r s hn hm
  induction hm with
  | eps => simp [Rx.nwB] at hn
  | cls ht =>
    rename_i cc c
    simp only [Rx.nwB] at hn
    exact ⟨c, List.mem_singleton.mpr rfl, CC.nonWS_sound hn ht⟩
  | seq h1 h2 ih1 ih2 =>
    simp only [Rx.nwB, Bool.or_eq_true] at hn
    rcases hn with hn | hn
    · obtain ⟨c, hc, hw⟩ := ih1 hn
      exact ⟨c, List.mem_append_left _ hc, hw⟩
    · obtain ⟨c, hc, hw⟩ := ih2 hn
      exact ⟨c, List.mem_append_right _ hc, hw⟩
  | altL h ih =>
    simp only [Rx.nwB, Bool.and_eq_true] at hn
    exact ih hn.1
  | altR h ih =>
    simp only [Rx.nwB, Bool.and_eq_true] at hn
    exact ih hn.2
  | starNil => simp [Rx.nwB] at hn
  | starCons h1 h2 ih1 ih2 => simp [Rx.nwB] at hn

/-- Character literal regex. -/
def ch (c : Char) : Rx := .cls (.one c)

/-- Zero-or-one. -/
def rxOpt (r : Rx) : Rx := .alt r .eps

/-- One-or-more. -/
def rxPlus (r : Rx) : Rx := .seq r (.star r)

/-- Sequence of a list of regexes. -/
def seqAll : List Rx → Rx
  | [] => .eps
  | [r] => r
  | r :: rs => .seq r (seqAll rs)

/-- Literal string regex. -/
def rxOfChars : List Char → Rx
  | [] => .eps
  | c :: cs => .seq (ch c) (rxOfChars cs)

/-- Literal string regex from a string literal. -/
def rxStr (s : String) : Rx := rxOfChars s.data

/-- The regex for a run of optional whitespace. -/
def wsS : Rx := .star (.cls .ws)

/-- The regex for one-or-more whitespace. -/
def wsP : Rx := rxPlus (.cls .ws)

/-- The regex for one-or-more word characters. -/
def wordP : Rx := rxPlus (.cls .word)

/-- The regex for a parenthesized argument list. -/
def parenG : Rx := seqAll [ch '(', .star (.cls .notRParen), ch ')']

/-- The regex alternative of the three declaration keywords const, let, var. -/
def declKw : Rx := .alt (rxStr ("const")) (.alt (rxStr ("let")) (rxStr ("var")))

/-- The regex for an optional async keyword followed by whitespace. -/
def asyncG : Rx := rxOpt (seqAll [rxStr ("async"), wsP])

/-- The regex for an optional TypeScript return-type annotation. -/
def retTyG : Rx := rxOpt (seqAll [wsS, ch ':', wsS, rxPlus (.cls .wordBracket)])

/-- The regex for a C++ scope qualifier. -/
def scopeG : Rx := seqAll [rxStr ("::"), wordP]

/-- A pattern: a regex together with whether it is anchored at end of line. -/
abbrev Pat := Rx × Bool

/-- The `FUNCTION_PATTERNS` entry for python. -/
def pyPats : List Pat :=
  [ (seqAll [wsS, rxStr ("def"), wsP, wordP, wsS, parenG, wsS,
      rxOpt (seqAll [rxStr ("->"), wsS, rxPlus (.cls .notColon)]), wsS, ch ':'], false)
  , (seqAll [wsS, rxStr ("class"), wsP, wordP, rxOpt parenG, wsS, ch ':'], false)
  , (seqAll [wsS, ch '@', wordP, rxOpt parenG, wsS], true) ]

/-- The `FUNCTION_PATTERNS` entry for javascript. -/
def jsPats : List Pat :=
  [ (seqAll [wsS, asyncG, rxStr ("function"), wsP, wordP, wsS, parenG, wsS, ch '{'], false)
  , (seqAll [wsS, declKw, wsP, wordP, wsS, ch '=', wsS, asyncG, rxStr ("function"),
      wsS, parenG, wsS, ch '{'], false)
  , (seqAll [wsS, declKw, wsP, wordP, wsS, ch '=', wsS, asyncG, parenG, wsS,
      rxStr ("=>"), wsS, ch '{'], false)
  , (seqAll [wsS, rxStr ("class"), wsP, wordP,
      rxOpt (seqAll [wsP, rxStr ("extends"), wsP, wordP]), wsS, ch '{'], false)
  , (seqAll [wsS, wordP, wsS, parenG, wsS, ch '{'], false) ]

/-- The `FUNCTION_PATTERNS` entry for typescript. -/
def tsPats : List Pat :=
  [ (seqAll [wsS, asyncG, rxStr ("function"), wsP, wordP, wsS, parenG, retTyG,
      wsS, ch '{'], false)
  , (seqAll [wsS, declKw, wsP, wordP, wsS, ch '=', wsS, asyncG, rxStr ("function"),
      wsS, parenG, retTyG, wsS, ch '{'], false)
  , (seqAll [wsS, declKw, wsP, wordP, wsS, ch ':', wsS, parenG, wsS, rxStr ("=>"), wsS,
      rxPlus (.cls .wordBracket), wsS, ch '=', wsS, asyncG, parenG, wsS,
      rxStr ("=>"), wsS, ch '{'], false)
  , (seqAll [wsS, rxStr ("class"), wsP, wordP,
      rxOpt (seqAll [wsP, rxStr ("extends"), wsP, wordP]),
      rxOpt (seqAll [wsP, rxStr ("implements"), wsP, rxPlus (.cls .wordWsComma)]),
      wsS, ch '{'], false)
  , (seqAll [wsS, rxStr ("interface"), wsP, wordP,
      rxOpt (seqAll [wsP, rxStr ("extends"), wsP, rxPlus (.cls .wordWsComma)]),
      wsS, ch '{'], false)
  , (seqAll [wsS, wordP, wsS, parenG, retTyG, wsS, ch '{'], false) ]

/-- The `FUNCTION_PATTERNS` entry for c. -/
def cPats : List Pat :=
  [ (seqAll [wsS, rxPlus (seqAll [rxPlus (.cls .wordStar), wsP]), wordP, wsS, parenG,
      wsS, ch '{'], false)
  , (seqAll [wsS, rxStr ("struct"), wsP, wordP, wsS, ch '{'], false) ]

/-- The `FUNCTION_PATTERNS` entry for cpp. -/
def cppPats : List Pat :=
  [ (seqAll [wsS, rxOpt (seqAll [rxStr ("virtual"), wsP]),
      .star (seqAll [rxPlus (.cls .wordStar), .star scopeG, wsP]), wordP,
      rxPlus scopeG, wsS, parenG, rxOpt (seqAll [wsP, rxStr ("const")]), wsS, ch '{'], false)
  , (seqAll [wsS, rxOpt (seqAll [rxStr ("virtual"), wsP]),
      rxPlus (seqAll [rxPlus (.cls .wordStar), .star scopeG, wsP]), wordP,
      wsS, parenG, rxOpt (seqAll [wsP, rxStr ("const")]), wsS, ch '{'], false)
  , (seqAll [wsS, rxStr ("class"), wsP, wordP,
      rxOpt (seqAll [wsS, ch ':', wsS,
        .alt (rxStr ("public")) (.alt (rxStr ("private")) (rxStr ("protected"))),
        wsP, wordP]), wsS, ch '{'], false)
  , (seqAll [wsS, rxStr ("struct"), wsP, wordP, wsS, ch '{'], false)
  , (seqAll [wsS, rxStr ("namespace"), wsP, wordP, wsS, ch '{'], false) ]

/-- The `FUNCTION_PATTERNS` entry for cuda. -/
def cudaPats : List Pat :=
  [ (seqAll [wsS,
      .alt (rxStr ("__global__")) (.alt (rxStr ("__device__")) (rxStr ("__host__"))),
      wsP, rxPlus (.cls .wordStar), wsP, wordP, wsS, parenG, wsS, ch '{'], false)
  , (seqAll [wsS, rxPlus (seqAll [rxPlus (.cls .wordStar), wsP]), wordP, wsS, parenG,
      wsS, ch '{'], false) ]

/-- The `FUNCTION_PATTERNS` entry for go. -/
def goPats : List Pat :=
  [ (seqAll [wsS, rxStr ("func"), wsP, rxOpt (seqAll [parenG, wsS]), wordP, wsS, parenG,
      rxOpt (seqAll [wsP, rxPlus (.cls .wordBrStarDot)]),
      rxOpt (seqAll [wsS, parenG]), wsS, ch '{'], false)
  , (seqAll [wsS, rxStr ("type"), wsP, wordP, wsP, rxStr ("struct"), wsS, ch '{'], false)
  , (seqAll [wsS, rxStr ("type"), wsP, wordP, wsP, rxStr ("interface"), wsS, ch '{'], false) ]

/-- The `FUNCTION_PATTERNS` entry for vue. -/
def vuePats : List Pat :=
  [ (seqAll [wsS, asyncG, rxStr ("function"), wsP, wordP, wsS, parenG, wsS, ch '{'], false)
  , (seqAll [wsS, declKw, wsP, wordP, wsS, ch '=', wsS, asyncG, rxStr ("function"),
      wsS, parenG, wsS, ch '{'], false)
  , (seqAll [wsS, declKw, wsP, wordP, wsS, ch '=', wsS, asyncG, parenG, wsS,
      rxStr ("=>"), wsS, ch '{'], false)
  , (seqAll [wsS, rxStr ("export"), wsP, rxStr ("default"), wsP, ch '{'], false)
  , (seqAll [wsS, rxStr ("data"), wsS, ch '(', wsS, ch ')', wsS, ch '{'], false)
  , (seqAll [wsS, rxStr ("computed"), wsS, ch ':', wsS, ch '{'], false)
  , (seqAll [wsS, rxStr ("methods"), wsS, ch ':', wsS, ch '{'], false)
  , (seqAll [wsS, rxStr ("mounted"), wsS, ch '(', wsS, ch ')', wsS, ch '{'], false)
  , (seqAll [wsS, rxStr ("created"), wsS, ch '(', wsS, ch ')', wsS, ch '{'], false)
  , (seqAll [wsS, wordP, wsS, parenG, wsS, ch '{'], false) ]

/-- `CodeParser.FUNCTION_PATTERNS.get(language, [])`. -/
def patternsFor (language : String) : List Pat :=
  match language with
  | "python" => pyPats
  | "javascript" => jsPats
  | "typescript" => tsPats
  | "c" => cPats
  | "cpp" => cppPats
  | "cuda" => cudaPats
  | "go" => goPats
  | "vue" => vuePats
  | _ => []

/-- Whether one pattern matches a line (with `re.match` semantics, honoring the
end anchor of the decorator pattern). -/
def patMatches (p : Pat) (l : Line) : Bool :=
  if p.2 then p.1.accepts l else p.1.matchesStart l

/-- Whether any pattern of the language matches a line; first match wins in the
source, which for detection purposes is the same as any-match. -/
def lineMatches (language : String) (l : Line) : Bool :=
  (patternsFor language).any (fun p => patMatches p l)

/-- `CodeParser.find_function_starts`: indices of the lines that match some
pattern of the language. -/
def findFunctionStarts (language : String) (lines : List Line) : List Nat :=
  (List.range lines.length).filter (fun i => lineMatches language (lines.getD i []))

theorem patMatches_of_nw {p : Pat} (hn : p.1.nwB = true) {l : Line}
    (hb : ∀ c ∈ l, wsChar c = true) : patMatches p l = false := by
  by_contra h
  simp only [Bool.not_eq_false] at h
  unfold patMatches at h
  split at h
  · obtain ⟨c, hc, hw⟩ := Rx.nwB_sound hn (Rx.accepts_sound h)
    rw [hb c hc] at hw; cases hw
  · obtain ⟨t, u, hl, hm⟩ := Rx.matchesStart_sound h
    obtain ⟨c, hc, hw⟩ := Rx.nwB_sound hn hm
    have : c ∈ l := by rw [hl]; exact List.mem_append_left _ hc
    rw [hb c this] at hw; cases hw

theorem patternsFor_nw (language : String) : ∀ p ∈ patternsFor language, p.1.nwB = true := by
  have h1 : ∀ p ∈ pyPats, p.1.nwB = true := by decide
  have h2 : ∀ p ∈ jsPats, p.1.nwB = true := by decide
  have h3 : ∀ p ∈ tsPats, p.1.nwB = true := by decide
  have h4 : ∀ p ∈ cPats, p.1.nwB = true := by decide
  have h5 : ∀ p ∈ cppPats, p.1.nwB = true := by decide
  have h6 : ∀ p ∈ cudaPats, p.1.nwB = true := by decide
  have h7 : ∀ p ∈ goPats, p.1.nwB = true := by decide
  have h8 : ∀ p ∈ vuePats, p.1.nwB = true := by decide
  unfold patternsFor
  split <;> first | assumption | simp

/-- A blank line (one that strips to nothing) matches no pattern of any language. -/
theorem lineMatches_blank {language : String} {l : Line}
    (hb : ∀ c ∈ l, wsChar c = true) : lineMatches language l = false := by
  unfold lineMatches
  rw [List.any_eq_false]
  intro p hp
  simp [patMatches_of_nw (patternsFor_nw language p hp) hb]

/-! ### The data model and the Segmenter (`parser.py`) -/

/-- `MAX_LINES_PER_UNIT` from `config.py`. -/
def MAX_LINES_PER_UNIT : Nat := 50

/-- `CodeUnit` from `parser.py`.  `content` is the unit's text, represented by
its list of lines; `comment` is the annotation string, empty until populated. -/
structure CodeUnit where
  content : List Line
  start_line : Nat
  end_line : Nat
  unit_type : String
  sectionTag : Option String
  comment : PyStr
deriving Repr, DecidableEq

/-- `CodeUnit.get_line_count`: `len(content.split("\n"))`.  For every unit the
source constructs, `content` is a non-empty join of newline-free lines, so the
count equals the length of the line list. -/
def CodeUnit.getLineCount (u : CodeUnit) : Nat := u.content.length

/-- Truthiness of `"\n".join(ls).strip()`: some line has a non-whitespace
character.  This is also `DocumentationProcessor._has_actual_code` applied to
the joined lines. -/
def anyNonBlank (ls : List Line) : Bool := ls.any (fun l => !(isBlankL l))

/-- The scan loop of `CodeParser._find_python_block_end`.  The first argument
is the number of remaining iterations, kept equal to `lines.length - i` by the
caller so that it reaches 0 exactly when the scan runs off the end. -/
def pyEndLoop (lines : List Line) (base : Nat) : Nat → Nat → Nat
  | 0, _ => lines.length - 1
  | n + 1, i =>
    let line := lines.getD i []
    if isBlankL line then pyEndLoop lines base n (i + 1)
    else if indentWidth line ≤ base then i - 1
    else pyEndLoop lines base n (i + 1)

/-- `CodeParser._find_python_block_end`. -/
def findPythonBlockEnd (lines : List Line) (start : Nat) : Nat :=
  if lines.length ≤ start then lines.length - 1
  else pyEndLoop lines (indentWidth (lines.getD start []))
    (lines.length - (start + 1)) (start + 1)

/-- The character loop of `CodeParser._find_brace_block_end` over one line:
returns the updated count, the updated started flag, and whether the loop
returned on this line. -/
def braceLineScan : List Char → Int → Bool → Int × Bool × Bool
  | [], cnt, st => (cnt, st, false)
  | c :: cs, cnt, st =>
    if c = '{' then braceLineScan cs (cnt + 1) true
    else if c = '}' then
      if st && (cnt - 1 == 0) then (cnt - 1, st, true)
      else braceLineScan cs (cnt - 1) st
    else braceLineScan cs cnt st

/-- The line loop of `CodeParser._find_brace_block_end`; the first argument is
the number of remaining lines, kept equal to `lines.length - i`. -/
def braceEndLoop (lines : List Line) : Nat → Nat → Int → Bool → Nat
  | 0, _, _, _ => lines.length - 1
  | n + 1, i, cnt, st =>
    let r := braceLineScan (lines.getD i []) cnt st
    if r.2.2 then i else braceEndLoop lines n (i + 1) r.1 r.2.1

/-- `CodeParser._find_brace_block_end`. -/
def findBraceBlockEnd (lines : List Line) (start : Nat) : Nat :=
  if lines.length ≤ start then lines.length - 1
  else braceEndLoop lines (lines.length - start) start 0 false

/-- `CodeParser.find_block_end`: dispatch on the language. -/
def findBlockEnd (language : String) (lines : List Line) (start : Nat) : Nat :=
  if language = "python" then findPythonBlockEnd lines start
  else findBraceBlockEnd lines start

/-- Emit one fallback chunk unit, dropped when its content is all whitespace. -/
def chunkEmit (content : List Line) (s e : Nat) : List CodeUnit :=
  if anyNonBlank content then [⟨content, s, e, "chunk", none, []⟩] else []

/-- The loop of `CodeParser._split_by_chunks`; the first argument is an
iteration budget at least `lines.length - i`, so it never runs out before `i`
passes the end. -/
def splitByChunksAux (lines : List Line) : Nat → Nat → List CodeUnit
  | 0, _ => []
  | fuel + 1, i =>
    if i < lines.length then
      let chunk := (lines.drop i).take MAX_LINES_PER_UNIT
      (if anyNonBlank chunk then
        [⟨chunk, i, min (i + chunk.length - 1) (lines.length - 1), "chunk", none, []⟩]
       else []) ++ splitByChunksAux lines fuel (i + MAX_LINES_PER_UNIT)
    else []

/-- `CodeParser._split_by_chunks`. -/
def splitByChunks (lines : List Line) : List CodeUnit :=
  splitByChunksAux lines lines.length 0

/-- The loop of `CodeParser._split_long_unit`; the first argument is an
iteration budget at least `u.content.length - i`. -/
def splitLongUnitAux (u : CodeUnit) : Nat → Nat → List CodeUnit
  | 0, _ => []
  | fuel + 1, i =>
    if i < u.content.length then
      let chunk := (u.content.drop i).take MAX_LINES_PER_UNIT
      (if anyNonBlank chunk then
        [⟨chunk, u.start_line + i,
          u.start_line + min (i + chunk.length - 1) (u.content.length - 1), "chunk", none, []⟩]
       else []) ++ splitLongUnitAux u fuel (i + MAX_LINES_PER_UNIT)
    else []

/-- `CodeParser._split_long_unit`. -/
def splitLongUnit (u : CodeUnit) : List CodeUnit :=
  splitLongUnitAux u u.content.length 0

/-- The function unit built for one detected start line. -/
def functionUnit (language : String) (lines : List Line) (s : Nat) : CodeUnit :=
  let e := findBlockEnd language lines s
  ⟨(lines.drop s).take (e + 1 - s), s, e, "function", none, []⟩

/-- The function-processing loop of `CodeParser.split_into_units`: each start
yields its unit, further split when it exceeds the maximum. -/
def functionUnits (language : String) (lines : List Line) (starts : List Nat) :
    List CodeUnit :=
  starts.flatMap (fun s =>
    let u := functionUnit language lines s
    if MAX_LINES_PER_UNIT < u.getLineCount then splitLongUnit u else [u])

/-- Membership in the `processed_lines` set built by the function loop: the
union of the resolved extents of all starts. -/
def inFunctionBlock (language : String) (lines : List Line) (starts : List Nat)
    (i : Nat) : Bool :=
  starts.any (fun s => s ≤ i && i ≤ findBlockEnd language lines s)

/-- The trailing-chunk accumulation loop of `CodeParser.split_into_units`:
state is the position, the pending chunk and its start line.  The first
argument is the number of remaining lines, kept equal to `lines.length - i`;
at 0 the final pending chunk is flushed. -/
def chunkLoop (lines : List Line) (proc : Nat → Bool) :
    Nat → Nat → List Line → Nat → List CodeUnit
  | 0, _, cur, curStart =>
    if cur.isEmpty then [] else chunkEmit cur curStart (lines.length - 1)
  | n + 1, i, cur, curStart =>
    if !proc i then
      let curStart' := if cur.isEmpty then i else curStart
      let cur' := cur ++ [lines.getD i []]
      if MAX_LINES_PER_UNIT ≤ cur'.length then
        chunkEmit cur' curStart' i ++ chunkLoop lines proc n (i + 1) [] curStart'
      else chunkLoop lines proc n (i + 1) cur' curStart'
    else
      (if cur.isEmpty then [] else chunkEmit cur curStart (i - 1)) ++
        chunkLoop lines proc n (i + 1) [] curStart

/-- Comparison used by `units.sort(key=lambda u: u.start_line)`; Python's
sort is stable, and a stable sort by key is a unique function of the input, so
the stable insertion sort below models it exactly. -/
def unitLE (u v : CodeUnit) : Prop := u.start_line ≤ v.start_line

instance : DecidableRel unitLE := fun u v => Nat.decLe u.start_line v.start_line

instance : IsTotal CodeUnit unitLE := ⟨fun u v => Nat.le_total u.start_line v.start_line⟩

instance : IsTrans CodeUnit unitLE := ⟨fun _ _ _ h1 h2 => Nat.le_trans h1 h2⟩

/-- The stable sort `units.sort(key=lambda u: u.start_line)`. -/
def sortUnits (us : List CodeUnit) : List CodeUnit := List.insertionSort unitLE us

/-- `CodeParser.split_into_units` for a non-vue language:  function units (split
when too long) plus fallback chunks for unprocessed lines, sorted by start. -/
def splitIntoUnitsCore (language : String) (lines : List Line) : List CodeUnit :=
  let starts := findFunctionStarts language lines
  if starts.isEmpty then splitByChunks lines
  else
    sortUnits (functionUnits language lines starts ++
      chunkLoop lines (inFunctionBlock language lines starts) lines.length 0 [] 0)

/-- Whether a stripped line is one of the three vue closing marker lines. -/
def vueClosing (stripped : PyStr) : Bool :=
  stripped == ("</template>").data || stripped == ("</script>").data ||
    stripped == ("</style>").data

/-- The scan loop of `CodeParser._find_vue_sections`; the first argument is
the number of remaining lines, kept equal to `lines.length - i`; at 0 an
unterminated open section is closed at end of file. -/
def findVueSectionsAux (lines : List Line) :
    Nat → Nat → Option String → Nat → List (String × Nat × Nat)
  | 0, _, cur, secStart =>
    (match cur with
     | some t =>
       if secStart < lines.length then [(t, secStart, lines.length - 1)] else []
     | none => [])
  | n + 1, i, cur, secStart =>
    let stripped := pyStrip (lines.getD i [])
    if (("<template").data).isPrefixOf stripped then
      findVueSectionsAux lines n (i + 1) (some "template") (i + 1)
    else if (("<script").data).isPrefixOf stripped then
      findVueSectionsAux lines n (i + 1) (some "script") (i + 1)
    else if (("<style").data).isPrefixOf stripped then
      findVueSectionsAux lines n (i + 1) (some "style") (i + 1)
    else if vueClosing stripped then
      match cur with
      | some t =>
        (if secStart < i then [(t, secStart, i - 1)] else []) ++
          findVueSectionsAux lines n (i + 1) none secStart
      | none => findVueSectionsAux lines n (i + 1) none secStart
    else findVueSectionsAux lines n (i + 1) cur secStart

/-- `CodeParser._find_vue_sections`. -/
def findVueSections (lines : List Line) : List (String × Nat × Nat) :=
  findVueSectionsAux lines lines.length 0 none 0

/-- Shift a recursively obtained unit into the outer file's coordinates and tag
it with the section type. -/
def shiftUnit (off : Nat) (t : String) (u : CodeUnit) : CodeUnit :=
  { u with start_line := u.start_line + off, end_line := u.end_line + off,
           sectionTag := some t }

/-- `CodeParser._split_vue_file`: script sections are recursively segmented as
javascript and spliced with shifted offsets; template and style sections become
one chunk unit each. -/
def splitVueLines (lines : List Line) : List CodeUnit :=
  (findVueSections lines).flatMap (fun sec =>
    let secLines := (lines.drop sec.2.1).take (sec.2.2 + 1 - sec.2.1)
    if sec.1 = "script" then
      (splitIntoUnitsCore "javascript" secLines).map (shiftUnit sec.2.1 sec.1)
    else [⟨secLines, sec.2.1, sec.2.2, "chunk", some sec.1, []⟩])

/-- `CodeParser.split_into_units`. -/
def splitIntoUnits (language : String) (lines : List Line) : List CodeUnit :=
  if language = "vue" then splitVueLines lines
  else splitIntoUnitsCore language lines

/-! ### The Reassembler (`processor.py`) -/

theorem length_dropWhile_le (p : Char → Bool) (l : List Char) :
    (l.dropWhile p).length ≤ l.length :=
  (List.dropWhile_suffix p).length_le

theorem pyStrip_length_le (s : PyStr) : (pyStrip s).length ≤ s.length := by
  unfold pyStrip
  calc ((s.dropWhile wsChar).reverse.dropWhile wsChar).reverse.length
      = ((s.dropWhile wsChar).reverse.dropWhile wsChar).length := List.length_reverse _
    _ ≤ (s.dropWhile wsChar).reverse.length := length_dropWhile_le _ _
    _ = (s.dropWhile wsChar).length := List.length_reverse _
    _ ≤ s.length := length_dropWhile_le _ _

/-- The gap-flush loop of `DocumentationProcessor._reconstruct_file`:
`none` models the IndexError raised when Python reads `lines[current_line]`
with `current_line` out of range.  The first argument is the number of
remaining iterations, kept equal to `target - c` by the caller. -/
def flushLoop (lines : List Line) : Nat → Nat → List Nat → List Line →
    Option (Nat × List Nat × List Line)
  | 0, c, proc, acc => some (c, proc, acc)
  | n + 1, c, proc, acc =>
    if proc.contains c then flushLoop lines n (c + 1) proc acc
    else if h : c < lines.length then
      flushLoop lines n (c + 1) (c :: proc) (acc ++ [lines.get ⟨c, h⟩])
    else none

/-- The in-bounds emission loop over a unit's clipped line range; the first
argument is the number of remaining iterations, kept equal to `stop - i`. -/
def emitSpan (lines : List Line) : Nat → Nat → List Nat → List Line →
    List Nat × List Line
  | 0, _, proc, acc => (proc, acc)
  | n + 1, i, proc, acc =>
    if proc.contains i then emitSpan lines n (i + 1) proc acc
    else emitSpan lines n (i + 1) (i :: proc) (acc ++ [lines.getD i []])

/-- Marking a clipped range as processed without emitting (the blank-unit
case); the first argument is the number of remaining iterations. -/
def markSpan : Nat → Nat → List Nat → List Nat
  | 0, _, proc => proc
  | n + 1, i, proc => markSpan n (i + 1) (i :: proc)

/-- The unit's span re-read from the original lines, clipped to the file end:
`lines[unit.start_line : min(unit.end_line + 1, len(lines))]`. -/
def unitSpan (lines : List Line) (u : CodeUnit) : List Line :=
  (lines.drop u.start_line).take (min (u.end_line + 1) lines.length - u.start_line)

/-- Processing of one unit inside `_reconstruct_file`'s main loop. -/
def reconStep (lines : List Line) (st : Nat × List Nat × List Line) (u : CodeUnit) :
    Option (Nat × List Nat × List Line) := do
  let (c0, proc0, acc0) := st
  let (_, proc, acc) ← flushLoop lines (u.start_line - c0) c0 proc0 acc0
  let clip := min (u.end_line + 1) lines.length
  if anyNonBlank (unitSpan lines u) then
    let (proc', acc') := emitSpan lines (clip - u.start_line) u.start_line proc acc
    let acc'' := if u.comment.isEmpty then acc' else acc' ++ splitNl u.comment
    pure (u.end_line + 1, proc', acc'')
  else
    pure (u.end_line + 1, markSpan (clip - u.start_line) u.start_line proc, acc)

/-- The fold of `_reconstruct_file`'s main loop over the sorted unit list. -/
def reconUnits (lines : List Line) (us : List CodeUnit)
    (st : Nat × List Nat × List Line) : Option (Nat × List Nat × List Line) :=
  match us with
  | [] => some st
  | u :: rest => do
    let st' ← reconStep lines st u
    reconUnits lines rest st'

/-- The trailing flush of `_reconstruct_file` (which appends without
marking); the first argument is the number of remaining iterations, kept
equal to `lines.length - c`. -/
def trailingFlush (lines : List Line) : Nat → Nat → List Nat → List Line →
    List Line
  | 0, _, _, acc => acc
  | n + 1, c, proc, acc =>
    if proc.contains c then trailingFlush lines n (c + 1) proc acc
    else trailingFlush lines n (c + 1) proc (acc ++ [lines.getD c []])

/-- `DocumentationProcessor._reconstruct_file`, producing the output line list
(`none` when Python would raise an IndexError in the gap flush). -/
def reconstructFile (lines : List Line) (units : List CodeUnit)
    (fileComment : PyStr) : Option (List Line) := do
  let init : List Line :=
    if !fileComment.isEmpty && anyNonBlank lines then splitNl fileComment ++ [[]]
    else []
  let ss := sortUnits units
  let (c, proc, acc) ← reconUnits lines ss (0, [], init)
  pure (trailingFlush lines (lines.length - c) c proc acc)

/-! ### The annotation formatter (`api_client.py`) -/

/-- The leading comment-marker removal loop of `APIClient.format_comment`.
The fuel argument is an iteration budget at least the string's length (each
iteration strictly shortens the string). -/
def leadingStripF : Nat → PyStr → PyStr
  | 0, l => l
  | fuel + 1, l =>
    match l with
    | [] => []
    | c :: cs =>
      if c = '/' || c = '*' || c = '#' then
        if ("//").data.isPrefixOf (c :: cs) || ("/*").data.isPrefixOf (c :: cs) then
          leadingStripF fuel (pyStrip ((c :: cs).drop 2))
        else if c = '#' then leadingStripF fuel (pyStrip cs)
        else if c = '*' then leadingStripF fuel (pyStrip cs)
        else c :: cs
      else c :: cs

/-- The leading comment-marker removal loop of `APIClient.format_comment`. -/
def leadingStrip (l : PyStr) : PyStr := leadingStripF l.length l

/-- The trailing comment-marker removal loop of `APIClient.format_comment`,
with an iteration budget at least the string's length. -/
def trailingStripF : Nat → PyStr → PyStr
  | 0, l => l
  | fuel + 1, l =>
    if 2 ≤ l.length then
      if ("*/").data.isSuffixOf l then trailingStripF fuel (pyStrip (l.take (l.length - 2)))
      else if l.getLastD ' ' = '*' then trailingStripF fuel (pyStrip (l.take (l.length - 1)))
      else l
    else l

/-- The trailing comment-marker removal loop of `APIClient.format_comment`. -/
def trailingStrip (l : PyStr) : PyStr := trailingStripF l.length l

/-- The word-wrapping loop of `APIClient._split_long_line` over one paragraph. -/
def slWords (maxLength : Nat) : List PyStr → PyStr → List PyStr
  | [], cur => if cur.isEmpty then [] else [pyStrip cur]
  | w :: ws, cur =>
    if maxLength < cur.length + w.length + 1 then
      if cur.isEmpty then w.take maxLength :: slWords maxLength ws (w.drop maxLength)
      else pyStrip cur :: slWords maxLength ws w
    else
      if cur.isEmpty then slWords maxLength ws w
      else slWords maxLength ws (cur ++ ' ' :: w)

/-- `APIClient._split_long_line`. -/
def splitLongLine (text : PyStr) (maxLength : Nat) : List PyStr :=
  if text.length ≤ maxLength then [text]
  else
    let ls := (splitNl text).flatMap (fun par => slWords maxLength (pyWords par) [])
    if ls.isEmpty then [text] else ls

/-- The per-line cleaning and wrapping of `format_comment`. -/
def processLine (l : PyStr) : List PyStr :=
  let l1 := pyStrip l
  if l1.isEmpty then []
  else
    let l2 := trailingStrip (leadingStrip l1)
    let l3 := pyStrip l2
    if l3.isEmpty then []
    else splitLongLine l3 30

/-- The markdown code-fence removal at the top of `format_comment`. -/
def stripFence (comment : PyStr) : PyStr :=
  if ("```").data.isPrefixOf comment then
    let ls0 := splitNl comment
    let ls1 := if ("```").data.isPrefixOf (ls0.headD []) then ls0.tail else ls0
    let ls2 :=
      if !ls1.isEmpty && ("```").data.isPrefixOf (ls1.getLastD []) then ls1.dropLast
      else ls1
    pyStrip (joinNl ls2)
  else comment

/-- `APIClient.format_comment`. -/
def formatComment (comment0 : PyStr) (language : String) (indent : PyStr) : PyStr :=
  let comment := pyStrip (stripFence comment0)
  if comment.isEmpty then []
  else
    let processed := (splitNl comment).flatMap processLine
    if processed.isEmpty then []
    else if language = "python" then
      joinNl (processed.map (fun l => indent ++ ("# ").data ++ l))
    else if language = "javascript" || language = "typescript" || language = "vue" then
      joinNl (processed.map (fun l => indent ++ ("// ").data ++ l))
    else if language = "go" then
      joinNl (processed.map (fun l => indent ++ ("// ").data ++ l))
    else if language = "c" || language = "cpp" || language = "cuda" then
      match processed with
      | [l] => indent ++ ("// ").data ++ l
      | _ =>
        (indent ++ ("/*").data ++ ['\n']) ++
          processed.flatMap (fun l => indent ++ (" * ").data ++ l ++ ['\n']) ++
          indent ++ (" */").data
    else joinNl (processed.map (fun l => indent ++ ("# ").data ++ l))

/-- The per-unit annotation phase of `DocumentationProcessor.process_file`: a
unit of fewer than 3 lines is skipped outright; otherwise the backend's
response (modelled by the oracle `gen`), when present, is formatted with empty
indent and attached as the unit's comment. -/
def annotateUnit (gen : CodeUnit → Option PyStr) (language : String)
    (u : CodeUnit) : CodeUnit :=
  if u.getLineCount < 3 then u
  else
    match gen u with
    | some c => { u with comment := formatComment c language [] }
    | none => u

/-- The annotation loop of `process_file` over all units. -/
def annotateUnits (gen : CodeUnit → Option PyStr) (language : String)
    (us : List CodeUnit) : List CodeUnit :=
  us.map (annotateUnit gen language)
def pyStops (lines : List Line) (base j : Nat) : Prop :=
  isBlankL (lines.getD j []) = false ∧ indentWidth (lines.getD j []) ≤ base

instance (lines : List Line) (base j : Nat) : Decidable (pyStops lines base j) := by
  unfold pyStops; infer_instance

theorem pyEndLoop_stops {lines : List Line} {base : Nat} {j : Nat}
    (hjlen : j < lines.length) (hPj : pyStops lines base j) :
    ∀ i, i ≤ j → (∀ k, i ≤ k → k < j → ¬ pyStops lines base k) →
    pyEndLoop lines base (lines.length - i) i = j - 1 := by
  have H : ∀ n i, i ≤ j → j - i = n →
      (∀ k, i ≤ k → k < j → ¬ pyStops lines base k) →
      pyEndLoop lines base (lines.length - i) i = j - 1 := by
    intro n
    induction n with
    | zero =>
      intro i hij hd _
      have hij' : i = j := by omega
      subst hij'
      obtain ⟨m, hm⟩ : ∃ m, lines.length - i = m + 1 := ⟨lines.length - i - 1, by omega⟩
      rw [hm, pyEndLoop]
      obtain ⟨hb, hw⟩ := hPj
      rw [hb, if_neg (by simp), if_pos hw]
    | succ n ih =>
      intro i hij hd hnone
      have hlt : i < j := by omega
      obtain ⟨m, hm⟩ : ∃ m, lines.length - i = m + 1 := ⟨lines.length - i - 1, by omega⟩
      have hm' : m = lines.length - (i + 1) := by omega
      have hnp := hnone i le_rfl hlt
      rw [hm, pyEndLoop]
      by_cases hb : isBlankL (lines.getD i []) = true
      · rw [if_pos hb, hm']
        exact ih (i + 1) (by omega) (by omega) (fun k h1 h2 => hnone k (by omega) h2)
      · rw [if_neg hb]
        have hw : ¬ indentWidth (lines.getD i []) ≤ base := by
          intro hle
          exact hnp ⟨by simpa using hb, hle⟩
        rw [if_neg hw, hm']
        exact ih (i + 1) (by omega) (by omega) (fun k h1 h2 => hnone k (by omega) h2)
  intro i hij hnone
  exact H (j - i) i hij rfl hnone

theorem pyEndLoop_none {lines : List Line} {base : Nat} :
    ∀ i, (∀ j, i ≤ j → j < lines.length → ¬ pyStops lines base j) →
    pyEndLoop lines base (lines.length - i) i = lines.length - 1 := by
  have H : ∀ n i, lines.length - i = n →
      (∀ j, i ≤ j → j < lines.length → ¬ pyStops lines base j) →
      pyEndLoop lines base (lines.length - i) i = lines.length - 1 := by
    intro n
    induction n with
    | zero =>
      intro i hd _
      rw [hd, pyEndLoop]
    | succ n ih =>
      intro i hd hnone
      have hilen : i < lines.length := by omega
      have hnp : ¬ pyStops lines base i := hnone i le_rfl hilen
      rw [hd, pyEndLoop]
      have hn' : n = lines.length - (i + 1) := by omega
      by_cases hb : isBlankL (lines.getD i []) = true
      · rw [if_pos hb, hn']
        exact ih (i + 1) (by omega) (fun k h1 h2 => hnone k (by omega) h2)
      · rw [if_neg hb]
        have hw : ¬ indentWidth (lines.getD i []) ≤ base := by
          intro hle
          exact hnp ⟨by simpa using hb, hle⟩
        rw [if_neg hw, hn']
        exact ih (i + 1) (by omega) (fun k h1 h2 => hnone k (by omega) h2)
  intro i hnone
  exact H (lines.length - i) i rfl hnone

theorem python_block_extent (lines : List Line) (start : Nat)
    (hs : start < lines.length) :
    (∀ j, start < j → j < lines.length →
      pyStops lines (indentWidth (lines.getD start [])) j →
      (∀ k, start < k → k < j → ¬ pyStops lines (indentWidth (lines.getD start [])) k) →
      findPythonBlockEnd lines start = j - 1) ∧
    ((∀ j, start < j → j < lines.length →
        ¬ pyStops lines (indentWidth (lines.getD start [])) j) →
      findPythonBlockEnd lines start = lines.length - 1) := by
  constructor
  · intro j h1 h2 h3 h4
    unfold findPythonBlockEnd
    rw [if_neg (by omega)]
    exact pyEndLoop_stops h2 h3 (start + 1) (by omega)
      (fun k hk1 hk2 => h4 k (by omega) hk2)
  · intro hnone
    unfold findPythonBlockEnd
    rw [if_neg (by omega)]
    exact pyEndLoop_none (start + 1) (fun j hj1 hj2 => hnone j (by omega) hj2)


theorem python_block_extent_witness :
    (0 < 5) ∧
      findPythonBlockEnd
        [("def f():".data), ("    a".data), ("".data), ("    b".data), ("x".data)] 0 = 3 := by
  refine ⟨by decide, ?_⟩
  have h := (python_block_extent
    [("def f():".data), ("    a".data), ("".data), ("    b".data), ("x".data)] 0 (by decide)).1
    4 (by decide) (by decide) (by decide)
    (fun k h1 h2 => by interval_cases k <;> decide)
  exact h

/-- The depth contribution of one character: open brace +1, close brace -1. -/
def braceDelta (c : Char) : Int := if c = '{' then 1 else if c = '}' then -1 else 0

/-- The net brace depth of a character stream. -/
def braceCount (s : List Char) : Int := (s.map braceDelta).sum

theorem braceCount_cons (c : Char) (s : List Char) :
    braceCount (c :: s) = braceDelta c + braceCount s := by
  simp [braceCount]

theorem braceCount_append (a b : List Char) :
    braceCount (a ++ b) = braceCount a + braceCount b := by
  simp [braceCount]

theorem braceCount_pos_mem {s : List Char} (h : 0 < braceCount s) : '{' ∈ s := by
  induction s with
  | nil => simp [braceCount] at h
  | cons c t ih =>
    rw [braceCount_cons] at h
    by_cases hc : c = '{'
    · subst hc; exact List.mem_cons_self _ _
    · have hd : braceDelta c ≤ 0 := by
        unfold braceDelta
        rw [if_neg hc]
        split <;> omega
      exact List.mem_cons_of_mem _ (ih (by omega))

/-- Whether the character loop of `_find_brace_block_end` returns while
scanning this line, given the incoming count and started flag: there is a
close brace at which the running count reaches zero with the flag set. -/
def scanCloses (s : List Char) (cnt : Int) (st : Bool) : Prop :=
  ∃ p q, s = p ++ '}' :: q ∧ (st = true ∨ '{' ∈ p) ∧ cnt + braceCount p = 1

theorem scanCloses_open (cs : List Char) (cnt : Int) (st : Bool) :
    scanCloses ('{' :: cs) cnt st ↔ scanCloses cs (cnt + 1) true := by
  constructor
  · rintro ⟨p, q, hpq, hst, hcnt⟩
    cases p with
    | nil => simp at hpq
    | cons c' p' =>
      rw [List.cons_append] at hpq
      obtain ⟨hc', hrest⟩ := List.cons.inj hpq
      subst hc'
      refine ⟨p', q, hrest, Or.inl rfl, ?_⟩
      simp [braceCount_cons, braceDelta] at hcnt
      omega
  · rintro ⟨p, q, hpq, hst, hcnt⟩
    refine ⟨'{' :: p, q, by rw [hpq, List.cons_append], Or.inr (List.mem_cons_self _ _), ?_⟩
    simp [braceCount_cons, braceDelta]
    omega

theorem scanCloses_close (cs : List Char) (cnt : Int) (st : Bool)
    (hne : ¬(st = true ∧ cnt - 1 = 0)) :
    scanCloses ('}' :: cs) cnt st ↔ scanCloses cs (cnt - 1) st := by
  constructor
  · rintro ⟨p, q, hpq, hst, hcnt⟩
    cases p with
    | nil =>
      obtain ⟨-, hq⟩ := List.cons.inj hpq
      rcases hst with hst | hst
      · refine absurd ⟨hst, ?_⟩ hne
        simp [braceCount] at hcnt
        omega
      · simp at hst
    | cons c' p' =>
      rw [List.cons_append] at hpq
      obtain ⟨hc', hrest⟩ := List.cons.inj hpq
      subst hc'
      refine ⟨p', q, hrest, ?_, ?_⟩
      · rcases hst with hst | hst
        · exact Or.inl hst
        · rcases List.mem_cons.mp hst with h | h
          · exact absurd h (by decide)
          · exact Or.inr h
      · simp [braceCount_cons, braceDelta] at hcnt
        omega
  · rintro ⟨p, q, hpq, hst, hcnt⟩
    refine ⟨'}' :: p, q, by rw [hpq, List.cons_append], ?_, ?_⟩
    · rcases hst with hst | hst
      · exact Or.inl hst
      · exact Or.inr (List.mem_cons_of_mem _ hst)
    · simp [braceCount_cons, braceDelta]
      omega

theorem scanCloses_other (c : Char) (cs : List Char) (cnt : Int) (st : Bool)
    (h1 : ¬ c = '{') (h2 : ¬ c = '}') :
    scanCloses (c :: cs) cnt st ↔ scanCloses cs cnt st := by
  constructor
  · rintro ⟨p, q, hpq, hst, hcnt⟩
    cases p with
    | nil => exact absurd (List.cons.inj hpq).1 h2
    | cons c' p' =>
      rw [List.cons_append] at hpq
      obtain ⟨hc', hrest⟩ := List.cons.inj hpq
      subst hc'
      refine ⟨p', q, hrest, ?_, ?_⟩
      · rcases hst with hst | hst
        · exact Or.inl hst
        · rcases List.mem_cons.mp hst with h | h
          · exact absurd h.symm h1
          · exact Or.inr h
      · rw [braceCount_cons] at hcnt
        unfold braceDelta at hcnt
        rw [if_neg h1, if_neg h2] at hcnt
        omega
  · rintro ⟨p, q, hpq, hst, hcnt⟩
    refine ⟨c :: p, q, by rw [hpq, List.cons_append], ?_, ?_⟩
    · rcases hst with hst | hst
      · exact Or.inl hst
      · exact Or.inr (List.mem_cons_of_mem _ hst)
    · rw [braceCount_cons]
      unfold braceDelta
      rw [if_neg h1, if_neg h2]
      omega

theorem braceLineScan_ret_iff :
    ∀ (s : List Char) (cnt : Int) (st : Bool),
      (braceLineScan s cnt st).2.2 = true ↔ scanCloses s cnt st := by
  intro s
  induction s with
  | nil =>
    intro cnt st
    simp only [braceLineScan]
    constructor
    · intro h; cases h
    · rintro ⟨p, q, hpq, -, -⟩; cases p <;> simp at hpq
  | cons c cs ih =>
    intro cnt st
    by_cases hc1 : c = '{'
    · subst hc1
      rw [show braceLineScan ('{' :: cs) cnt st = braceLineScan cs (cnt + 1) true from by
        simp [braceLineScan]]
      rw [ih, scanCloses_open]
    · by_cases hc2 : c = '}'
      · subst hc2
        by_cases hr : st = true ∧ cnt - 1 = 0
        · rw [show braceLineScan ('}' :: cs) cnt st = (cnt - 1, st, true) from by
            simp [braceLineScan, hr.1, hr.2]]
          simp only [true_iff]
          refine ⟨[], cs, rfl, Or.inl hr.1, ?_⟩
          simp [braceCount]
          omega
        · have hne : (st && (cnt - 1 == 0)) = false := by
            by_contra hx
            simp only [Bool.not_eq_false] at hx
            rcases Bool.and_eq_true _ _ |>.mp hx with ⟨hst, hz⟩
            exact hr ⟨hst, by simpa using hz⟩
          rw [show braceLineScan ('}' :: cs) cnt st = braceLineScan cs (cnt - 1) st from by
            simp [braceLineScan, hne]]
          rw [ih, scanCloses_close cs cnt st hr]
      · rw [show braceLineScan (c :: cs) cnt st = braceLineScan cs cnt st from by
          simp only [braceLineScan]
          rw [if_neg hc1, if_neg hc2]]
        rw [ih, scanCloses_other c cs cnt st hc1 hc2]

theorem braceLineScan_no_ret :
    ∀ (s : List Char) (cnt : Int) (st : Bool),
      (braceLineScan s cnt st).2.2 = false →
      braceLineScan s cnt st = (cnt + braceCount s, st || s.contains '{', false) := by
  intro s
  induction s with
  | nil =>
    intro cnt st _
    simp [braceLineScan, braceCount]
  | cons c cs ih =>
    intro cnt st hf
    by_cases hc1 : c = '{'
    · subst hc1
      have hstep : braceLineScan ('{' :: cs) cnt st = braceLineScan cs (cnt + 1) true := by
        simp [braceLineScan]
      rw [hstep] at hf ⊢
      rw [ih (cnt + 1) true hf]
      simp [braceCount_cons, braceDelta, List.contains_cons, Prod.ext_iff]
      omega
    · by_cases hc2 : c = '}'
      · subst hc2
        have hne : (st && (cnt - 1 == 0)) = false := by
          by_contra hx
          simp only [Bool.not_eq_false] at hx
          have hstep : braceLineScan ('}' :: cs) cnt st = (cnt - 1, st, true) := by
            simp [braceLineScan, hx]
          rw [hstep] at hf
          cases hf
        have hstep : braceLineScan ('}' :: cs) cnt st = braceLineScan cs (cnt - 1) st := by
          simp [braceLineScan, hne]
        rw [hstep] at hf ⊢
        rw [ih (cnt - 1) st hf]
        simp [braceCount_cons, braceDelta, List.contains_cons, Prod.ext_iff]
        omega
      · have hstep : braceLineScan (c :: cs) cnt st = braceLineScan cs cnt st := by
          simp only [braceLineScan]
          rw [if_neg hc1, if_neg hc2]
        rw [hstep] at hf ⊢
        rw [ih cnt st hf]
        have hd : braceDelta c = 0 := by
          unfold braceDelta
          rw [if_neg hc1, if_neg hc2]
        have hm : ('{' = c) = False := eq_false (Ne.symm hc1)
        simp [braceCount_cons, hd, List.contains_cons, hm, Prod.ext_iff]

theorem contains_append (a b : List Char) (c : Char) :
    (a ++ b).contains c = (a.contains c || b.contains c) := by
  induction a with
  | nil => simp
  | cons x xs ih => simp [List.contains_cons, ih, Bool.or_assoc]

/-- The characters scanned before reaching line `i` of the block starting at
`start`: all characters of lines `start..i-1`. -/
def blockPre (lines : List Line) (start i : Nat) : List Char :=
  ((lines.drop start).take (i - start)).flatten

theorem blockPre_start (lines : List Line) (start : Nat) :
    blockPre lines start start = [] := by
  simp [blockPre]

theorem blockPre_succ (lines : List Line) (start i : Nat) (h1 : start ≤ i)
    (h2 : i < lines.length) :
    blockPre lines start (i + 1) = blockPre lines start i ++ lines.getD i [] := by
  unfold blockPre
  have hix : i + 1 - start = (i - start) + 1 := by omega
  rw [hix, List.take_succ]
  have hget : (lines.drop start)[i - start]? = some (lines.getD i []) := by
    rw [List.getElem?_drop]
    have : start + (i - start) = i := by omega
    rw [this]
    rw [List.getElem?_eq_getElem h2, List.getD_eq_getElem _ _ h2]
  rw [hget]
  simp

/-- The claim's stopping condition for the brace scan, at line `i` of the block
starting at `start`: the line has a close brace at which the cumulative depth
(counting every open and close brace anywhere in the lines' text) returns to
zero, the depth having been positive at least once before. -/
def lineCloses (lines : List Line) (start i : Nat) : Prop :=
  ∃ p q, lines.getD i [] = p ++ '}' :: q ∧
    braceCount (blockPre lines start i ++ p) - 1 = 0 ∧
    ∃ r, r <+: blockPre lines start i ++ p ∧ 0 < braceCount r

theorem scanCloses_iff_lineCloses {lines : List Line} {start i : Nat} :
    scanCloses (lines.getD i []) (braceCount (blockPre lines start i))
      ((blockPre lines start i).contains '{') ↔ lineCloses lines start i := by
  constructor
  · rintro ⟨p, q, hpq, hst, hcnt⟩
    refine ⟨p, q, hpq, by rw [braceCount_append]; omega,
      blockPre lines start i ++ p, List.prefix_refl _, by rw [braceCount_append]; omega⟩
  · rintro ⟨p, q, hpq, hz, -⟩
    rw [braceCount_append] at hz
    refine ⟨p, q, hpq, ?_, by omega⟩
    have hpos : 0 < braceCount (blockPre lines start i ++ p) := by
      rw [braceCount_append]; omega
    rcases List.mem_append.mp (braceCount_pos_mem hpos) with h | h
    · exact Or.inl (List.elem_iff.mpr h)
    · exact Or.inr h

theorem braceEndLoop_stops {lines : List Line} {start j : Nat}
    (hj : j < lines.length) (hc : lineCloses lines start j) :
    ∀ i, start ≤ i → i ≤ j →
    (∀ k, i ≤ k → k < j → ¬ lineCloses lines start k) →
    braceEndLoop lines (lines.length - i) i (braceCount (blockPre lines start i))
      ((blockPre lines start i).contains '{') = j := by
  have H : ∀ n i, start ≤ i → i ≤ j → j - i = n →
      (∀ k, i ≤ k → k < j → ¬ lineCloses lines start k) →
      braceEndLoop lines (lines.length - i) i (braceCount (blockPre lines start i))
        ((blockPre lines start i).contains '{') = j := by
    intro n
    induction n with
    | zero =>
      intro i hsi hij hd _
      have hij' : i = j := by omega
      subst hij'
      have hret : (braceLineScan (lines.getD i []) (braceCount (blockPre lines start i))
          ((blockPre lines start i).contains '{')).2.2 = true := by
        rw [braceLineScan_ret_iff]
        exact scanCloses_iff_lineCloses.mpr hc
      obtain ⟨m, hm⟩ : ∃ m, lines.length - i = m + 1 := ⟨lines.length - i - 1, by omega⟩
      rw [hm, braceEndLoop]
      rw [if_pos hret]
    | succ n ih =>
      intro i hsi hij hd hnone
      have hlt : i < j := by omega
      have hilen : i < lines.length := by omega
      have hnc : ¬ lineCloses lines start i := hnone i le_rfl hlt
      have hret : (braceLineScan (lines.getD i []) (braceCount (blockPre lines start i))
          ((blockPre lines start i).contains '{')).2.2 = false := by
        rw [Bool.eq_false_iff]
        intro hx
        rw [braceLineScan_ret_iff] at hx
        exact hnc (scanCloses_iff_lineCloses.mp hx)
      have hfull := braceLineScan_no_ret _ _ _ hret
      obtain ⟨m, hm⟩ : ∃ m, lines.length - i = m + 1 := ⟨lines.length - i - 1, by omega⟩
      have hm' : m = lines.length - (i + 1) := by omega
      rw [hm, braceEndLoop]
      rw [if_neg (by rw [hret]; simp)]
      rw [hfull]
      simp only
      have e1 : braceCount (blockPre lines start i) + braceCount (lines.getD i [])
          = braceCount (blockPre lines start (i + 1)) := by
        rw [blockPre_succ lines start i hsi hilen, braceCount_append]
      have e2 : ((blockPre lines start i).contains '{' || (lines.getD i []).contains '{')
          = (blockPre lines start (i + 1)).contains '{' := by
        rw [blockPre_succ lines start i hsi hilen, contains_append]
      rw [e1, e2, hm']
      exact ih (i + 1) (by omega) (by omega) (by omega)
        (fun k h1 h2 => hnone k (by omega) h2)
  intro i h1 h2 h3
  exact H (j - i) i h1 h2 rfl h3

theorem braceEndLoop_none {lines : List Line} {start : Nat} :
    ∀ i, start ≤ i →
    (∀ j, i ≤ j → j < lines.length → ¬ lineCloses lines start j) →
    braceEndLoop lines (lines.length - i) i (braceCount (blockPre lines start i))
      ((blockPre lines start i).contains '{') = lines.length - 1 := by
  have H : ∀ n i, start ≤ i → lines.length - i = n →
      (∀ j, i ≤ j → j < lines.length → ¬ lineCloses lines start j) →
      braceEndLoop lines (lines.length - i) i (braceCount (blockPre lines start i))
        ((blockPre lines start i).contains '{') = lines.length - 1 := by
    intro n
    induction n with
    | zero =>
      intro i hsi hd _
      rw [hd, braceEndLoop]
    | succ n ih =>
      intro i hsi hd hnone
      have hilen : i < lines.length := by omega
      have hnc : ¬ lineCloses lines start i := hnone i le_rfl hilen
      have hret : (braceLineScan (lines.getD i []) (braceCount (blockPre lines start i))
          ((blockPre lines start i).contains '{')).2.2 = false := by
        rw [Bool.eq_false_iff]
        intro hx
        rw [braceLineScan_ret_iff] at hx
        exact hnc (scanCloses_iff_lineCloses.mp hx)
      have hfull := braceLineScan_no_ret _ _ _ hret
      rw [hd, braceEndLoop]
      rw [if_neg (by rw [hret]; simp)]
      rw [hfull]
      simp only
      have hn' : n = lines.length - (i + 1) := by omega
      have e1 : braceCount (blockPre lines start i) + braceCount (lines.getD i [])
          = braceCount (blockPre lines start (i + 1)) := by
        rw [blockPre_succ lines start i hsi hilen, braceCount_append]
      have e2 : ((blockPre lines start i).contains '{' || (lines.getD i []).contains '{')
          = (blockPre lines start (i + 1)).contains '{' := by
        rw [blockPre_succ lines start i hsi hilen, contains_append]
      rw [e1, e2, hn']
      exact ih (i + 1) (by omega) (by omega) (fun k h1 h2 => hnone k (by omega) h2)
  intro i h1 h2
  exact H (lines.length - i) i h1 rfl h2


/-- C6.  For every brace-block language (every language other than the
indentation one), the resolved block extent is the first line, scanning from
the start line, on which the running depth — incremented at each open brace
and decremented at each close brace anywhere in each line's text — returns to
zero at a close brace after having been positive; when no line does so, the
block runs to the last line of the file. -/
theorem brace_block_extent (language : String) (hlang : language ≠ "python")
    (lines : List Line) (start : Nat) (hs : start < lines.length) :
    (∀ j, start ≤ j → j < lines.length → lineCloses lines start j →
      (∀ k, start ≤ k → k < j → ¬ lineCloses lines start k) →
      findBlockEnd language lines start = j) ∧
    ((∀ j, start ≤ j → j < lines.length → ¬ lineCloses lines start j) →
      findBlockEnd language lines start = lines.length - 1) := by
  have hdisp : findBlockEnd language lines start = findBraceBlockEnd lines start := by
    unfold findBlockEnd
    rw [if_neg hlang]
  have hzero : braceCount (blockPre lines start start) = 0 := by
    rw [blockPre_start]; rfl
  have hcon : (blockPre lines start start).contains '{' = false := by
    rw [blockPre_start]; rfl
  constructor
  · intro j h1 h2 h3 h4
    rw [hdisp]
    unfold findBraceBlockEnd
    rw [if_neg (by omega)]
    have := braceEndLoop_stops h2 h3 start le_rfl h1 h4
    rw [hzero, hcon] at this
    exact this
  · intro hnone
    rw [hdisp]
    unfold findBraceBlockEnd
    rw [if_neg (by omega)]
    have := braceEndLoop_none start le_rfl (fun j hj1 hj2 => hnone j hj1 hj2)
    rw [hzero, hcon] at this
    exact this

/-- Witness for C6 on the spec's nesting example: the single line
with balanced nested braces is a one-line block. -/
theorem brace_block_extent_witness :
    ("javascript" ≠ "python") ∧ (0 < 1) ∧
      findBlockEnd "javascript" [("foo() \x7b if (x) \x7b y(); \x7d z(); \x7d".data)] 0 = 0 := by
  refine ⟨by decide, by decide, ?_⟩
  refine (brace_block_extent "javascript" (by decide)
    [("foo() \x7b if (x) \x7b y(); \x7d z(); \x7d".data)] 0 (by decide)).1 0 le_rfl (by decide)
    ⟨("foo() \x7b if (x) \x7b y(); \x7d z(); ".data), [], by decide, by decide,
      ("foo() \x7b if (x) \x7b y(); \x7d z(); ".data), List.prefix_refl _, by decide⟩
    (fun k h1 h2 => absurd h2 (by omega))
theorem pyStrip_eq_rdrop (s : PyStr) :
    pyStrip s = List.rdropWhile wsChar (s.dropWhile wsChar) := rfl

theorem getLastD_eq_getLast (t : PyStr) (h : t ≠ []) (d : Char) :
    t.getLastD d = t.getLast h := by
  rw [List.getLastD_eq_getLast?, List.getLast?_eq_getLast t h]
  rfl

theorem headD_eq_get0 (t : PyStr) (h : 0 < t.length) (d : Char) :
    t.headD d = t.get ⟨0, h⟩ := by
  cases t with
  | nil => simp at h
  | cons c cs => rfl

theorem headD_of_pref {t u : PyStr} (hp : t <+: u) (hne : t ≠ []) (d : Char) :
    u.headD d = t.headD d := by
  obtain ⟨r, rfl⟩ := hp
  cases t with
  | nil => exact absurd rfl hne
  | cons c cs => rfl

theorem dropWhile_eq_self_of_headD {s : PyStr} (h : wsChar (s.headD 'x') = false) :
    s.dropWhile wsChar = s := by
  cases s with
  | nil => rfl
  | cons c cs => exact List.dropWhile_cons_of_neg (by simpa using h)

theorem pyStrip_eq_self {s : PyStr} (hh : wsChar (s.headD 'x') = false)
    (hl : wsChar (s.getLastD 'x') = false) : pyStrip s = s := by
  rw [pyStrip_eq_rdrop, dropWhile_eq_self_of_headD hh]
  rw [List.rdropWhile_eq_self_iff.mpr ?_]
  intro h
  rw [← getLastD_eq_getLast s h 'x', hl]
  simp

theorem pyStrip_prefix_of_head {s : PyStr} (h : wsChar (s.headD 'x') = false) :
    pyStrip s <+: s := by
  rw [pyStrip_eq_rdrop, dropWhile_eq_self_of_headD h]
  exact List.rdropWhile_prefix _ _

theorem mem_pyStrip {a : Char} {s : PyStr} (h : a ∈ pyStrip s) : a ∈ s := by
  rw [pyStrip_eq_rdrop] at h
  have h1 := (List.rdropWhile_prefix wsChar (s.dropWhile wsChar)).mem h
  exact (List.dropWhile_suffix wsChar).mem h1

theorem pyStrip_headD {s : PyStr} (h : pyStrip s ≠ []) :
    wsChar ((pyStrip s).headD 'x') = false := by
  rw [pyStrip_eq_rdrop] at h ⊢
  have hpre := List.rdropWhile_prefix wsChar (s.dropWhile wsChar)
  have hlen : 0 < (s.dropWhile wsChar).length := by
    rcases hpre with ⟨r, hr⟩
    rw [← hr]
    simp only [List.length_append]
    have : List.rdropWhile wsChar (s.dropWhile wsChar) ≠ [] := h
    have := List.length_pos.mpr this
    omega
  rw [← headD_of_pref hpre h 'x']
  rw [headD_eq_get0 _ hlen 'x']
  have := List.dropWhile_get_zero_not wsChar s hlen
  simpa using this

theorem pyStrip_getLastD {s : PyStr} (h : pyStrip s ≠ []) :
    wsChar ((pyStrip s).getLastD 'x') = false := by
  rw [pyStrip_eq_rdrop] at h ⊢
  rw [getLastD_eq_getLast _ h 'x']
  have := List.rdropWhile_last_not wsChar (s.dropWhile wsChar) h
  simpa using this

theorem pyStrip_idem (s : PyStr) : pyStrip (pyStrip s) = pyStrip s := by
  by_cases hn : pyStrip s = []
  · rw [hn]; rfl
  · exact pyStrip_eq_self (pyStrip_headD hn) (pyStrip_getLastD hn)

theorem pyStrip_cons_ws {c : Char} (hc : wsChar c = true) (s : PyStr) :
    pyStrip (c :: s) = pyStrip s := by
  rw [pyStrip_eq_rdrop, pyStrip_eq_rdrop]
  congr 1
  exact List.dropWhile_cons_of_pos hc

theorem pyStrip_eq_nil_iff {s : PyStr} :
    pyStrip s = [] ↔ ∀ c ∈ s, wsChar c = true := by
  constructor
  · intro h c hc
    induction s with
    | nil => cases hc
    | cons d t ih =>
      by_cases hd : wsChar d = true
      · rw [pyStrip_cons_ws hd] at h
        rcases List.mem_cons.mp hc with rfl | hmem
        · exact hd
        · exact ih h hmem
      · rw [pyStrip_eq_rdrop,
          List.dropWhile_cons_of_neg (by simpa using hd)] at h
        have := List.rdropWhile_eq_nil_iff.mp h
        rcases List.mem_cons.mp hc with rfl | hmem
        · exact this c (List.mem_cons_self _ _)
        · exact this c (List.mem_cons_of_mem _ hmem)
  · intro h
    induction s with
    | nil => rfl
    | cons d t ih =>
      rw [pyStrip_cons_ws (h d (List.mem_cons_self _ _))]
      exact ih (fun c hc => h c (List.mem_cons_of_mem _ hc))

theorem isBlankL_iff {s : PyStr} : isBlankL s = true ↔ ∀ c ∈ s, wsChar c = true := by
  unfold isBlankL
  rw [beq_iff_eq]
  exact pyStrip_eq_nil_iff
theorem leadingStripF_irrel : ∀ (f1 f2 : Nat) (l : PyStr), l.length ≤ f1 →
    l.length ≤ f2 → leadingStripF f1 l = leadingStripF f2 l := by
  intro f1
  induction f1 with
  | zero =>
    intro f2 l h1 _
    have : l = [] := List.eq_nil_of_length_eq_zero (by omega)
    subst this
    cases f2 <;> rfl
  | succ f1 ih =>
    intro f2 l h1 h2
    cases l with
    | nil => cases f2 <;> rfl
    | cons c cs =>
      cases f2 with
      | zero => simp at h2
      | succ f2 =>
        rw [leadingStripF, leadingStripF]
        have hd2 : (pyStrip ((c :: cs).drop 2)).length ≤ cs.length := by
          have := pyStrip_length_le ((c :: cs).drop 2)
          simp only [List.length_drop, List.length_cons] at this ⊢
          omega
        have hd1 : (pyStrip cs).length ≤ cs.length := pyStrip_length_le cs
        simp only [List.length_cons] at h1 h2
        split
        · split
          · exact ih f2 _ (by omega) (by omega)
          · split
            · exact ih f2 _ (by omega) (by omega)
            · split
              · exact ih f2 _ (by omega) (by omega)
              · rfl
        · rfl

theorem leadingStrip_unfold (c : Char) (cs : List Char) :
    leadingStrip (c :: cs) =
      if c = '/' || c = '*' || c = '#' then
        if ("//").data.isPrefixOf (c :: cs) || ("/*").data.isPrefixOf (c :: cs) then
          leadingStrip (pyStrip ((c :: cs).drop 2))
        else if c = '#' then leadingStrip (pyStrip cs)
        else if c = '*' then leadingStrip (pyStrip cs)
        else c :: cs
      else c :: cs := by
  show leadingStripF (c :: cs).length (c :: cs) = _
  rw [show (c :: cs).length = cs.length + 1 from rfl, leadingStripF]
  have hd2 : (pyStrip ((c :: cs).drop 2)).length ≤ cs.length := by
    have := pyStrip_length_le ((c :: cs).drop 2)
    simp only [List.length_drop, List.length_cons] at this ⊢
    omega
  have hd1 : (pyStrip cs).length ≤ cs.length := pyStrip_length_le cs
  split
  · split
    · exact leadingStripF_irrel _ _ _ (by omega) le_rfl
    · split
      · exact leadingStripF_irrel _ _ _ (by omega) le_rfl
      · split
        · exact leadingStripF_irrel _ _ _ (by omega) le_rfl
        · rfl
  · rfl

theorem leadingStrip_nil : leadingStrip [] = [] := rfl

theorem trailingStripF_irrel : ∀ (f1 f2 : Nat) (l : PyStr), l.length ≤ f1 →
    l.length ≤ f2 → trailingStripF f1 l = trailingStripF f2 l := by
  intro f1
  induction f1 with
  | zero =>
    intro f2 l h1 _
    have hl : l.length = 0 := by omega
    cases f2 with
    | zero => rfl
    | succ f2 =>
      rw [trailingStripF, trailingStripF, if_neg (by omega)]
  | succ f1 ih =>
    intro f2 l h1 h2
    cases f2 with
    | zero =>
      have hl : l.length = 0 := by omega
      rw [trailingStripF, trailingStripF, if_neg (by omega)]
    | succ f2 =>
      rw [trailingStripF, trailingStripF]
      by_cases hlen : 2 ≤ l.length
      · rw [if_pos hlen, if_pos hlen]
        have ht2 : (pyStrip (l.take (l.length - 2))).length ≤ l.length - 2 := by
          have := pyStrip_length_le (l.take (l.length - 2))
          have := List.length_take (l.length - 2) l
          omega
        have ht1 : (pyStrip (l.take (l.length - 1))).length ≤ l.length - 1 := by
          have := pyStrip_length_le (l.take (l.length - 1))
          have := List.length_take (l.length - 1) l
          omega
        split
        · exact ih f2 _ (by omega) (by omega)
        · split
          · exact ih f2 _ (by omega) (by omega)
          · rfl
      · rw [if_neg hlen, if_neg hlen]

theorem trailingStrip_unfold (l : PyStr) :
    trailingStrip l =
      if 2 ≤ l.length then
        if ("*/").data.isSuffixOf l then trailingStrip (pyStrip (l.take (l.length - 2)))
        else if l.getLastD ' ' = '*' then trailingStrip (pyStrip (l.take (l.length - 1)))
        else l
      else l := by
  show trailingStripF l.length l = _
  by_cases hlen : 2 ≤ l.length
  · obtain ⟨m, hm⟩ : ∃ m, l.length = m + 1 := ⟨l.length - 1, by omega⟩
    rw [hm, trailingStripF, ← hm, if_pos hlen, if_pos hlen]
    have ht2 : (pyStrip (l.take (l.length - 2))).length ≤ l.length - 2 := by
      have := pyStrip_length_le (l.take (l.length - 2))
      have := List.length_take (l.length - 2) l
      omega
    have ht1 : (pyStrip (l.take (l.length - 1))).length ≤ l.length - 1 := by
      have := pyStrip_length_le (l.take (l.length - 1))
      have := List.length_take (l.length - 1) l
      omega
    split
    · exact trailingStripF_irrel _ _ _ (by omega) le_rfl
    · split
      · exact trailingStripF_irrel _ _ _ (by omega) le_rfl
      · rfl
  · rw [if_neg hlen]
    cases hl : l.length with
    | zero => rfl
    | succ m =>
      rw [trailingStripF, if_neg (by omega)]

theorem trailingStrip_nil : trailingStrip [] = [] := rfl

theorem joinNl_cons_cons (l y : PyStr) (ys : List PyStr) :
    joinNl (l :: y :: ys) = l ++ '\n' :: joinNl (y :: ys) := rfl

theorem splitNlAux_no_nl : ∀ (l cur : List Char), '\n' ∉ l →
    splitNlAux l cur = [cur.reverse ++ l] := by
  intro l
  induction l with
  | nil => intro cur _; simp [splitNlAux]
  | cons c cs ih =>
    intro cur hn
    have hc : ¬ c = '\n' := fun h => hn (h ▸ List.mem_cons_self _ _)
    rw [splitNlAux, if_neg hc]
    rw [ih (c :: cur) (fun h => hn (List.mem_cons_of_mem _ h))]
    simp

theorem splitNlAux_append : ∀ (l : List Char) (r cur : List Char), '\n' ∉ l →
    splitNlAux (l ++ '\n' :: r) cur = (cur.reverse ++ l) :: splitNlAux r [] := by
  intro l
  induction l with
  | nil =>
    intro r cur _
    rw [List.nil_append, splitNlAux, if_pos rfl]
    simp
  | cons c cs ih =>
    intro r cur hn
    have hc : ¬ c = '\n' := fun h => hn (h ▸ List.mem_cons_self _ _)
    rw [List.cons_append, splitNlAux, if_neg hc]
    rw [ih r (c :: cur) (fun h => hn (List.mem_cons_of_mem _ h))]
    simp

theorem splitNl_joinNl : ∀ (ls : List PyStr), ls ≠ [] → (∀ l ∈ ls, '\n' ∉ l) →
    splitNl (joinNl ls) = ls := by
  intro ls
  induction ls with
  | nil => intro h; exact absurd rfl h
  | cons x xs ih =>
    intro _ hn
    cases xs with
    | nil =>
      unfold splitNl
      rw [show joinNl [x] = x from rfl]
      rw [splitNlAux_no_nl x [] (hn x (List.mem_cons_self _ _))]
      simp
    | cons y ys =>
      unfold splitNl
      rw [joinNl_cons_cons]
      rw [splitNlAux_append x _ [] (hn x (List.mem_cons_self _ _))]
      simp only [List.reverse_nil, List.nil_append]
      have := ih (by simp) (fun l hl => hn l (List.mem_cons_of_mem _ hl))
      unfold splitNl at this
      rw [this]

theorem mem_splitNl_no_nl : ∀ (s : List Char) (cur : List Char), '\n' ∉ cur →
    ∀ l ∈ splitNlAux s cur, '\n' ∉ l := by
  intro s
  induction s with
  | nil =>
    intro cur hc l hl
    simp [splitNlAux] at hl
    subst hl
    simpa using hc
  | cons c cs ih =>
    intro cur hc l hl
    by_cases hcn : c = '\n'
    · subst hcn
      rw [splitNlAux, if_pos rfl] at hl
      rcases List.mem_cons.mp hl with rfl | hmem
      · simpa using hc
      · exact ih [] (by simp) l hmem
    · rw [splitNlAux, if_neg hcn] at hl
      exact ih (c :: cur) (by
        intro hx
        rcases List.mem_cons.mp hx with h | h
        · exact hcn h.symm
        · exact hc h) l hl

theorem getLastD_indep {b : PyStr} (hb : b ≠ []) (c d : Char) :
    b.getLastD c = b.getLastD d := by
  rw [getLastD_eq_getLast b hb c, getLastD_eq_getLast b hb d]

theorem getLastD_append (a : PyStr) {b : PyStr} (hb : b ≠ []) (d : Char) :
    (a ++ b).getLastD d = b.getLastD d := by
  induction a generalizing d with
  | nil => rfl
  | cons c cs ih =>
    rw [List.cons_append, List.getLastD_cons]
    rw [ih c]
    exact getLastD_indep hb c d

theorem joinNl_ne_nil (x y : PyStr) (ys : List PyStr) : joinNl (x :: y :: ys) ≠ [] := by
  rw [joinNl_cons_cons]
  simp

theorem joinNl_headD {x : PyStr} (hx : x ≠ []) (xs : List PyStr) (d : Char) :
    (joinNl (x :: xs)).headD d = x.headD d := by
  cases xs with
  | nil => rfl
  | cons y ys =>
    rw [joinNl_cons_cons]
    cases x with
    | nil => exact absurd rfl hx
    | cons c cs => rfl

theorem joinNl_getLastD : ∀ (xs : List PyStr) (x : PyStr), x ≠ [] →
    (∀ l ∈ xs, l ≠ []) → (xs = [] → True) →
    (joinNl (xs.concat x)).getLastD 'x' = x.getLastD 'x' := by
  intro xs
  induction xs with
  | nil => intro x _ _ _; rfl
  | cons y ys ih =>
    intro x hx hmem _
    rw [List.concat_eq_append, List.cons_append]
    have hne : (ys ++ [x]) ≠ [] := by simp
    rcases List.exists_cons_of_ne_nil hne with ⟨z, zs, hz⟩
    rw [hz, joinNl_cons_cons, ← hz]
    rw [getLastD_append]
    · have := ih x hx (fun l hl => hmem l (List.mem_cons_of_mem _ hl)) (fun _ => trivial)
      rw [List.concat_eq_append] at this
      have hcons : '\n' :: joinNl (ys ++ [x]) = ['\n'] ++ joinNl (ys ++ [x]) := rfl
      rw [hcons, getLastD_append]
      · exact this
      · cases ys with
        | nil => simpa using hx
        | cons w ws =>
          rw [List.cons_append]
          rcases List.exists_cons_of_ne_nil (show ws ++ [x] ≠ [] by simp) with ⟨u, us, hu⟩
          rw [hu]
          exact joinNl_ne_nil w u us
    · simp

theorem joinNl_ne_nil_of_mem : ∀ (x : PyStr) (xs : List PyStr), x ≠ [] →
    joinNl (x :: xs) ≠ [] := by
  intro x xs hx
  cases xs with
  | nil => exact hx
  | cons y ys => exact joinNl_ne_nil x y ys

theorem joinNl_getLastD2 : ∀ (xs : List PyStr) (x : PyStr), (∀ l ∈ x :: xs, l ≠ []) →
    (joinNl (x :: xs)).getLastD 'x' = ((x :: xs).getLast (by simp)).getLastD 'x' := by
  intro xs
  induction xs with
  | nil => intro x _; rfl
  | cons y ys ih =>
    intro x hall
    rw [joinNl_cons_cons]
    have hjne : joinNl (y :: ys) ≠ [] :=
      joinNl_ne_nil_of_mem y ys (hall y (by simp))
    rw [getLastD_append x (by simp) 'x']
    rw [show ('\n' :: joinNl (y :: ys)) = ['\n'] ++ joinNl (y :: ys) from rfl]
    rw [getLastD_append ['\n'] hjne 'x']
    rw [ih y (fun l hl => hall l (List.mem_cons_of_mem _ hl))]
    congr 1


/-- The exit shape of the leading-marker loop: cleaning makes no progress. -/
def LeadShape : PyStr → Prop
  | [] => True
  | c :: cs => (¬ c = '/' ∧ ¬ c = '*' ∧ ¬ c = '#') ∨
      (c = '/' ∧ ¬ ("//").data <+: (c :: cs) ∧ ¬ ("/*").data <+: (c :: cs))

theorem leadingStrip_of_shape : ∀ {s : PyStr}, LeadShape s → leadingStrip s = s := by
  intro s hs
  cases s with
  | nil => rfl
  | cons c cs =>
    rcases hs with ⟨h1, h2, h3⟩ | ⟨h1, h2, h3⟩
    · rw [leadingStrip_unfold]
      rw [if_neg (by simp [h1, h2, h3])]
    · rw [leadingStrip_unfold]
      rw [if_pos (by simp [h1])]
      rw [if_neg (by
        simp only [Bool.or_eq_true, List.isPrefixOf_iff_prefix]
        rintro (h | h)
        · exact h2 h
        · exact h3 h)]
      rw [if_neg (by rw [h1]; decide), if_neg (by rw [h1]; decide)]

theorem leadingStrip_shape (s : PyStr) : LeadShape (leadingStrip s) := by
  have H : ∀ n s, List.length s ≤ n → LeadShape (leadingStrip s) := by
    intro n
    induction n with
    | zero =>
      intro s h
      have : s = [] := List.eq_nil_of_length_eq_zero (by omega)
      subst this
      rw [leadingStrip_nil]
      exact trivial
    | succ n ih =>
      intro s h
      cases s with
      | nil =>
        rw [leadingStrip_nil]
        exact trivial
      | cons c cs =>
        simp only [List.length_cons] at h
        have hd2 : (pyStrip ((c :: cs).drop 2)).length ≤ cs.length := by
          have := pyStrip_length_le ((c :: cs).drop 2)
          simp only [List.length_drop, List.length_cons] at this ⊢
          omega
        have hd1 : (pyStrip cs).length ≤ cs.length := pyStrip_length_le cs
        rw [leadingStrip_unfold]
        by_cases h1 : (decide (c = '/') || decide (c = '*') || decide (c = '#')) = true
        · rw [if_pos h1]
          by_cases h2 : (("//").data.isPrefixOf (c :: cs) ||
              ("/*").data.isPrefixOf (c :: cs)) = true
          · rw [if_pos h2]
            exact ih _ (by omega)
          · rw [if_neg h2]
            by_cases h3 : c = '#'
            · rw [if_pos h3]
              exact ih _ (by omega)
            · rw [if_neg h3]
              by_cases h4 : c = '*'
              · rw [if_pos h4]
                exact ih _ (by omega)
              · rw [if_neg h4]
                have hc : c = '/' := by
                  simp only [Bool.or_eq_true, decide_eq_true_eq] at h1
                  rcases h1 with (h | h) | h
                  · exact h
                  · exact absurd h h4
                  · exact absurd h h3
                refine Or.inr ⟨hc, ?_, ?_⟩ <;>
                  · intro hx
                    apply (by simpa using h2 :
                      ¬(("//").data <+: (c :: cs) ∨ ("/*").data <+: (c :: cs)))
                    tauto
        · rw [if_neg h1]
          left
          refine ⟨?_, ?_, ?_⟩ <;> (intro h'; apply h1; simp [h'])
  exact H s.length s le_rfl

theorem leadShape_pref : ∀ {s t : PyStr}, LeadShape s → t <+: s → LeadShape t := by
  intro s t hs hp
  cases t with
  | nil => exact trivial
  | cons c ts =>
    cases s with
    | nil => exact absurd (List.eq_nil_of_prefix_nil hp) (by simp)
    | cons d ss =>
      have hcd : c = d := by
        obtain ⟨r, hr⟩ := hp
        exact (List.cons.inj hr).1.symm ▸ rfl
      subst hcd
      rcases hs with ⟨h1, h2, h3⟩ | ⟨h1, h2, h3⟩
      · exact Or.inl ⟨h1, h2, h3⟩
      · refine Or.inr ⟨h1, ?_, ?_⟩
        · intro hx; exact h2 (hx.trans hp)
        · intro hx; exact h3 (hx.trans hp)

/-- The exit shape of the trailing-marker loop. -/
def TrailShape (s : PyStr) : Prop :=
  s.length < 2 ∨ (¬ ("*/").data.isSuffixOf s = true ∧ ¬ s.getLastD ' ' = '*')

theorem trailingStrip_of_shape : ∀ {s : PyStr}, TrailShape s → trailingStrip s = s := by
  intro s hs
  rcases hs with h | ⟨h1, h2⟩
  · rw [trailingStrip_unfold, if_neg (by omega)]
  · by_cases hl : 2 ≤ s.length
    · rw [trailingStrip_unfold, if_pos hl, if_neg h1, if_neg h2]
    · rw [trailingStrip_unfold, if_neg hl]

theorem trailingStrip_shape (s : PyStr) : TrailShape (trailingStrip s) := by
  have H : ∀ n s, List.length s ≤ n → TrailShape (trailingStrip s) := by
    intro n
    induction n with
    | zero =>
      intro s h
      have : s = [] := List.eq_nil_of_length_eq_zero (by omega)
      subst this
      rw [trailingStrip_nil]
      exact Or.inl (by simp)
    | succ n ih =>
      intro s h
      by_cases hl : 2 ≤ s.length
      · have ht2 : (pyStrip (s.take (s.length - 2))).length ≤ s.length - 2 := by
          have := pyStrip_length_le (s.take (s.length - 2))
          have := List.length_take (s.length - 2) s
          omega
        have ht1 : (pyStrip (s.take (s.length - 1))).length ≤ s.length - 1 := by
          have := pyStrip_length_le (s.take (s.length - 1))
          have := List.length_take (s.length - 1) s
          omega
        rw [trailingStrip_unfold, if_pos hl]
        by_cases h1 : ("*/").data.isSuffixOf s = true
        · rw [if_pos h1]
          exact ih _ (by omega)
        · rw [if_neg h1]
          by_cases h2 : s.getLastD ' ' = '*'
          · rw [if_pos h2]
            exact ih _ (by omega)
          · rw [if_neg h2]
            exact Or.inr ⟨h1, h2⟩
      · rw [trailingStrip_unfold, if_neg hl]
        exact Or.inl (by omega)
  exact H s.length s le_rfl

theorem trailingStrip_idem (s : PyStr) :
    trailingStrip (trailingStrip s) = trailingStrip s :=
  trailingStrip_of_shape (trailingStrip_shape s)

theorem leadingStrip_idem (s : PyStr) :
    leadingStrip (leadingStrip s) = leadingStrip s :=
  leadingStrip_of_shape (leadingStrip_shape s)

theorem leadingStrip_stripped (s : PyStr) (hstr : pyStrip s = s) :
    pyStrip (leadingStrip s) = leadingStrip s := by
  have H : ∀ n s, List.length s ≤ n → pyStrip s = s →
      pyStrip (leadingStrip s) = leadingStrip s := by
    intro n
    induction n with
    | zero =>
      intro s h _
      have : s = [] := List.eq_nil_of_length_eq_zero (by omega)
      subst this
      rw [leadingStrip_nil]
      rfl
    | succ n ih =>
      intro s h hstr
      cases s with
      | nil => rw [leadingStrip_nil]; rfl
      | cons c cs =>
        simp only [List.length_cons] at h
        have hd2 : (pyStrip ((c :: cs).drop 2)).length ≤ cs.length := by
          have := pyStrip_length_le ((c :: cs).drop 2)
          simp only [List.length_drop, List.length_cons] at this ⊢
          omega
        have hd1 : (pyStrip cs).length ≤ cs.length := pyStrip_length_le cs
        rw [leadingStrip_unfold]
        by_cases h1 : (decide (c = '/') || decide (c = '*') || decide (c = '#')) = true
        · rw [if_pos h1]
          by_cases h2 : (("//").data.isPrefixOf (c :: cs) ||
              ("/*").data.isPrefixOf (c :: cs)) = true
          · rw [if_pos h2]
            exact ih _ (by omega) (pyStrip_idem _)
          · rw [if_neg h2]
            by_cases h3 : c = '#'
            · rw [if_pos h3]
              exact ih _ (by omega) (pyStrip_idem _)
            · rw [if_neg h3]
              by_cases h4 : c = '*'
              · rw [if_pos h4]
                exact ih _ (by omega) (pyStrip_idem _)
              · rw [if_neg h4]
                exact hstr
        · rw [if_neg h1]
          exact hstr
  exact H s.length s le_rfl hstr

theorem trailingStrip_stripped (s : PyStr) (hstr : pyStrip s = s) :
    pyStrip (trailingStrip s) = trailingStrip s := by
  have H : ∀ n s, List.length s ≤ n → pyStrip s = s →
      pyStrip (trailingStrip s) = trailingStrip s := by
    intro n
    induction n with
    | zero =>
      intro s h _
      have : s = [] := List.eq_nil_of_length_eq_zero (by omega)
      subst this
      rw [trailingStrip_nil]
      rfl
    | succ n ih =>
      intro s h hstr
      by_cases hl : 2 ≤ s.length
      · have ht2 : (pyStrip (s.take (s.length - 2))).length ≤ s.length - 2 := by
          have := pyStrip_length_le (s.take (s.length - 2))
          have := List.length_take (s.length - 2) s
          omega
        have ht1 : (pyStrip (s.take (s.length - 1))).length ≤ s.length - 1 := by
          have := pyStrip_length_le (s.take (s.length - 1))
          have := List.length_take (s.length - 1) s
          omega
        rw [trailingStrip_unfold, if_pos hl]
        by_cases h1 : ("*/").data.isSuffixOf s = true
        · rw [if_pos h1]
          exact ih _ (by omega) (pyStrip_idem _)
        · rw [if_neg h1]
          by_cases h2 : s.getLastD ' ' = '*'
          · rw [if_pos h2]
            exact ih _ (by omega) (pyStrip_idem _)
          · rw [if_neg h2]
            exact hstr
      · rw [trailingStrip_unfold, if_neg hl]
        exact hstr
  exact H s.length s le_rfl hstr

theorem headD_take (s : PyStr) (k : Nat) (hk : 0 < k) (d : Char) :
    (s.take k).headD d = s.headD d := by
  cases s with
  | nil => simp
  | cons c cs =>
    cases k with
    | zero => omega
    | succ n => rfl

theorem pyStrip_take_pref {s : PyStr} (h : pyStrip s = s) (k : Nat) :
    pyStrip (s.take k) <+: s.take k := by
  rcases Nat.eq_zero_or_pos k with rfl | hk
  · rw [List.take_zero, show pyStrip ([] : PyStr) = [] from rfl]
  · by_cases hs : s = []
    · subst hs
      rw [List.take_nil, show pyStrip ([] : PyStr) = [] from rfl]
    · apply pyStrip_prefix_of_head
      rw [headD_take s k hk 'x']
      have := pyStrip_headD (s := s) (by rw [h]; exact hs)
      rwa [h] at this

theorem trailingStrip_pref (s : PyStr) (hstr : pyStrip s = s) :
    trailingStrip s <+: s := by
  have H : ∀ n s, List.length s ≤ n → pyStrip s = s → trailingStrip s <+: s := by
    intro n
    induction n with
    | zero =>
      intro s h _
      have : s = [] := List.eq_nil_of_length_eq_zero (by omega)
      subst this
      rw [trailingStrip_nil]
    | succ n ih =>
      intro s h hstr
      by_cases hl : 2 ≤ s.length
      · have ht2 : (pyStrip (s.take (s.length - 2))).length ≤ s.length - 2 := by
          have := pyStrip_length_le (s.take (s.length - 2))
          have := List.length_take (s.length - 2) s
          omega
        have ht1 : (pyStrip (s.take (s.length - 1))).length ≤ s.length - 1 := by
          have := pyStrip_length_le (s.take (s.length - 1))
          have := List.length_take (s.length - 1) s
          omega
        rw [trailingStrip_unfold, if_pos hl]
        by_cases h1 : ("*/").data.isSuffixOf s = true
        · rw [if_pos h1]
          exact ((ih _ (by omega) (pyStrip_idem _)).trans
            (pyStrip_take_pref hstr _)).trans (List.take_prefix _ _)
        · rw [if_neg h1]
          by_cases h2 : s.getLastD ' ' = '*'
          · rw [if_pos h2]
            exact ((ih _ (by omega) (pyStrip_idem _)).trans
              (pyStrip_take_pref hstr _)).trans (List.take_prefix _ _)
          · rw [if_neg h2]
      · rw [trailingStrip_unfold, if_neg hl]
  exact H s.length s le_rfl hstr

theorem mem_leadingStrip (s : PyStr) (a : Char) (ha : a ∈ leadingStrip s) : a ∈ s := by
  have H : ∀ n s, List.length s ≤ n → ∀ a : Char, a ∈ leadingStrip s → a ∈ s := by
    intro n
    induction n with
    | zero =>
      intro s h a ha
      have : s = [] := List.eq_nil_of_length_eq_zero (by omega)
      subst this
      rwa [leadingStrip_nil] at ha
    | succ n ih =>
      intro s h a ha
      cases s with
      | nil => rwa [leadingStrip_nil] at ha
      | cons c cs =>
        simp only [List.length_cons] at h
        have hd2 : (pyStrip ((c :: cs).drop 2)).length ≤ cs.length := by
          have := pyStrip_length_le ((c :: cs).drop 2)
          simp only [List.length_drop, List.length_cons] at this ⊢
          omega
        have hd1 : (pyStrip cs).length ≤ cs.length := pyStrip_length_le cs
        rw [leadingStrip_unfold] at ha
        by_cases h1 : (decide (c = '/') || decide (c = '*') || decide (c = '#')) = true
        · rw [if_pos h1] at ha
          by_cases h2 : (("//").data.isPrefixOf (c :: cs) ||
              ("/*").data.isPrefixOf (c :: cs)) = true
          · rw [if_pos h2] at ha
            exact (List.drop_suffix 2 _).mem (mem_pyStrip (ih _ (by omega) a ha))
          · rw [if_neg h2] at ha
            by_cases h3 : c = '#'
            · rw [if_pos h3] at ha
              exact List.mem_cons_of_mem _ (mem_pyStrip (ih _ (by omega) a ha))
            · rw [if_neg h3] at ha
              by_cases h4 : c = '*'
              · rw [if_pos h4] at ha
                exact List.mem_cons_of_mem _ (mem_pyStrip (ih _ (by omega) a ha))
              · rwa [if_neg h4] at ha
        · rwa [if_neg h1] at ha
  exact H s.length s le_rfl a ha

theorem mem_trailingStrip (s : PyStr) (a : Char) (ha : a ∈ trailingStrip s) : a ∈ s := by
  have H : ∀ n s, List.length s ≤ n → ∀ a : Char, a ∈ trailingStrip s → a ∈ s := by
    intro n
    induction n with
    | zero =>
      intro s h a ha
      have : s = [] := List.eq_nil_of_length_eq_zero (by omega)
      subst this
      rwa [trailingStrip_nil] at ha
    | succ n ih =>
      intro s h a ha
      by_cases hl : 2 ≤ s.length
      · have ht2 : (pyStrip (s.take (s.length - 2))).length ≤ s.length - 2 := by
          have := pyStrip_length_le (s.take (s.length - 2))
          have := List.length_take (s.length - 2) s
          omega
        have ht1 : (pyStrip (s.take (s.length - 1))).length ≤ s.length - 1 := by
          have := pyStrip_length_le (s.take (s.length - 1))
          have := List.length_take (s.length - 1) s
          omega
        rw [trailingStrip_unfold, if_pos hl] at ha
        by_cases h1 : ("*/").data.isSuffixOf s = true
        · rw [if_pos h1] at ha
          exact (List.take_prefix _ _).mem (mem_pyStrip (ih _ (by omega) a ha))
        · rw [if_neg h1] at ha
          by_cases h2 : s.getLastD ' ' = '*'
          · rw [if_pos h2] at ha
            exact (List.take_prefix _ _).mem (mem_pyStrip (ih _ (by omega) a ha))
          · rwa [if_neg h2] at ha
      · rwa [trailingStrip_unfold, if_neg hl] at ha
  exact H s.length s le_rfl a ha

/-- The cleaned form of one raw line inside `format_comment`: strip, remove
leading and trailing comment markers, strip again. -/
def cleanedLine (l : PyStr) : PyStr := pyStrip (trailingStrip (leadingStrip (pyStrip l)))

theorem cleanedLine_eq (l : PyStr) :
    cleanedLine l = trailingStrip (leadingStrip (pyStrip l)) := by
  unfold cleanedLine
  exact trailingStrip_stripped _ (leadingStrip_stripped _ (pyStrip_idem l))

theorem cleanedLine_stripped (l : PyStr) : pyStrip (cleanedLine l) = cleanedLine l :=
  pyStrip_idem _

theorem cleanedLine_leadShape (l : PyStr) : LeadShape (cleanedLine l) := by
  rw [cleanedLine_eq]
  have h2 : pyStrip (leadingStrip (pyStrip l)) = leadingStrip (pyStrip l) :=
    leadingStrip_stripped _ (pyStrip_idem l)
  exact leadShape_pref (leadingStrip_shape (pyStrip l)) (trailingStrip_pref _ h2)

theorem cleanedLine_trailFixed (l : PyStr) :
    trailingStrip (cleanedLine l) = cleanedLine l := by
  rw [cleanedLine_eq]
  exact trailingStrip_idem _

theorem mem_cleanedLine {a : Char} {l : PyStr} (h : a ∈ cleanedLine l) : a ∈ l :=
  mem_pyStrip (mem_leadingStrip _ _ (mem_trailingStrip _ _ (mem_pyStrip h)))

theorem splitLongLine_short {t : PyStr} {n : Nat} (h : t.length ≤ n) :
    splitLongLine t n = [t] := by
  unfold splitLongLine
  rw [if_pos h]

theorem processLine_eq (l : PyStr) (hle : (cleanedLine l).length ≤ 30) :
    processLine l = if cleanedLine l = [] then [] else [cleanedLine l] := by
  unfold processLine
  by_cases h1 : pyStrip l = []
  · rw [if_pos (by simp [h1])]
    have : cleanedLine l = [] := by
      unfold cleanedLine
      rw [h1, leadingStrip_nil, trailingStrip_nil]
      rfl
    rw [if_pos this]
  · rw [if_neg (by simp [h1])]
    simp only
    by_cases h2 : cleanedLine l = []
    · rw [if_pos (by unfold cleanedLine at h2; simp [h2]), if_pos h2]
    · rw [if_neg (by unfold cleanedLine at h2; simpa using h2), if_neg h2]
      exact splitLongLine_short hle

/-- The processed line list computed inside `format_comment`. -/
def fcLines (c : PyStr) : List PyStr :=
  (splitNl (pyStrip (stripFence c))).flatMap processLine

theorem fcLines_props {c : PyStr}
    (H : ∀ raw ∈ splitNl (pyStrip (stripFence c)), (cleanedLine raw).length ≤ 30) :
    ∀ l ∈ fcLines c, l ≠ [] ∧ pyStrip l = l ∧ LeadShape l ∧
      trailingStrip l = l ∧ l.length ≤ 30 ∧ '\n' ∉ l := by
  intro l hl
  rcases List.mem_flatMap.mp hl with ⟨raw, hraw, hmem⟩
  rw [processLine_eq raw (H raw hraw)] at hmem
  by_cases hz : cleanedLine raw = []
  · rw [if_pos hz] at hmem; cases hmem
  · rw [if_neg hz] at hmem
    rcases List.mem_singleton.mp hmem with rfl
    refine ⟨hz, cleanedLine_stripped raw, cleanedLine_leadShape raw,
      cleanedLine_trailFixed raw, H raw hraw, ?_⟩
    intro hnl
    have hinraw : '\n' ∈ raw := mem_cleanedLine hnl
    have : '\n' ∉ raw := by
      apply mem_splitNl_no_nl _ [] (by simp) raw
      exact hraw
    exact this hinraw

theorem processLine_marker_py {l : PyStr} (hne : l ≠ []) (hstr : pyStrip l = l)
    (hshape : LeadShape l) (htrail : trailingStrip l = l) (hlen : l.length ≤ 30) :
    processLine ('#' :: ' ' :: l) = [l] := by
  have hlast : wsChar (l.getLastD 'x') = false := by
    have := pyStrip_getLastD (s := l) (by rw [hstr]; exact hne)
    rwa [hstr] at this
  have hstrip : pyStrip ('#' :: ' ' :: l) = '#' :: ' ' :: l := by
    apply pyStrip_eq_self
    · rfl
    · rw [show ('#' :: ' ' :: l) = (['#', ' '] ++ l) from rfl,
        getLastD_append _ hne 'x']
      exact hlast
  have hlead : leadingStrip ('#' :: ' ' :: l) = l := by
    rw [leadingStrip_unfold]
    rw [if_pos (by decide)]
    rw [if_neg (by simp [List.isPrefixOf])]
    rw [if_pos rfl]
    rw [pyStrip_cons_ws (by decide) l, hstr]
    exact leadingStrip_of_shape hshape
  unfold processLine
  rw [hstrip]
  rw [if_neg (by simp)]
  simp only
  rw [hlead, htrail, hstr]
  rw [if_neg (by simpa using hne)]
  exact splitLongLine_short hlen

theorem processLine_marker_slash {l : PyStr} (hne : l ≠ []) (hstr : pyStrip l = l)
    (hshape : LeadShape l) (htrail : trailingStrip l = l) (hlen : l.length ≤ 30) :
    processLine ('/' :: '/' :: ' ' :: l) = [l] := by
  have hlast : wsChar (l.getLastD 'x') = false := by
    have := pyStrip_getLastD (s := l) (by rw [hstr]; exact hne)
    rwa [hstr] at this
  have hstrip : pyStrip ('/' :: '/' :: ' ' :: l) = '/' :: '/' :: ' ' :: l := by
    apply pyStrip_eq_self
    · rfl
    · rw [show ('/' :: '/' :: ' ' :: l) = (['/', '/', ' '] ++ l) from rfl,
        getLastD_append _ hne 'x']
      exact hlast
  have hlead : leadingStrip ('/' :: '/' :: ' ' :: l) = l := by
    rw [leadingStrip_unfold]
    rw [if_pos (by decide)]
    rw [if_pos (by simp [List.isPrefixOf])]
    rw [show List.drop 2 ('/' :: '/' :: ' ' :: l) = ' ' :: l from rfl]
    rw [pyStrip_cons_ws (by decide) l, hstr]
    exact leadingStrip_of_shape hshape
  unfold processLine
  rw [hstrip]
  rw [if_neg (by simp)]
  simp only
  rw [hlead, htrail, hstr]
  rw [if_neg (by simpa using hne)]
  exact splitLongLine_short hlen

/-- The single-line comment marker the formatter uses for a non-block-comment
language. -/
def lineMarker (language : String) : PyStr :=
  if language = "javascript" || language = "typescript" || language = "vue" ||
      language = "go" then '/' :: '/' :: ' ' :: []
  else '#' :: ' ' :: []

theorem formatComment_nil (language : String) : formatComment [] language [] = [] := rfl

theorem headD_append {a : PyStr} (ha : a ≠ []) (b : PyStr) (d : Char) :
    (a ++ b).headD d = a.headD d := by
  cases a with
  | nil => exact absurd rfl ha
  | cons c cs => rfl

theorem formatComment_render (c : PyStr) (language : String)
    (h1 : ¬ language = "c") (h2 : ¬ language = "cpp") (h3 : ¬ language = "cuda")
    (hne : pyStrip (stripFence c) ≠ []) (hp : fcLines c ≠ []) :
    formatComment c language [] =
      joinNl ((fcLines c).map (fun l => lineMarker language ++ l)) := by
  unfold formatComment
  rw [if_neg (by simpa [List.isEmpty_iff] using hne)]
  simp only
  rw [if_neg (by simpa only [List.isEmpty_iff] using hp)]
  by_cases hpy : language = "python"
  · rw [if_pos hpy]
    subst hpy
    rfl
  · rw [if_neg hpy]
    by_cases hjs : language = "javascript" || language = "typescript" || language = "vue"
    · rw [if_pos hjs]
      have hmk : lineMarker language = '/' :: '/' :: ' ' :: [] := by
        unfold lineMarker
        rcases Bool.or_eq_true _ _ |>.mp hjs with h | h
        · rcases Bool.or_eq_true _ _ |>.mp h with h | h <;> simp [decide_eq_true_eq.mp h]
        · simp [decide_eq_true_eq.mp h]
      rw [hmk]
      rfl
    · rw [if_neg hjs]
      by_cases hgo : language = "go"
      · rw [if_pos hgo]
        have hmk : lineMarker language = '/' :: '/' :: ' ' :: [] := by
          unfold lineMarker
          simp [hgo]
        rw [hmk]
        rfl
      · rw [if_neg hgo]
        rw [if_neg (by simp [h1, h2, h3])]
        have hmk : lineMarker language = '#' :: ' ' :: [] := by
          unfold lineMarker
          rw [if_neg (by simp_all)]
        rw [hmk]
        rfl

theorem isPrefixOf_headD {a : Char} {as t : PyStr}
    (h : (a :: as).isPrefixOf t = true) (d : Char) : t.headD d = a := by
  rw [List.isPrefixOf_iff_prefix] at h
  rw [headD_of_pref h (by simp) d]
  rfl

theorem lineMarker_cases (language : String) :
    lineMarker language = '#' :: ' ' :: [] ∨ lineMarker language = '/' :: '/' :: ' ' :: [] := by
  unfold lineMarker
  split
  · exact Or.inr rfl
  · exact Or.inl rfl

theorem formatComment_fixed (L : List PyStr) (language : String)
    (h1 : ¬ language = "c") (h2 : ¬ language = "cpp") (h3 : ¬ language = "cuda")
    (hL : L ≠ [])
    (props : ∀ l ∈ L, l ≠ [] ∧ pyStrip l = l ∧ LeadShape l ∧
      trailingStrip l = l ∧ l.length ≤ 30 ∧ '\n' ∉ l) :
    formatComment (joinNl (L.map (fun l => lineMarker language ++ l))) language [] =
      joinNl (L.map (fun l => lineMarker language ++ l)) := by
  rcases List.exists_cons_of_ne_nil hL with ⟨l1, L', rfl⟩
  set m := lineMarker language with hm
  have hmne : m ≠ [] := by
    rcases lineMarker_cases language with h | h <;> simp [hm, h]
  have hmhead : wsChar (m.headD 'x') = false := by
    rcases lineMarker_cases language with h | h <;> rw [hm, h] <;> decide
  have hmnl : '\n' ∉ m := by
    rcases lineMarker_cases language with h | h <;> rw [hm, h] <;> decide
  set J := joinNl ((l1 :: L').map (fun l => m ++ l)) with hJ
  have hmapne : ∀ p ∈ (l1 :: L').map (fun l => m ++ l), p ≠ [] := by
    intro p hp
    rcases List.mem_map.mp hp with ⟨l, hl, rfl⟩
    simp [hmne]
  have hJne : J ≠ [] := by
    rw [hJ, List.map_cons]
    exact joinNl_ne_nil_of_mem _ _ (by simp [hmne])
  have hJhead : J.headD 'x' = m.headD 'x' := by
    rw [hJ, List.map_cons, joinNl_headD (by simp [hmne]) _ 'x',
      headD_append hmne l1 'x']
  have hfence : (("```").data).isPrefixOf J = false := by
    by_contra hx
    simp only [Bool.not_eq_false] at hx
    have := isPrefixOf_headD hx 'x'
    rw [hJhead] at this
    rcases lineMarker_cases language with h | h <;> rw [hm, h] at this <;> cases this
  have hsf : stripFence J = J := by
    unfold stripFence
    rw [if_neg (by simp [hfence])]
  have hJlast : wsChar (J.getLastD 'x') = false := by
    rw [hJ, List.map_cons]
    rw [joinNl_getLastD2 _ _ (by
      intro p hp
      exact hmapne p (by simpa using hp))]
    have hmem := List.getLast_mem (l := (m ++ l1) :: L'.map (fun l => m ++ l)) (by simp)
    rcases List.mem_cons.mp hmem with heq | hmem'
    · rw [heq]
      obtain ⟨hl1ne, hl1str, -, -, -, -⟩ := props l1 (by simp)
      rw [getLastD_append _ hl1ne 'x']
      have := pyStrip_getLastD (s := l1) (by rw [hl1str]; exact hl1ne)
      rwa [hl1str] at this
    · rcases List.mem_map.mp hmem' with ⟨l, hl, heq⟩
      rw [← heq]
      obtain ⟨hlne, hlstr, -, -, -, -⟩ := props l (List.mem_cons_of_mem _ hl)
      rw [getLastD_append _ hlne 'x']
      have := pyStrip_getLastD (s := l) (by rw [hlstr]; exact hlne)
      rwa [hlstr] at this
  have hstripJ : pyStrip J = J := by
    apply pyStrip_eq_self
    · rw [hJhead]; exact hmhead
    · exact hJlast
  have hsplit : splitNl J = (l1 :: L').map (fun l => m ++ l) := by
    rw [hJ]
    apply splitNl_joinNl _ (by simp) _
    intro p hp
    rcases List.mem_map.mp hp with ⟨l, hl, rfl⟩
    intro hx
    rcases List.mem_append.mp hx with h | h
    · exact hmnl h
    · exact (props l hl).2.2.2.2.2 h
  have hproc : ((l1 :: L').map (fun l => m ++ l)).flatMap processLine = l1 :: L' := by
    rw [List.flatMap_map]
    have : ∀ (K : List PyStr), (∀ l ∈ K, l ≠ [] ∧ pyStrip l = l ∧ LeadShape l ∧
        trailingStrip l = l ∧ l.length ≤ 30 ∧ '\n' ∉ l) →
        K.flatMap (fun x => processLine (m ++ x)) = K := by
      intro K
      induction K with
      | nil => intro _; rfl
      | cons k ks ih =>
        intro hprops
        rw [List.flatMap_cons]
        obtain ⟨hkne, hkstr, hkshape, hktrail, hklen, -⟩ := hprops k (by simp)
        have hone : processLine (m ++ k) = [k] := by
          rcases lineMarker_cases language with h | h <;> rw [hm, h]
          · exact processLine_marker_py hkne hkstr hkshape hktrail hklen
          · exact processLine_marker_slash hkne hkstr hkshape hktrail hklen
        rw [hone, ih (fun l hl => hprops l (List.mem_cons_of_mem _ hl))]
        rfl
    exact this (l1 :: L') props
  unfold formatComment
  rw [hsf, hstripJ]
  rw [if_neg (by simpa [List.isEmpty_iff] using hJne)]
  simp only
  rw [hsplit, hproc]
  rw [if_neg (by simp [List.isEmpty_iff])]
  by_cases hpy : language = "python"
  · rw [if_pos hpy]
    have : m = '#' :: ' ' :: [] := by rw [hm]; unfold lineMarker; simp [hpy]
    rw [hJ, this]
    rfl
  · rw [if_neg hpy]
    by_cases hjs : language = "javascript" || language = "typescript" || language = "vue"
    · rw [if_pos hjs]
      have : m = '/' :: '/' :: ' ' :: [] := by
        rw [hm]
        unfold lineMarker
        rcases Bool.or_eq_true _ _ |>.mp hjs with h | h
        · rcases Bool.or_eq_true _ _ |>.mp h with h | h <;> simp [decide_eq_true_eq.mp h]
        · simp [decide_eq_true_eq.mp h]
      rw [hJ, this]
      rfl
    · rw [if_neg hjs]
      by_cases hgo : language = "go"
      · rw [if_pos hgo]
        have : m = '/' :: '/' :: ' ' :: [] := by
          rw [hm]; unfold lineMarker; simp [hgo]
        rw [hJ, this]
        rfl
      · rw [if_neg hgo]
        rw [if_neg (by simp [h1, h2, h3])]
        have : m = '#' :: ' ' :: [] := by
          rw [hm]; unfold lineMarker; rw [if_neg (by simp_all)]
        rw [hJ, this]
        rfl

/-- C9 counterexample.  The formatter is not idempotent: a 70-character
unbreakable word is re-wrapped differently on the second pass; for the c
block-comment syntax the closing marker leaves a residual slash; and a lone
close-comment marker does not normalize to the empty result. -/
theorem format_comment_claim_false :
    formatComment (formatComment (List.replicate 70 'a') "python" []) "python" [] ≠
      formatComment (List.replicate 70 'a') "python" [] ∧
    formatComment (formatComment ('x' :: '\n' :: 'y' :: []) "c" []) "c" [] ≠
      formatComment ('x' :: '\n' :: 'y' :: []) "c" [] ∧
    formatComment ('*' :: '/' :: []) "python" [] ≠ [] := by
  refine ⟨by decide, by decide, by decide⟩

/-- C9 amended.  The formatter returns the empty result on whitespace-only
input; and for the line-comment languages (everything except c, cpp and cuda)
it is idempotent provided no cleaned line of the comment exceeds the
30-character width. -/
theorem format_comment_normalization (c : PyStr) (language : String) :
    ((∀ ch ∈ c, wsChar ch = true) → formatComment c language [] = []) ∧
    (¬ language = "c" → ¬ language = "cpp" → ¬ language = "cuda" →
      (∀ raw ∈ splitNl (pyStrip (stripFence c)), (cleanedLine raw).length ≤ 30) →
      formatComment (formatComment c language []) language [] =
        formatComment c language []) := by
  constructor
  · intro hws
    have hfence : (("```").data).isPrefixOf c = false := by
      cases hc : c with
      | nil => rfl
      | cons ch rest =>
        by_contra hx
        simp only [Bool.not_eq_false] at hx
        have := isPrefixOf_headD hx 'x'
        have hw := hws ch (by rw [hc]; exact List.mem_cons_self _ _)
        rw [show (ch :: rest).headD 'x' = ch from rfl] at this
        rw [this] at hw
        cases hw
    have hsf : stripFence c = c := by
      unfold stripFence
      rw [if_neg (by simp [hfence])]
    unfold formatComment
    rw [hsf, if_pos (by simp [List.isEmpty_iff, pyStrip_eq_nil_iff.mpr hws])]
  · intro h1 h2 h3 H
    by_cases hne : pyStrip (stripFence c) = []
    · have hfc : formatComment c language [] = [] := by
        unfold formatComment
        rw [if_pos (by simp [List.isEmpty_iff, hne])]
      rw [hfc, formatComment_nil]
    · by_cases hp : fcLines c = []
      · have hfc : formatComment c language [] = [] := by
          unfold formatComment
          rw [if_neg (by simpa [List.isEmpty_iff] using hne)]
          simp only
          rw [if_pos (by simpa only [List.isEmpty_iff] using hp)]
        rw [hfc, formatComment_nil]
      · rw [formatComment_render c language h1 h2 h3 hne hp]
        exact formatComment_fixed (fcLines c) language h1 h2 h3 hp (fcLines_props H)

/-- Witness for C9 amended at concrete inputs. -/
theorem format_comment_normalization_witness :
    ((∀ ch ∈ (' ' :: ' ' :: []), wsChar ch = true) ∧
      formatComment (' ' :: ' ' :: []) "go" [] = []) ∧
    ((¬ "python" = "c") ∧
      formatComment (formatComment ("hello world".data) "python" []) "python" [] =
        formatComment ("hello world".data) "python" []) := by
  constructor
  · exact ⟨by decide, (format_comment_normalization (' ' :: ' ' :: []) "go").1 (by decide)⟩
  · exact ⟨by decide, (format_comment_normalization ("hello world".data) "python").2
      (by decide) (by decide) (by decide) (by decide)⟩

/-! ### Claim C4: totality and exactness of reassembly -/



/-- The processed-lines set of `_reconstruct_file` holds exactly `[0, M)`. -/
def ProcIs (proc : List Nat) (M : Nat) : Prop := ∀ j, j ∈ proc ↔ j < M

theorem procIs_nil : ProcIs [] 0 := by
  intro j; simp [ProcIs]

theorem take_succ_getD {α : Type} (l : List α) (n : Nat) (h : n < l.length) (d : α) :
    l.take (n + 1) = l.take n ++ [l.getD n d] := by
  rw [List.take_succ, List.getElem?_eq_getElem h, List.getD_eq_getElem l d h]
  rfl

theorem flushLoop_spec (lines : List Line) :
    ∀ (n c : Nat) (proc : List Nat) (acc0 : List Line) (M : Nat),
    ProcIs proc M → M ≤ lines.length → min c lines.length ≤ M →
    (n = 0 ∨ c + n ≤ lines.length) →
    ∃ proc', flushLoop lines n c proc (acc0 ++ lines.take M) =
        some (c + n, proc', acc0 ++ lines.take (max M (min (c + n) lines.length))) ∧
      ProcIs proc' (max M (min (c + n) lines.length))
  | 0, c, proc, acc0, M, hP, hMl, hcM, _ => by
    have he : max M (min (c + 0) lines.length) = M := by omega
    rw [he]
    exact ⟨proc, rfl, hP⟩
  | n + 1, c, proc, acc0, M, hP, hMl, hcM, hn => by
    have hclen : c + (n + 1) ≤ lines.length := by omega
    have hclt : c < lines.length := by omega
    have hrw : c + (n + 1) = c + 1 + n := by omega
    by_cases hc : c ∈ proc
    · have hcont : proc.contains c = true := List.elem_iff.mpr hc
      have hcM' : c < M := (hP c).mp hc
      obtain ⟨proc', h1, h2⟩ := flushLoop_spec lines n (c + 1) proc acc0 M hP hMl
        (by omega) (by omega)
      refine ⟨proc', ?_, ?_⟩
      · rw [flushLoop, if_pos hcont, hrw]
        exact h1
      · rw [hrw]
        exact h2
    · have hcont : proc.contains c = false := by
        rw [← Bool.not_eq_true, List.elem_iff]; exact hc
      have hMc : M ≤ c := by
        by_contra hlt
        exact hc ((hP c).mpr (by omega))
      have hcMe : c = M := by omega
      have hP' : ProcIs (c :: proc) (M + 1) := by
        intro j
        simp only [List.mem_cons, hP j]
        omega
      have hget : lines.get ⟨c, hclt⟩ = lines.getD c [] := by
        rw [List.getD_eq_getElem lines [] hclt]
        rfl
      have hacc : acc0 ++ lines.take M ++ [lines.get ⟨c, hclt⟩] =
          acc0 ++ lines.take (M + 1) := by
        rw [List.append_assoc, hget, hcMe, ← take_succ_getD lines M (by omega) []]
      have h5 : max (M + 1) (min (c + 1 + n) lines.length) =
          max M (min (c + 1 + n) lines.length) := by omega
      obtain ⟨proc', h1, h2⟩ := flushLoop_spec lines n (c + 1) (c :: proc) acc0 (M + 1)
        hP' (by omega) (by omega) (by omega)
      refine ⟨proc', ?_, ?_⟩
      · rw [flushLoop, if_neg (by simp only [List.elem_iff]; exact hc), dif_pos hclt,
          hacc, hrw, ← h5]
        exact h1
      · rw [hrw, ← h5]
        exact h2

theorem emitSpan_spec (lines : List Line) :
    ∀ (n i : Nat) (proc : List Nat) (acc0 : List Line) (M : Nat),
    ProcIs proc M → i ≤ M → i + n ≤ lines.length →
    ∃ proc', emitSpan lines n i proc (acc0 ++ lines.take M) =
        (proc', acc0 ++ lines.take (max M (i + n))) ∧ ProcIs proc' (max M (i + n))
  | 0, i, proc, acc0, M, hP, hiM, _ => by
    have he : max M (i + 0) = M := by omega
    rw [he]
    exact ⟨proc, rfl, hP⟩
  | n + 1, i, proc, acc0, M, hP, hiM, hil => by
    have hilt : i < lines.length := by omega
    have hrw : i + (n + 1) = i + 1 + n := by omega
    by_cases hi : i ∈ proc
    · have hcont : proc.contains i = true := List.elem_iff.mpr hi
      have hiM' : i < M := (hP i).mp hi
      obtain ⟨proc', h1, h2⟩ := emitSpan_spec lines n (i + 1) proc acc0 M hP
        (by omega) (by omega)
      refine ⟨proc', ?_, ?_⟩
      · rw [emitSpan, if_pos hcont, hrw]
        exact h1
      · rw [hrw]
        exact h2
    · have hcont : proc.contains i = false := by
        rw [← Bool.not_eq_true, List.elem_iff]; exact hi
      have hMi : M ≤ i := by
        by_contra hlt
        exact hi ((hP i).mpr (by omega))
      have hiMe : i = M := by omega
      have hP' : ProcIs (i :: proc) (M + 1) := by
        intro j
        simp only [List.mem_cons, hP j]
        omega
      have hacc : acc0 ++ lines.take M ++ [lines.getD i []] =
          acc0 ++ lines.take (M + 1) := by
        rw [List.append_assoc, hiMe, ← take_succ_getD lines M (by omega) []]
      have h5 : max (M + 1) (i + 1 + n) = max M (i + 1 + n) := by omega
      obtain ⟨proc', h1, h2⟩ := emitSpan_spec lines n (i + 1) (i :: proc) acc0 (M + 1)
        hP' (by omega) (by omega)
      refine ⟨proc', ?_, ?_⟩
      · rw [emitSpan, if_neg (by simp only [List.elem_iff]; exact hi), hacc, hrw, ← h5]
        exact h1
      · rw [hrw, ← h5]
        exact h2

theorem trailingFlush_spec (lines : List Line) :
    ∀ (n c : Nat) (proc : List Nat) (acc : List Line) (M : Nat),
    n = lines.length - c → ProcIs proc M → M ≤ lines.length →
    trailingFlush lines n c proc acc = acc ++ lines.drop (max c M)
  | 0, c, proc, acc, M, hn, hP, hMl => by
    have h : lines.length ≤ max c M := by omega
    rw [trailingFlush, List.drop_eq_nil_of_le h, List.append_nil]
  | n + 1, c, proc, acc, M, hn, hP, hMl => by
    have hclt : c < lines.length := by omega
    by_cases hc : c ∈ proc
    · have hcont : proc.contains c = true := List.elem_iff.mpr hc
      have hcM : c < M := (hP c).mp hc
      rw [trailingFlush, if_pos hcont,
        trailingFlush_spec lines n (c + 1) proc acc M (by omega) hP hMl]
      have h : max (c + 1) M = max c M := by omega
      rw [h]
    · have hcont : proc.contains c = false := by
        rw [← Bool.not_eq_true, List.elem_iff]; exact hc
      have hMc : M ≤ c := by
        by_contra hlt
        exact hc ((hP c).mpr (by omega))
      rw [trailingFlush, if_neg (by simp only [List.elem_iff]; exact hc),
        trailingFlush_spec lines n (c + 1) proc _ M (by omega) hP hMl]
      have h1 : max (c + 1) M = c + 1 := by omega
      have h2 : max c M = c := by omega
      have hget : lines.getD c [] = lines.get ⟨c, hclt⟩ := by
        rw [List.getD_eq_getElem lines [] hclt]
        rfl
      rw [h1, h2, List.drop_eq_getElem_cons hclt, List.append_assoc, hget]
      rfl


theorem reconStep_spec (lines : List Line) (u : CodeUnit) (c : Nat) (proc : List Nat)
    (acc0 : List Line) (M : Nat)
    (hu1 : u.start_line ≤ lines.length)
    (hu2 : u.start_line < lines.length → anyNonBlank (unitSpan lines u) = true)
    (hu3 : u.comment = [])
    (hP : ProcIs proc M) (hMl : M ≤ lines.length) (hcM : min c lines.length ≤ M) :
    ∃ proc' M', reconStep lines (c, proc, acc0 ++ lines.take M) u =
        some (u.end_line + 1, proc', acc0 ++ lines.take M') ∧
      ProcIs proc' M' ∧ M ≤ M' ∧ M' ≤ lines.length ∧
      min (u.end_line + 1) lines.length ≤ M' := by
  obtain ⟨proc1, hf1, hf2⟩ := flushLoop_spec lines (u.start_line - c) c proc acc0 M
    hP hMl hcM (by omega)
  set M1 := max M (min (c + (u.start_line - c)) lines.length) with hM1
  have hM1a : M ≤ M1 := by omega
  have hM1b : M1 ≤ lines.length := by omega
  have hM1c : u.start_line < lines.length → u.start_line ≤ M1 := by omega
  by_cases hcode : anyNonBlank (unitSpan lines u) = true
  · have hslt : u.start_line < lines.length := by
      by_contra h
      have hdrop : lines.drop u.start_line = [] := List.drop_eq_nil_of_le (by omega)
      rw [unitSpan, hdrop, List.take_nil] at hcode
      simp [anyNonBlank] at hcode
    obtain ⟨proc2, he1, he2⟩ := emitSpan_spec lines
      (min (u.end_line + 1) lines.length - u.start_line) u.start_line proc1 acc0 M1
      hf2 (hM1c hslt) (by omega)
    refine ⟨proc2, max M1 (u.start_line + (min (u.end_line + 1) lines.length - u.start_line)),
      ?_, he2, by omega, by omega, by omega⟩
    rw [reconStep]
    rw [hf1]
    simp only [Option.bind_eq_bind, Option.some_bind, hcode, if_true]
    rw [he1, hu3]
    simp
  · have hsge : lines.length ≤ u.start_line := by
      by_contra h
      exact hcode (hu2 (by omega))
    have hzero : min (u.end_line + 1) lines.length - u.start_line = 0 := by omega
    refine ⟨proc1, M1, ?_, hf2, hM1a, hM1b, by omega⟩
    rw [reconStep]
    rw [hf1]
    simp only [Option.bind_eq_bind, Option.some_bind, hcode, if_false, Bool.false_eq_true]
    rw [hzero]
    rfl

theorem reconUnits_spec (lines : List Line) :
    ∀ (us : List CodeUnit) (c : Nat) (proc : List Nat) (acc0 : List Line) (M : Nat),
    (∀ u ∈ us, u.start_line ≤ lines.length) →
    (∀ u ∈ us, u.start_line < lines.length → anyNonBlank (unitSpan lines u) = true) →
    (∀ u ∈ us, u.comment = []) →
    ProcIs proc M → M ≤ lines.length → min c lines.length ≤ M →
    ∃ c' proc' M', reconUnits lines us (c, proc, acc0 ++ lines.take M) =
        some (c', proc', acc0 ++ lines.take M') ∧
      ProcIs proc' M' ∧ M' ≤ lines.length ∧ min c' lines.length ≤ M'
  | [], c, proc, acc0, M, _, _, _, hP, hMl, hcM =>
    ⟨c, proc, M, rfl, hP, hMl, hcM⟩
  | u :: rest, c, proc, acc0, M, h1, h2, h3, hP, hMl, hcM => by
    obtain ⟨proc1, M1, hs1, hs2, _, hs4, hs5⟩ := reconStep_spec lines u c proc acc0 M
      (h1 u (by simp)) (h2 u (by simp)) (h3 u (by simp)) hP hMl hcM
    obtain ⟨c', proc', M', ht1, ht2, ht3, ht4⟩ := reconUnits_spec lines rest
      (u.end_line + 1) proc1 acc0 M1
      (fun v hv => h1 v (by simp [hv])) (fun v hv => h2 v (by simp [hv]))
      (fun v hv => h3 v (by simp [hv])) hs2 hs4 hs5
    refine ⟨c', proc', M', ?_, ht2, ht3, ht4⟩
    rw [reconUnits]
    rw [hs1]
    simp only [Option.bind_eq_bind, Option.some_bind]
    exact ht1
theorem reconstruct_preserves (lines : List Line) (units : List CodeUnit)
    (h1 : ∀ u ∈ units, u.start_line ≤ lines.length)
    (h2 : ∀ u ∈ units, u.start_line < lines.length → anyNonBlank (unitSpan lines u) = true)
    (h3 : ∀ u ∈ units, u.comment = []) :
    reconstructFile lines units [] = some lines := by
  have hmem : ∀ u, u ∈ sortUnits units ↔ u ∈ units := fun u =>
    (List.perm_insertionSort unitLE units).mem_iff
  obtain ⟨c', proc', M', ht1, ht2, ht3, ht4⟩ := reconUnits_spec lines (sortUnits units)
    0 [] [] 0 (fun u hu => h1 u ((hmem u).mp hu)) (fun u hu => h2 u ((hmem u).mp hu))
    (fun u hu => h3 u ((hmem u).mp hu)) procIs_nil (by omega) (by omega)
  have hinit : ([] : List Line) ++ lines.take 0 = [] := rfl
  rw [hinit] at ht1
  rw [reconstructFile]
  simp only [List.isEmpty_nil, Bool.not_true, Bool.false_and, Bool.false_eq_true,
    if_false]
  rw [ht1]
  simp only [Option.bind_eq_bind, Option.some_bind]
  rw [trailingFlush_spec lines (lines.length - c') c' proc' _ M' rfl ht2 ht3]
  simp only [List.nil_append]
  rcases Nat.le_total c' lines.length with h | h
  · have hm : max c' M' = M' := by omega
    rw [hm, List.take_append_drop]
    rfl
  · have hM' : M' = lines.length := by omega
    have hd : lines.drop (max c' M') = [] := List.drop_eq_nil_of_le (by omega)
    rw [hd, List.append_nil, hM', List.take_length]
    rfl

/-- Claim C4 is false as stated: reassembly can raise an IndexError (a unit
whose `start_line` lies past the end of the file makes the gap flush read
`lines[current_line]` out of range), and a unit spanning only blank lines has
its lines marked processed but never emitted, so they are dropped from the
output. -/
theorem reconstruct_file_claim_false :
    reconstructFile [("a").data] [⟨[], 5, 6, "chunk", none, []⟩] [] = none ∧
    reconstructFile [("a").data, [], ("b").data] [⟨[], 1, 1, "chunk", none, []⟩] []
      = some [("a").data, ("b").data] := by decide

/-! ### Claims C2 and C3: unit well-formedness and exact round-trip -/

/-- Well-formedness of every unit the segmenter returns for a non-vue
language: empty annotation, an in-range span whose content is exactly the
original slice of lines, at least one non-blank line, and at most the
configured maximum number of lines. -/
def UnitWF (lines : List Line) (u : CodeUnit) : Prop :=
  u.comment = [] ∧ u.start_line ≤ u.end_line ∧ u.end_line < lines.length ∧
  u.content = (lines.drop u.start_line).take (u.end_line + 1 - u.start_line) ∧
  anyNonBlank u.content = true ∧ u.content.length ≤ MAX_LINES_PER_UNIT

theorem pyEndLoop_bounds (lines : List Line) (base : Nat) :
    ∀ (n i : Nat), n = lines.length - i → i ≤ lines.length → 0 < lines.length →
    i - 1 ≤ pyEndLoop lines base n i ∧ pyEndLoop lines base n i < lines.length
  | 0, i, hn, hi, hpos => by
    rw [pyEndLoop]
    omega
  | n + 1, i, hn, hi, hpos => by
    have IH := pyEndLoop_bounds lines base n (i + 1) (by omega) (by omega) hpos
    simp only [pyEndLoop]
    split_ifs with h1 h2
    · omega
    · omega
    · omega

theorem findPythonBlockEnd_bounds (lines : List Line) (start : Nat)
    (h : start < lines.length) :
    start ≤ findPythonBlockEnd lines start ∧
      findPythonBlockEnd lines start < lines.length := by
  have IH := pyEndLoop_bounds lines (indentWidth (lines.getD start []))
    (lines.length - (start + 1)) (start + 1) rfl (by omega) (by omega)
  rw [findPythonBlockEnd, if_neg (by omega)]
  omega

theorem braceEndLoop_bounds (lines : List Line) :
    ∀ (n i : Nat) (cnt : Int) (st : Bool), n = lines.length - i →
    i ≤ lines.length → 0 < lines.length →
    i - 1 ≤ braceEndLoop lines n i cnt st ∧ braceEndLoop lines n i cnt st < lines.length
  | 0, i, cnt, st, hn, hi, hpos => by
    rw [braceEndLoop]
    omega
  | n + 1, i, cnt, st, hn, hi, hpos => by
    have IH := braceEndLoop_bounds lines n (i + 1)
      (braceLineScan (lines.getD i []) cnt st).1
      (braceLineScan (lines.getD i []) cnt st).2.1 (by omega) (by omega) hpos
    simp only [braceEndLoop]
    split_ifs with h1
    · omega
    · omega

theorem findBraceBlockEnd_bounds (lines : List Line) (start : Nat)
    (h : start < lines.length) :
    start ≤ findBraceBlockEnd lines start ∧
      findBraceBlockEnd lines start < lines.length := by
  rw [findBraceBlockEnd, if_neg (by omega)]
  obtain ⟨m, hm⟩ : ∃ m, lines.length - start = m + 1 := ⟨lines.length - start - 1, by omega⟩
  have IH := braceEndLoop_bounds lines m (start + 1)
    (braceLineScan (lines.getD start []) 0 false).1
    (braceLineScan (lines.getD start []) 0 false).2.1 (by omega) (by omega) (by omega)
  rw [hm]
  simp only [braceEndLoop]
  split_ifs with h1
  · omega
  · omega

theorem findBlockEnd_bounds (language : String) (lines : List Line) (start : Nat)
    (h : start < lines.length) :
    start ≤ findBlockEnd language lines start ∧
      findBlockEnd language lines start < lines.length := by
  rw [findBlockEnd]
  split_ifs with h1
  · exact findPythonBlockEnd_bounds lines start h
  · exact findBraceBlockEnd_bounds lines start h

theorem getD_mem_slice (lines : List Line) (s k : Nat) (hs : s < lines.length)
    (hk : 1 ≤ k) : lines.getD s [] ∈ (lines.drop s).take k := by
  rw [List.drop_eq_getElem_cons hs]
  obtain ⟨k', rfl⟩ : ∃ k', k = k' + 1 := ⟨k - 1, by omega⟩
  rw [List.take_succ_cons, List.getD_eq_getElem lines [] hs]
  exact List.mem_cons_self _ _

theorem anyNonBlank_of_mem {ls : List Line} {l : Line} (hm : l ∈ ls)
    (hb : isBlankL l = false) : anyNonBlank ls = true := by
  unfold anyNonBlank
  rw [List.any_eq_true]
  exact ⟨l, hm, by simp [hb]⟩

theorem blank_of_not_anyNonBlank {ls : List Line} (h : anyNonBlank ls = false)
    {l : Line} (hm : l ∈ ls) : isBlankL l = true := by
  unfold anyNonBlank at h
  rw [List.any_eq_false] at h
  have h2 := h l hm
  simpa using h2

theorem mem_findFunctionStarts {language : String} {lines : List Line} {s : Nat}
    (h : s ∈ findFunctionStarts language lines) :
    s < lines.length ∧ isBlankL (lines.getD s []) = false := by
  unfold findFunctionStarts at h
  rw [List.mem_filter] at h
  obtain ⟨h1, h2⟩ := h
  rw [List.mem_range] at h1
  refine ⟨h1, ?_⟩
  by_contra hb
  rw [Bool.not_eq_false] at hb
  rw [lineMatches_blank (isBlankL_iff.mp hb)] at h2
  exact Bool.false_ne_true h2
theorem splitByChunksAux_wf (lines : List Line) :
    ∀ (fuel i : Nat) (v : CodeUnit), v ∈ splitByChunksAux lines fuel i →
    UnitWF lines v ∧ i ≤ v.start_line
  | 0, i, v, hv => by simp [splitByChunksAux] at hv
  | fuel + 1, i, v, hv => by
    rw [splitByChunksAux] at hv
    by_cases hi : i < lines.length
    · rw [if_pos hi, List.mem_append] at hv
      rcases hv with hv | hv
      · by_cases hb : anyNonBlank ((lines.drop i).take MAX_LINES_PER_UNIT) = true
        · rw [if_pos hb, List.mem_singleton] at hv
          subst hv
          have hlen : ((lines.drop i).take MAX_LINES_PER_UNIT).length =
              min MAX_LINES_PER_UNIT (lines.length - i) := by
            rw [List.length_take, List.length_drop]
          refine ⟨⟨rfl, ?_, ?_, ?_, hb, ?_⟩, le_refl _⟩
          · show i ≤ min (i + ((lines.drop i).take MAX_LINES_PER_UNIT).length - 1)
              (lines.length - 1)
            rw [hlen]
            have : (0 : Nat) < MAX_LINES_PER_UNIT := by decide
            omega
          · show min (i + ((lines.drop i).take MAX_LINES_PER_UNIT).length - 1)
              (lines.length - 1) < lines.length
            omega
          · show (lines.drop i).take MAX_LINES_PER_UNIT =
              (lines.drop i).take (min (i + ((lines.drop i).take MAX_LINES_PER_UNIT).length - 1)
                (lines.length - 1) + 1 - i)
            rw [List.take_eq_take, hlen, List.length_drop]
            have : (0 : Nat) < MAX_LINES_PER_UNIT := by decide
            omega
          · show ((lines.drop i).take MAX_LINES_PER_UNIT).length ≤ MAX_LINES_PER_UNIT
            rw [hlen]
            omega
        · rw [if_neg hb] at hv
          simp at hv
      · have IH := splitByChunksAux_wf lines fuel (i + MAX_LINES_PER_UNIT) v hv
        have : (0 : Nat) < MAX_LINES_PER_UNIT := by decide
        exact ⟨IH.1, by omega⟩
    · rw [if_neg hi] at hv
      simp at hv

theorem splitLongUnitAux_wf (lines : List Line) (u : CodeUnit)
    (hse : u.start_line ≤ u.end_line) (hel : u.end_line < lines.length)
    (hc : u.content =
      (lines.drop u.start_line).take (u.end_line + 1 - u.start_line)) :
    ∀ (fuel i : Nat) (v : CodeUnit), v ∈ splitLongUnitAux u fuel i → UnitWF lines v := by
  have hclen : u.content.length = u.end_line + 1 - u.start_line := by
    rw [hc, List.length_take, List.length_drop]
    omega
  intro fuel
  induction fuel with
  | zero => intro i v hv; simp [splitLongUnitAux] at hv
  | succ fuel ih =>
    intro i v hv
    rw [splitLongUnitAux] at hv
    by_cases hi : i < u.content.length
    · rw [if_pos hi, List.mem_append] at hv
      rcases hv with hv | hv
      · by_cases hb : anyNonBlank ((u.content.drop i).take MAX_LINES_PER_UNIT) = true
        · rw [if_pos hb, List.mem_singleton] at hv
          subst hv
          have hchunk : (u.content.drop i).take MAX_LINES_PER_UNIT =
              (lines.drop (u.start_line + i)).take
                (min MAX_LINES_PER_UNIT (u.end_line + 1 - u.start_line - i)) := by
            rw [hc, List.drop_take, List.drop_drop, List.take_take]
          have hchl : ((u.content.drop i).take MAX_LINES_PER_UNIT).length =
              min MAX_LINES_PER_UNIT (u.end_line + 1 - u.start_line - i) := by
            rw [hchunk, List.length_take, List.length_drop]
            omega
          refine ⟨rfl, ?_, ?_, ?_, hb, ?_⟩
          · show u.start_line + i ≤ u.start_line +
              min (i + ((u.content.drop i).take MAX_LINES_PER_UNIT).length - 1)
                (u.content.length - 1)
            rw [hchl, hclen]
            have : (0 : Nat) < MAX_LINES_PER_UNIT := by decide
            omega
          · show u.start_line +
              min (i + ((u.content.drop i).take MAX_LINES_PER_UNIT).length - 1)
                (u.content.length - 1) < lines.length
            rw [hchl, hclen]
            omega
          · show (u.content.drop i).take MAX_LINES_PER_UNIT =
              (lines.drop (u.start_line + i)).take
                (u.start_line +
                  min (i + ((u.content.drop i).take MAX_LINES_PER_UNIT).length - 1)
                    (u.content.length - 1) + 1 - (u.start_line + i))
            rw [hchunk, List.take_eq_take]
            simp only [List.length_take, List.length_drop, hclen]
            have : (0 : Nat) < MAX_LINES_PER_UNIT := by decide
            omega
          · show ((u.content.drop i).take MAX_LINES_PER_UNIT).length ≤
              MAX_LINES_PER_UNIT
            rw [hchl]
            omega
        · rw [if_neg hb] at hv
          simp at hv
      · exact ih (i + MAX_LINES_PER_UNIT) v hv
    · rw [if_neg hi] at hv
      simp at hv
theorem mem_chunkEmit {content : List Line} {s e : Nat} {v : CodeUnit}
    (hv : v ∈ chunkEmit content s e) :
    v = ⟨content, s, e, "chunk", none, []⟩ ∧ anyNonBlank content = true := by
  rw [chunkEmit] at hv
  by_cases hb : anyNonBlank content = true
  · rw [if_pos hb, List.mem_singleton] at hv
    exact ⟨hv, hb⟩
  · rw [if_neg hb] at hv
    simp at hv

theorem unitWF_chunk (lines : List Line) (content : List Line) (s e : Nat)
    (hb : anyNonBlank content = true) (hse : s ≤ e) (hel : e < lines.length)
    (hc : content = (lines.drop s).take (e + 1 - s))
    (hlen : content.length ≤ MAX_LINES_PER_UNIT) :
    UnitWF lines ⟨content, s, e, "chunk", none, []⟩ :=
  ⟨rfl, hse, hel, hc, hb, hlen⟩

theorem slice_snoc (lines : List Line) (cs i : Nat) (cur : List Line)
    (hi : i < lines.length) (hpos : cs + cur.length = i)
    (hslice : cur = (lines.drop cs).take cur.length) :
    cur ++ [lines.getD i []] = (lines.drop cs).take (cur.length + 1) := by
  rw [take_succ_getD (lines.drop cs) cur.length (by rw [List.length_drop]; omega) []]
  conv_lhs => rw [hslice]
  congr 2
  rw [List.getD_eq_getElem?_getD lines, List.getD_eq_getElem?_getD (lines.drop cs),
    List.getElem?_drop, hpos]

theorem chunkLoop_wf (lines : List Line) (proc : Nat → Bool) :
    ∀ (n i : Nat) (cur : List Line) (curStart : Nat),
    n = lines.length - i → i ≤ lines.length →
    cur.length + 1 ≤ MAX_LINES_PER_UNIT →
    (cur = [] ∨ (curStart + cur.length = i ∧
      cur = (lines.drop curStart).take cur.length)) →
    ∀ v ∈ chunkLoop lines proc n i cur curStart, UnitWF lines v
  | 0, i, cur, curStart, hn, hi, hlen, hinv => by
    intro v hv
    rw [chunkLoop] at hv
    by_cases hne : cur.isEmpty = true
    · rw [if_pos hne] at hv
      simp at hv
    · rw [if_neg hne] at hv
      have hne' : cur ≠ [] := by simpa [List.isEmpty_iff] using hne
      have hcl : 0 < cur.length := List.length_pos.mpr hne'
      rcases hinv with hcur | ⟨hpos, hslice⟩
      · exact absurd hcur hne'
      obtain ⟨hv, hb⟩ := mem_chunkEmit hv
      subst hv
      refine unitWF_chunk lines cur curStart (lines.length - 1) hb (by omega) (by omega)
        ?_ (by omega)
      have he : lines.length - 1 + 1 - curStart = cur.length := by omega
      rw [he]
      exact hslice
  | n + 1, i, cur, curStart, hn, hi, hlen, hinv => by
    intro v hv
    have hM : MAX_LINES_PER_UNIT = 50 := rfl
    have hilt : i < lines.length := by omega
    simp only [chunkLoop] at hv
    by_cases hp : (!proc i) = true
    · rw [if_pos hp] at hv
      have hfacts : (if cur.isEmpty then i else curStart) + cur.length = i ∧
          cur = (lines.drop (if cur.isEmpty then i else curStart)).take cur.length := by
        by_cases hne : cur.isEmpty = true
        · have hcur : cur = [] := List.isEmpty_iff.mp hne
          subst hcur
          rw [if_pos hne]
          exact ⟨rfl, by simp⟩
        · have hne' : cur ≠ [] := by simpa [List.isEmpty_iff] using hne
          rcases hinv with hcur | ⟨hpos, hslice⟩
          · exact absurd hcur hne'
          rw [if_neg hne]
          exact ⟨hpos, hslice⟩
      obtain ⟨hpos', hslice'⟩ := hfacts
      have hsnoc := slice_snoc lines (if cur.isEmpty then i else curStart) i cur
        hilt hpos' hslice'
      have hl1 : (cur ++ [lines.getD i []]).length = cur.length + 1 := by simp
      by_cases hflush : MAX_LINES_PER_UNIT ≤ (cur ++ [lines.getD i []]).length
      · rw [if_pos hflush, List.mem_append] at hv
        rcases hv with hv | hv
        · obtain ⟨hv, hb⟩ := mem_chunkEmit hv
          subst hv
          refine unitWF_chunk lines _ _ i hb (by omega) hilt ?_ (by omega)
          have he : i + 1 - (if cur.isEmpty then i else curStart) = cur.length + 1 := by
            omega
          rw [he]
          exact hsnoc
        · exact chunkLoop_wf lines proc n (i + 1) [] _ (by omega) (by omega)
            (by decide) (Or.inl rfl) v hv
      · rw [if_neg hflush] at hv
        refine chunkLoop_wf lines proc n (i + 1) (cur ++ [lines.getD i []]) _
          (by omega) (by omega) (by omega) ?_ v hv
        right
        rw [hl1]
        exact ⟨by omega, hsnoc⟩
    · rw [if_neg hp] at hv
      rw [List.mem_append] at hv
      rcases hv with hv | hv
      · by_cases hne : cur.isEmpty = true
        · rw [if_pos hne] at hv
          simp at hv
        · rw [if_neg hne] at hv
          have hne' : cur ≠ [] := by simpa [List.isEmpty_iff] using hne
          have hcl : 0 < cur.length := List.length_pos.mpr hne'
          rcases hinv with hcur | ⟨hpos, hslice⟩
          · exact absurd hcur hne'
          obtain ⟨hv, hb⟩ := mem_chunkEmit hv
          subst hv
          refine unitWF_chunk lines cur curStart (i - 1) hb (by omega) (by omega)
            ?_ (by omega)
          have he : i - 1 + 1 - curStart = cur.length := by omega
          rw [he]
          exact hslice
      · exact chunkLoop_wf lines proc n (i + 1) [] curStart (by omega) (by omega)
          (by decide) (Or.inl rfl) v hv
theorem splitIntoUnitsCore_wf (language : String) (lines : List Line) :
    ∀ v ∈ splitIntoUnitsCore language lines, UnitWF lines v := by
  intro v hv
  rw [splitIntoUnitsCore] at hv
  by_cases hs : (findFunctionStarts language lines).isEmpty = true
  · rw [if_pos hs, splitByChunks] at hv
    exact (splitByChunksAux_wf lines lines.length 0 v hv).1
  · rw [if_neg hs, sortUnits] at hv
    rw [(List.perm_insertionSort unitLE _).mem_iff, List.mem_append] at hv
    rcases hv with hv | hv
    · rw [functionUnits, List.mem_flatMap] at hv
      obtain ⟨s, hsmem, hvin⟩ := hv
      obtain ⟨hslt, hsnb⟩ := mem_findFunctionStarts hsmem
      have hbnd := findBlockEnd_bounds language lines s hslt
      by_cases hbig : MAX_LINES_PER_UNIT < (functionUnit language lines s).getLineCount
      · rw [if_pos hbig, splitLongUnit] at hvin
        exact splitLongUnitAux_wf lines (functionUnit language lines s)
          hbnd.1 hbnd.2 rfl _ 0 v hvin
      · rw [if_neg hbig, List.mem_singleton] at hvin
        subst hvin
        refine ⟨rfl, hbnd.1, hbnd.2, rfl, ?_, ?_⟩
        · exact anyNonBlank_of_mem (getD_mem_slice lines s _ hslt (by omega)) hsnb
        · have hle : (functionUnit language lines s).getLineCount ≤
              MAX_LINES_PER_UNIT := by omega
          exact hle
    · exact chunkLoop_wf lines (inFunctionBlock language lines
        (findFunctionStarts language lines)) lines.length 0 [] 0 rfl (by omega)
        (by decide) (Or.inl rfl) v hv

theorem unitSpan_eq_content {lines : List Line} {u : CodeUnit} (h : UnitWF lines u) :
    unitSpan lines u = u.content := by
  obtain ⟨h1, h2, h3, h4, h5, h6⟩ := h
  rw [unitSpan, h4]
  have he : min (u.end_line + 1) lines.length = u.end_line + 1 := by omega
  rw [he]

/-- Claim C3 is false as stated: for a vue file whose template section is a
single blank line, the section unit's span is entirely blank, so reassembly
drops that line: the output is the original minus the blank line. -/
theorem split_reconstruct_claim_false :
    reconstructFile [("<template>").data, [], ("</template>").data]
      (splitIntoUnits "vue" [("<template>").data, [], ("</template>").data]) [] =
      some [("<template>").data, ("</template>").data] ∧
    [("<template>").data, ("</template>").data] ≠
      [("<template>").data, [], ("</template>").data] := by decide

/-- C3 (amended): for every non-vue language tag and every line list,
reassembling the segmentation output with all annotations left empty and an
empty file annotation returns exactly the original lines. -/
theorem split_reconstruct_exact (language : String) (lines : List Line)
    (hl : language ≠ "vue") :
    reconstructFile lines (splitIntoUnits language lines) [] = some lines := by
  rw [splitIntoUnits, if_neg hl]
  apply reconstruct_preserves
  · intro u hu
    obtain ⟨_, h2, h3, _, _, _⟩ := splitIntoUnitsCore_wf language lines u hu
    omega
  · intro u hu _
    have h := splitIntoUnitsCore_wf language lines u hu
    rw [unitSpan_eq_content h]
    exact h.2.2.2.2.1
  · intro u hu
    exact (splitIntoUnitsCore_wf language lines u hu).1

theorem split_reconstruct_exact_witness :
    reconstructFile [("x = 1").data] (splitIntoUnits "python" [("x = 1").data]) [] =
      some [("x = 1").data] :=
  split_reconstruct_exact "python" [("x = 1").data] (by decide)

/-- Claim C2 is false as stated: a vue template section longer than the
maximum is emitted as a single chunk unit without any size splitting, so its
line count exceeds MAX_LINES_PER_UNIT. -/
theorem unit_size_claim_false :
    (splitIntoUnits "vue" (("<template>").data ::
      (List.replicate 51 (("x").data) ++ [("</template>").data]))).any
      (fun u => MAX_LINES_PER_UNIT < u.getLineCount) = true := by decide

/-- C2 (amended): for every non-vue language tag, every unit returned by
segmentation has at most MAX_LINES_PER_UNIT lines. -/
theorem unit_size_bound (language : String) (lines : List Line)
    (hl : language ≠ "vue") :
    ∀ u ∈ splitIntoUnits language lines, u.getLineCount ≤ MAX_LINES_PER_UNIT := by
  intro u hu
  rw [splitIntoUnits, if_neg hl] at hu
  exact (splitIntoUnitsCore_wf language lines u hu).2.2.2.2.2

theorem unit_size_bound_witness :
    (⟨[("x = 1").data], 0, 0, "chunk", none, []⟩ : CodeUnit).getLineCount ≤
      MAX_LINES_PER_UNIT :=
  unit_size_bound "python" [("x = 1").data] (by decide)
    ⟨[("x = 1").data], 0, 0, "chunk", none, []⟩ (by decide)

/-! ### Claim C1: ordering and coverage of the segmentation output -/

theorem getD_mem_slice2 (lines : List Line) (s k j : Nat) (hj : j < lines.length)
    (h1 : s ≤ j) (h2 : j < s + k) : lines.getD j [] ∈ (lines.drop s).take k := by
  have hlen : ((lines.drop s).take k).length = min k (lines.length - s) := by
    rw [List.length_take, List.length_drop]
  have hidx : j - s < ((lines.drop s).take k).length := by omega
  have hmem := List.getElem_mem hidx
  have he : ((lines.drop s).take k)[j - s] = lines.getD j [] := by
    rw [List.getElem_take, List.getElem_drop, List.getD_eq_getElem lines [] hj]
    congr 1
    omega
  rwa [he] at hmem

theorem splitByChunksAux_sorted (lines : List Line) :
    ∀ (fuel i : Nat), List.Sorted unitLE (splitByChunksAux lines fuel i)
  | 0, _ => by
    rw [splitByChunksAux]
    exact List.sorted_nil
  | fuel + 1, i => by
    simp only [splitByChunksAux]
    by_cases hi : i < lines.length
    · rw [if_pos hi]
      have hrest := splitByChunksAux_sorted lines fuel (i + MAX_LINES_PER_UNIT)
      by_cases hb : anyNonBlank ((lines.drop i).take MAX_LINES_PER_UNIT) = true
      · rw [if_pos hb, List.singleton_append, List.sorted_cons]
        refine ⟨fun v hv => ?_, hrest⟩
        have hlow := (splitByChunksAux_wf lines fuel (i + MAX_LINES_PER_UNIT) v hv).2
        show i ≤ v.start_line
        omega
      · rw [if_neg hb, List.nil_append]
        exact hrest
    · rw [if_neg hi]
      exact List.sorted_nil

theorem splitByChunksAux_cover (lines : List Line) :
    ∀ (fuel i : Nat), lines.length - i ≤ fuel →
    ∀ j, i ≤ j → j < lines.length →
    (∃ v ∈ splitByChunksAux lines fuel i, v.start_line ≤ j ∧ j ≤ v.end_line) ∨
      isBlankL (lines.getD j []) = true
  | 0, i, hfuel, j, hij, hj => by omega
  | fuel + 1, i, hfuel, j, hij, hj => by
    have hM : MAX_LINES_PER_UNIT = 50 := rfl
    have hi : i < lines.length := by omega
    have hlen : ((lines.drop i).take MAX_LINES_PER_UNIT).length =
        min MAX_LINES_PER_UNIT (lines.length - i) := by
      rw [List.length_take, List.length_drop]
    simp only [splitByChunksAux]
    rw [if_pos hi]
    by_cases hnear : j < i + ((lines.drop i).take MAX_LINES_PER_UNIT).length
    · by_cases hb : anyNonBlank ((lines.drop i).take MAX_LINES_PER_UNIT) = true
      · left
        refine ⟨_, List.mem_append_left _ (by rw [if_pos hb]; exact List.mem_singleton_self _), ?_, ?_⟩
        · show i ≤ j
          exact hij
        · show j ≤ min (i + ((lines.drop i).take MAX_LINES_PER_UNIT).length - 1)
            (lines.length - 1)
          omega
      · right
        have hb' : anyNonBlank ((lines.drop i).take MAX_LINES_PER_UNIT) = false := by
          rw [← Bool.not_eq_true]; exact hb
        exact blank_of_not_anyNonBlank hb'
          (getD_mem_slice2 lines i MAX_LINES_PER_UNIT j hj hij (by omega))
    · have IH := splitByChunksAux_cover lines fuel (i + MAX_LINES_PER_UNIT)
        (by omega) j (by omega) hj
      rcases IH with ⟨v, hv, hvc⟩ | hblank
      · exact Or.inl ⟨v, List.mem_append_right _ hv, hvc⟩
      · exact Or.inr hblank
theorem splitLongUnitAux_cover (lines : List Line) (u : CodeUnit)
    (hse : u.start_line ≤ u.end_line) (hel : u.end_line < lines.length)
    (hc : u.content =
      (lines.drop u.start_line).take (u.end_line + 1 - u.start_line)) :
    ∀ (fuel i : Nat), u.content.length - i ≤ fuel →
    ∀ j, u.start_line + i ≤ j → j ≤ u.end_line →
    (∃ v ∈ splitLongUnitAux u fuel i, v.start_line ≤ j ∧ j ≤ v.end_line) ∨
      isBlankL (lines.getD j []) = true := by
  have hclen : u.content.length = u.end_line + 1 - u.start_line := by
    rw [hc, List.length_take, List.length_drop]
    omega
  intro fuel
  induction fuel with
  | zero =>
    intro i hfuel j hij hje
    omega
  | succ fuel ih =>
    intro i hfuel j hij hje
    have hM : MAX_LINES_PER_UNIT = 50 := rfl
    have hi : i < u.content.length := by omega
    have hchunk : (u.content.drop i).take MAX_LINES_PER_UNIT =
        (lines.drop (u.start_line + i)).take
          (min MAX_LINES_PER_UNIT (u.end_line + 1 - u.start_line - i)) := by
      rw [hc, List.drop_take, List.drop_drop, List.take_take]
    have hchl : ((u.content.drop i).take MAX_LINES_PER_UNIT).length =
        min MAX_LINES_PER_UNIT (u.end_line + 1 - u.start_line - i) := by
      rw [hchunk, List.length_take, List.length_drop]
      omega
    simp only [splitLongUnitAux]
    rw [if_pos hi]
    by_cases hnear : j < u.start_line + i +
        ((u.content.drop i).take MAX_LINES_PER_UNIT).length
    · by_cases hb : anyNonBlank ((u.content.drop i).take MAX_LINES_PER_UNIT) = true
      · left
        refine ⟨_, List.mem_append_left _
          (by rw [if_pos hb]; exact List.mem_singleton_self _), ?_, ?_⟩
        · show u.start_line + i ≤ j
          exact hij
        · show j ≤ u.start_line +
            min (i + ((u.content.drop i).take MAX_LINES_PER_UNIT).length - 1)
              (u.content.length - 1)
          rw [hchl, hclen]
          omega
      · right
        have hb' : anyNonBlank ((u.content.drop i).take MAX_LINES_PER_UNIT) = false := by
          rw [← Bool.not_eq_true]
          exact hb
        refine blank_of_not_anyNonBlank hb' ?_
        rw [hchunk]
        exact getD_mem_slice2 lines (u.start_line + i) _ j (by omega) hij (by omega)
    · have IH := ih (i + MAX_LINES_PER_UNIT) (by omega) j (by omega) hje
      rcases IH with ⟨v, hv, hvc⟩ | hblank
      · exact Or.inl ⟨v, List.mem_append_right _ hv, hvc⟩
      · exact Or.inr hblank

theorem functionUnits_cover (language : String) (lines : List Line)
    (starts : List Nat) {s : Nat} (hsf : s ∈ findFunctionStarts language lines)
    (hmem : s ∈ starts) :
    ∀ j, s ≤ j → j ≤ findBlockEnd language lines s →
    (∃ v ∈ functionUnits language lines starts,
      v.start_line ≤ j ∧ j ≤ v.end_line) ∨
      isBlankL (lines.getD j []) = true := by
  intro j hsj hje
  obtain ⟨hslt, _⟩ := mem_findFunctionStarts hsf
  have hbnd := findBlockEnd_bounds language lines s hslt
  by_cases hbig : MAX_LINES_PER_UNIT < (functionUnit language lines s).getLineCount
  · have hstart : (functionUnit language lines s).start_line = s := rfl
    have hend : (functionUnit language lines s).end_line =
        findBlockEnd language lines s := rfl
    have hcov := splitLongUnitAux_cover lines (functionUnit language lines s)
      hbnd.1 hbnd.2 rfl (functionUnit language lines s).content.length 0
      (by omega) j (by omega) (by omega)
    rcases hcov with ⟨v, hv, hvc⟩ | hblank
    · left
      refine ⟨v, ?_, hvc⟩
      rw [functionUnits, List.mem_flatMap]
      refine ⟨s, hmem, ?_⟩
      rw [if_pos hbig]
      exact hv
    · exact Or.inr hblank
  · left
    refine ⟨functionUnit language lines s, ?_, hsj, hje⟩
    rw [functionUnits, List.mem_flatMap]
    refine ⟨s, hmem, ?_⟩
    rw [if_neg hbig]
    exact List.mem_singleton_self _
theorem chunkLoop_cover (lines : List Line) (proc : Nat → Bool) :
    ∀ (n i : Nat) (cur : List Line) (curStart : Nat),
    n = lines.length - i → i ≤ lines.length →
    cur.length + 1 ≤ MAX_LINES_PER_UNIT →
    (cur = [] ∨ (curStart + cur.length = i ∧
      cur = (lines.drop curStart).take cur.length)) →
    ∀ j, j < lines.length →
    ((cur ≠ [] ∧ curStart ≤ j ∧ j < i) ∨ (i ≤ j ∧ proc j = false)) →
    (∃ v ∈ chunkLoop lines proc n i cur curStart,
      v.start_line ≤ j ∧ j ≤ v.end_line) ∨
      isBlankL (lines.getD j []) = true
  | 0, i, cur, curStart, hn, hi, hlen, hinv, j, hj, hobl => by
    rcases hobl with ⟨hne, hc1, hc2⟩ | ⟨hc1, hc2⟩
    swap
    · omega
    rcases hinv with hcur | ⟨hpos, hslice⟩
    · exact absurd hcur hne
    rw [chunkLoop, if_neg (by simp only [List.isEmpty_iff]; exact hne)]
    by_cases hb : anyNonBlank cur = true
    · left
      refine ⟨_, by rw [chunkEmit, if_pos hb]; exact List.mem_singleton_self _, ?_, ?_⟩
      · show curStart ≤ j
        exact hc1
      · show j ≤ lines.length - 1
        omega
    · right
      have hb' : anyNonBlank cur = false := by
        rw [← Bool.not_eq_true]
        exact hb
      refine blank_of_not_anyNonBlank hb' ?_
      rw [hslice]
      exact getD_mem_slice2 lines curStart cur.length j hj hc1 (by omega)
  | n + 1, i, cur, curStart, hn, hi, hlen, hinv, j, hj, hobl => by
    have hM : MAX_LINES_PER_UNIT = 50 := rfl
    have hilt : i < lines.length := by omega
    simp only [chunkLoop]
    by_cases hp : (!proc i) = true
    · rw [if_pos hp]
      have hfacts : (if cur.isEmpty then i else curStart) + cur.length = i ∧
          cur = (lines.drop (if cur.isEmpty then i else curStart)).take cur.length := by
        by_cases hne : cur.isEmpty = true
        · have hcur : cur = [] := List.isEmpty_iff.mp hne
          subst hcur
          rw [if_pos hne]
          exact ⟨rfl, by simp⟩
        · have hne' : cur ≠ [] := by simpa [List.isEmpty_iff] using hne
          rcases hinv with hcur | ⟨hpos, hslice⟩
          · exact absurd hcur hne'
          rw [if_neg hne]
          exact ⟨hpos, hslice⟩
      obtain ⟨hpos', hslice'⟩ := hfacts
      have hsnoc := slice_snoc lines (if cur.isEmpty then i else curStart) i cur
        hilt hpos' hslice'
      have hl1 : (cur ++ [lines.getD i []]).length = cur.length + 1 := by simp
      have hcs : cur ≠ [] → (if cur.isEmpty then i else curStart) = curStart := by
        intro h
        rw [if_neg (by simp only [List.isEmpty_iff]; exact h)]
      by_cases hflush : MAX_LINES_PER_UNIT ≤ (cur ++ [lines.getD i []]).length
      · rw [if_pos hflush]
        by_cases hjnear : j ≤ i
        · have hjcs : (if cur.isEmpty then i else curStart) ≤ j := by
            rcases hobl with ⟨hne, hc1, _⟩ | ⟨hc1, _⟩
            · rw [hcs hne]
              exact hc1
            · omega
          by_cases hb : anyNonBlank (cur ++ [lines.getD i []]) = true
          · left
            refine ⟨_, List.mem_append_left _
              (by rw [chunkEmit, if_pos hb]; exact List.mem_singleton_self _), ?_, ?_⟩
            · show (if cur.isEmpty then i else curStart) ≤ j
              exact hjcs
            · show j ≤ i
              exact hjnear
          · right
            have hb' : anyNonBlank (cur ++ [lines.getD i []]) = false := by
              rw [← Bool.not_eq_true]
              exact hb
            refine blank_of_not_anyNonBlank hb' ?_
            rw [hsnoc]
            exact getD_mem_slice2 lines _ _ j hj hjcs (by omega)
        · have hc2 : proc j = false := by
            rcases hobl with ⟨_, _, h2⟩ | ⟨_, h2⟩
            · omega
            · exact h2
          have IH := chunkLoop_cover lines proc n (i + 1) []
            (if cur.isEmpty then i else curStart) (by omega) (by omega) (by decide)
            (Or.inl rfl) j hj (Or.inr ⟨by omega, hc2⟩)
          rcases IH with ⟨v, hv, hvc⟩ | hb
          · exact Or.inl ⟨v, List.mem_append_right _ hv, hvc⟩
          · exact Or.inr hb
      · rw [if_neg hflush]
        have hobl' : (cur ++ [lines.getD i []] ≠ [] ∧
            (if cur.isEmpty then i else curStart) ≤ j ∧ j < i + 1) ∨
            (i + 1 ≤ j ∧ proc j = false) := by
          rcases hobl with ⟨hne, hc1, hc2⟩ | ⟨hc1, hc2⟩
          · left
            exact ⟨by simp, by rw [hcs hne]; exact hc1, by omega⟩
          · by_cases hji : j = i
            · left
              refine ⟨by simp, ?_, by omega⟩
              omega
            · right
              exact ⟨by omega, hc2⟩
        exact chunkLoop_cover lines proc n (i + 1) (cur ++ [lines.getD i []])
          (if cur.isEmpty then i else curStart) (by omega) (by omega) (by omega)
          (Or.inr ⟨by rw [hl1]; omega, by rw [hl1]; exact hsnoc⟩) j hj hobl'
    · rw [if_neg hp]
      have hp' : proc i = true := by simpa using hp
      by_cases hjlt : j < i
      · rcases hobl with ⟨hne, hc1, hc2⟩ | ⟨hc1, hc2⟩
        swap
        · omega
        rcases hinv with hcur | ⟨hpos, hslice⟩
        · exact absurd hcur hne
        rw [if_neg (by simp only [List.isEmpty_iff]; exact hne)]
        by_cases hb : anyNonBlank cur = true
        · left
          refine ⟨_, List.mem_append_left _
            (by rw [chunkEmit, if_pos hb]; exact List.mem_singleton_self _), ?_, ?_⟩
          · show curStart ≤ j
            exact hc1
          · show j ≤ i - 1
            omega
        · right
          have hb' : anyNonBlank cur = false := by
            rw [← Bool.not_eq_true]
            exact hb
          refine blank_of_not_anyNonBlank hb' ?_
          rw [hslice]
          exact getD_mem_slice2 lines curStart cur.length j hj hc1 (by omega)
      · have hjga : i + 1 ≤ j ∧ proc j = false := by
          rcases hobl with ⟨_, _, hc2⟩ | ⟨hc1, hc2⟩
          · omega
          · refine ⟨?_, hc2⟩
            rcases Nat.eq_or_lt_of_le hc1 with he | hlt
            · rw [← he] at hc2
              rw [hp'] at hc2
              simp at hc2
            · omega
        have IH := chunkLoop_cover lines proc n (i + 1) [] curStart (by omega)
          (by omega) (by decide) (Or.inl rfl) j hj (Or.inr hjga)
        rcases IH with ⟨v, hv, hvc⟩ | hb
        · exact Or.inl ⟨v, List.mem_append_right _ hv, hvc⟩
        · exact Or.inr hb
/-- Whether some unit's line range covers index `j`. -/
def coversIdx (us : List CodeUnit) (j : Nat) : Bool :=
  us.any (fun u => decide (u.start_line ≤ j) && decide (j ≤ u.end_line))

theorem coversIdx_of_mem {us : List CodeUnit} {j : Nat} {v : CodeUnit}
    (hv : v ∈ us) (h1 : v.start_line ≤ j) (h2 : j ≤ v.end_line) :
    coversIdx us j = true := by
  rw [coversIdx, List.any_eq_true]
  exact ⟨v, hv, by simp [h1, h2]⟩

theorem splitIntoUnitsCore_sorted (language : String) (lines : List Line) :
    List.Sorted unitLE (splitIntoUnitsCore language lines) := by
  rw [splitIntoUnitsCore]
  by_cases hs : (findFunctionStarts language lines).isEmpty = true
  · rw [if_pos hs, splitByChunks]
    exact splitByChunksAux_sorted lines lines.length 0
  · rw [if_neg hs, sortUnits]
    exact List.sorted_insertionSort unitLE _

theorem splitIntoUnitsCore_cover (language : String) (lines : List Line) :
    ∀ j, j < lines.length →
    (∃ v ∈ splitIntoUnitsCore language lines, v.start_line ≤ j ∧ j ≤ v.end_line) ∨
      isBlankL (lines.getD j []) = true := by
  intro j hj
  rw [splitIntoUnitsCore]
  by_cases hs : (findFunctionStarts language lines).isEmpty = true
  · rw [if_pos hs, splitByChunks]
    exact splitByChunksAux_cover lines lines.length 0 (by omega) j (by omega) hj
  · rw [if_neg hs]
    by_cases hproc : inFunctionBlock language lines
        (findFunctionStarts language lines) j = true
    · rw [inFunctionBlock, List.any_eq_true] at hproc
      obtain ⟨s, hsmem, hsj⟩ := hproc
      simp only [Bool.and_eq_true, decide_eq_true_eq] at hsj
      have hcov := functionUnits_cover language lines
        (findFunctionStarts language lines) hsmem hsmem j hsj.1 hsj.2
      rcases hcov with ⟨v, hv, hvc⟩ | hb
      · left
        refine ⟨v, ?_, hvc⟩
        rw [sortUnits, (List.perm_insertionSort unitLE _).mem_iff, List.mem_append]
        exact Or.inl hv
      · exact Or.inr hb
    · have hpf : inFunctionBlock language lines
          (findFunctionStarts language lines) j = false := by
        rw [← Bool.not_eq_true]
        exact hproc
      have hcov := chunkLoop_cover lines (inFunctionBlock language lines
        (findFunctionStarts language lines)) lines.length 0 [] 0 rfl (by omega)
        (by decide) (Or.inl rfl) j hj (Or.inr ⟨by omega, hpf⟩)
      rcases hcov with ⟨v, hv, hvc⟩ | hb
      · left
        refine ⟨v, ?_, hvc⟩
        rw [sortUnits, (List.perm_insertionSort unitLE _).mem_iff, List.mem_append]
        exact Or.inr hv
      · exact Or.inr hb

/-- Claim C1 is false as stated: for python, a nested `def` yields a function
unit for the outer block and another for the inner block, and the two line
ranges overlap, so the output is not a partition of the line indices. -/
theorem split_units_claim_false :
    ¬ List.Pairwise (fun u v : CodeUnit => u.end_line < v.start_line ∨
      v.end_line < u.start_line)
      (splitIntoUnits "python"
        [("def f():").data, (" def g():").data, ("  x = 1").data]) := by decide

/-- C1 (amended): for every non-vue language tag the unit list returned by
segmentation is sorted by start_line, and every line index of the file is
either inside some returned unit's range or is a blank line (lines dropped
with whitespace-only chunks are blank).  Overlaps do occur, so exact-once
coverage fails (see the counterexample). -/
theorem split_units_sorted_cover (language : String) (lines : List Line) (j : Nat)
    (hl : language ≠ "vue") (hj : j < lines.length) :
    List.Sorted unitLE (splitIntoUnits language lines) ∧
    (coversIdx (splitIntoUnits language lines) j ||
      isBlankL (lines.getD j [])) = true := by
  rw [splitIntoUnits, if_neg hl]
  refine ⟨splitIntoUnitsCore_sorted language lines, ?_⟩
  rw [Bool.or_eq_true]
  rcases splitIntoUnitsCore_cover language lines j hj with ⟨v, hv, h1, h2⟩ | hb
  · exact Or.inl (coversIdx_of_mem hv h1 h2)
  · exact Or.inr hb

theorem split_units_sorted_cover_witness :
    List.Sorted unitLE (splitIntoUnits "python" [("x = 1").data]) ∧
    (coversIdx (splitIntoUnits "python" [("x = 1").data]) 0 ||
      isBlankL ([("x = 1").data].getD 0 [])) = true :=
  split_units_sorted_cover "python" [("x = 1").data] 0 (by decide) (by decide)

/-! ### Claims C8 and C10: annotation placement in the reassembled output -/

/-- All indices in the processed set lie below `c`. -/
def ProcBelow (proc : List Nat) (c : Nat) : Prop := ∀ j ∈ proc, j < c

/-- The cursor after processing a unit list from position `c`. -/
def unitsEnd : Nat → List CodeUnit → Nat
  | c, [] => c
  | _, u :: rest => unitsEnd (u.end_line + 1) rest

/-- The output that the main loop of `_reconstruct_file` emits for a sorted
list of pairwise-disjoint units starting from cursor `c`: for each unit the
gap lines before it, then the unit's span, then its annotation lines. -/
def gapsOut (lines : List Line) : Nat → List CodeUnit → List Line
  | _, [] => []
  | c, u :: rest =>
    (lines.drop c).take (u.start_line - c) ++ unitSpan lines u ++
      (if u.comment.isEmpty then [] else splitNl u.comment) ++
      gapsOut lines (u.end_line + 1) rest

theorem flushLoopC (lines : List Line) :
    ∀ (n c : Nat) (proc : List Nat) (acc : List Line),
    ProcBelow proc c → c + n ≤ lines.length →
    ∃ proc', flushLoop lines n c proc acc =
        some (c + n, proc', acc ++ (lines.drop c).take n) ∧ ProcBelow proc' (c + n)
  | 0, c, proc, acc, hP, hcl => by
    refine ⟨proc, ?_, fun j hj => by have := hP j hj; omega⟩
    rw [flushLoop, List.take_zero, List.append_nil]
    rfl
  | n + 1, c, proc, acc, hP, hcl => by
    have hclt : c < lines.length := by omega
    have hnc : c ∉ proc := fun h => by have := hP c h; omega
    have hcont : proc.contains c = false := by
      rw [← Bool.not_eq_true, List.elem_iff]
      exact hnc
    have hP' : ProcBelow (c :: proc) (c + 1) := by
      intro j hj
      rcases List.mem_cons.mp hj with h | h
      · omega
      · have := hP j h; omega
    obtain ⟨proc', h1, h2⟩ := flushLoopC lines n (c + 1) (c :: proc)
      (acc ++ [lines.get ⟨c, hclt⟩]) hP' (by omega)
    have hacc : acc ++ [lines.get ⟨c, hclt⟩] ++ (lines.drop (c + 1)).take n =
        acc ++ (lines.drop c).take (n + 1) := by
      rw [List.append_assoc]
      congr 1
      rw [List.drop_eq_getElem_cons hclt, List.take_succ_cons, List.singleton_append]
      rfl
    refine ⟨proc', ?_, ?_⟩
    · rw [flushLoop, if_neg (by simp only [List.elem_iff]; exact hnc), dif_pos hclt,
        h1, hacc]
      have he : c + 1 + n = c + (n + 1) := by omega
      rw [he]
    · intro j hj
      have := h2 j hj
      omega

theorem emitSpanC (lines : List Line) :
    ∀ (n i : Nat) (proc : List Nat) (acc : List Line),
    ProcBelow proc i → i + n ≤ lines.length →
    ∃ proc', emitSpan lines n i proc acc =
        (proc', acc ++ (lines.drop i).take n) ∧ ProcBelow proc' (i + n)
  | 0, i, proc, acc, hP, hil => by
    refine ⟨proc, ?_, fun j hj => by have := hP j hj; omega⟩
    rw [emitSpan, List.take_zero, List.append_nil]
  | n + 1, i, proc, acc, hP, hil => by
    have hilt : i < lines.length := by omega
    have hnc : i ∉ proc := fun h => by have := hP i h; omega
    have hP' : ProcBelow (i :: proc) (i + 1) := by
      intro j hj
      rcases List.mem_cons.mp hj with h | h
      · omega
      · have := hP j h; omega
    obtain ⟨proc', h1, h2⟩ := emitSpanC lines n (i + 1) (i :: proc)
      (acc ++ [lines.getD i []]) hP' (by omega)
    have hacc : acc ++ [lines.getD i []] ++ (lines.drop (i + 1)).take n =
        acc ++ (lines.drop i).take (n + 1) := by
      rw [List.append_assoc]
      congr 1
      rw [List.drop_eq_getElem_cons hilt, List.take_succ_cons,
        List.getD_eq_getElem lines [] hilt, List.singleton_append]
    refine ⟨proc', ?_, ?_⟩
    · rw [emitSpan, if_neg (by simp only [List.elem_iff]; exact hnc), h1, hacc]
    · intro j hj
      have := h2 j hj
      omega

theorem trailingFlushC (lines : List Line) :
    ∀ (n c : Nat) (proc : List Nat) (acc : List Line),
    n = lines.length - c → ProcBelow proc c →
    trailingFlush lines n c proc acc = acc ++ lines.drop c
  | 0, c, proc, acc, hn, hP => by
    rw [trailingFlush, List.drop_eq_nil_of_le (by omega), List.append_nil]
  | n + 1, c, proc, acc, hn, hP => by
    have hclt : c < lines.length := by omega
    have hnc : c ∉ proc := fun h => by have := hP c h; omega
    rw [trailingFlush, if_neg (by simp only [List.elem_iff]; exact hnc),
      trailingFlushC lines n (c + 1) proc _ (by omega)
        (fun j hj => by have := hP j hj; omega)]
    rw [List.append_assoc, List.drop_eq_getElem_cons hclt,
      List.getD_eq_getElem lines [] hclt, List.singleton_append]
theorem reconStepC (lines : List Line) (u : CodeUnit) (c : Nat) (proc : List Nat)
    (acc : List Line) (hP : ProcBelow proc c) (hcs : c ≤ u.start_line)
    (hse : u.start_line ≤ u.end_line) (hel : u.end_line < lines.length)
    (hnb : anyNonBlank (unitSpan lines u) = true) :
    ∃ proc', reconStep lines (c, proc, acc) u =
        some (u.end_line + 1, proc',
          acc ++ ((lines.drop c).take (u.start_line - c) ++ (unitSpan lines u ++
            (if u.comment.isEmpty then [] else splitNl u.comment)))) ∧
      ProcBelow proc' (u.end_line + 1) := by
  obtain ⟨proc1, hf1, hf2⟩ := flushLoopC lines (u.start_line - c) c proc acc hP (by omega)
  have hcn : c + (u.start_line - c) = u.start_line := by omega
  rw [hcn] at hf1 hf2
  have hclip : min (u.end_line + 1) lines.length = u.end_line + 1 := by omega
  obtain ⟨proc2, he1, he2⟩ := emitSpanC lines (u.end_line + 1 - u.start_line)
    u.start_line proc1 (acc ++ (lines.drop c).take (u.start_line - c)) hf2 (by omega)
  have hspan : unitSpan lines u =
      (lines.drop u.start_line).take (u.end_line + 1 - u.start_line) := by
    rw [unitSpan, hclip]
  refine ⟨proc2, ?_, ?_⟩
  · rw [reconStep]
    rw [hf1]
    simp only [Option.bind_eq_bind, Option.some_bind, hnb, if_true, hclip]
    rw [he1]
    by_cases hcmt : u.comment.isEmpty = true
    · rw [if_pos hcmt, if_pos hcmt]
      simp [hspan, List.append_assoc]
    · rw [if_neg hcmt, if_neg hcmt]
      simp [hspan, List.append_assoc]
  · intro j hj
    have := he2 j hj
    omega

theorem reconUnitsC (lines : List Line) :
    ∀ (us : List CodeUnit) (c : Nat) (proc : List Nat) (acc : List Line),
    ProcBelow proc c → c ≤ lines.length →
    (∀ u ∈ us, u.start_line ≤ u.end_line ∧ u.end_line < lines.length ∧
      anyNonBlank (unitSpan lines u) = true) →
    List.Chain' (fun u v => u.end_line < v.start_line) us →
    (∀ v ∈ us.head?, c ≤ v.start_line) →
    ∃ proc', reconUnits lines us (c, proc, acc) =
        some (unitsEnd c us, proc', acc ++ gapsOut lines c us) ∧
      ProcBelow proc' (unitsEnd c us) ∧ c ≤ unitsEnd c us ∧
      unitsEnd c us ≤ lines.length
  | [], c, proc, acc, hP, hcl, hu, hch, hhd => by
    refine ⟨proc, ?_, hP, le_refl c, hcl⟩
    simp [reconUnits, unitsEnd, gapsOut]
  | u :: rest, c, proc, acc, hP, hcl, hu, hch, hhd => by
    have hu0 := hu u (by simp)
    have hc0 : c ≤ u.start_line := hhd u (by simp)
    obtain ⟨proc1, hs1, hs2⟩ := reconStepC lines u c proc acc hP hc0 hu0.1 hu0.2.1 hu0.2.2
    have hch' : List.Chain' (fun u v : CodeUnit => u.end_line < v.start_line) rest :=
      hch.tail
    have hhd' : ∀ v ∈ rest.head?, u.end_line + 1 ≤ v.start_line := by
      intro v hv
      cases rest with
      | nil => simp at hv
      | cons w rest' =>
        simp at hv
        subst hv
        have hrel := (List.chain'_cons.mp hch).1
        omega
    obtain ⟨proc', ht1, ht2, ht3, ht4⟩ := reconUnitsC lines rest (u.end_line + 1) proc1
      (acc ++ ((lines.drop c).take (u.start_line - c) ++ (unitSpan lines u ++
        (if u.comment.isEmpty then [] else splitNl u.comment))))
      hs2 (by omega) (fun v hv => hu v (by simp [hv])) hch' hhd'
    have hue : unitsEnd c (u :: rest) = unitsEnd (u.end_line + 1) rest := rfl
    refine ⟨proc', ?_, ?_, by omega, by omega⟩
    · rw [reconUnits]
      rw [hs1]
      simp only [Option.bind_eq_bind, Option.some_bind]
      rw [ht1, hue]
      simp [gapsOut, List.append_assoc]
    · rw [hue]
      exact ht2
theorem chain_lb : ∀ (us : List CodeUnit) (c : Nat),
    List.Chain' (fun u v => u.end_line < v.start_line) us →
    (∀ u ∈ us, u.start_line ≤ u.end_line) →
    (∀ v ∈ us.head?, c ≤ v.start_line) →
    ∀ u ∈ us, c ≤ u.start_line
  | [], c, _, _, _ => by simp
  | u :: rest, c, hch, hse, hhd => by
    intro v hv
    rcases List.mem_cons.mp hv with rfl | hv'
    · exact hhd v (by simp)
    · have hc0 : c ≤ u.start_line := hhd u (by simp)
      have hu0 : u.start_line ≤ u.end_line := hse u (by simp)
      have hrec := chain_lb rest (u.end_line + 1) hch.tail
        (fun w hw => hse w (by simp [hw]))
        (by
          intro w hw
          cases rest with
          | nil => simp at hw
          | cons x rest' =>
            simp at hw
            subst hw
            have hr := (List.chain'_cons.mp hch).1
            omega) v hv'
      omega

theorem chain_sorted : ∀ (us : List CodeUnit),
    List.Chain' (fun u v => u.end_line < v.start_line) us →
    (∀ u ∈ us, u.start_line ≤ u.end_line) → List.Sorted unitLE us
  | [], _, _ => List.sorted_nil
  | u :: rest, hch, hse => by
    rw [List.sorted_cons]
    constructor
    · intro v hv
      have hlb := chain_lb rest (u.end_line + 1) hch.tail
        (fun w hw => hse w (by simp [hw]))
        (by
          intro w hw
          cases rest with
          | nil => simp at hw
          | cons x rest' =>
            simp at hw
            subst hw
            have hr := (List.chain'_cons.mp hch).1
            omega) v hv
      have hu0 : u.start_line ≤ u.end_line := hse u (by simp)
      show u.start_line ≤ v.start_line
      omega
    · exact chain_sorted rest hch.tail (fun w hw => hse w (by simp [hw]))

/-- Whether `seg` occurs as a contiguous segment of `out`. -/
def hasSeg (seg : List Line) : List Line → Bool
  | [] => seg.isEmpty
  | x :: xs => seg.isPrefixOf (x :: xs) || hasSeg seg xs

/-- Claim C8 is false as stated: when two units have the same span, the second
unit's lines are already marked processed when it is handled, so nothing is
re-emitted for it and its annotation lands after the first unit's annotation —
not immediately after its own lines.  In the output below, the second unit's
span followed by its annotation is not a contiguous segment. -/
theorem annotation_placement_claim_false :
    reconstructFile [("a").data]
      [⟨[("a").data], 0, 0, "chunk", none, ("x").data⟩,
       ⟨[("a").data], 0, 0, "chunk", none, ("y").data⟩] [] =
      some [("a").data, ("x").data, ("y").data] ∧
    hasSeg ([("a").data] ++ splitNl (("y").data))
      [("a").data, ("x").data, ("y").data] = false := by decide

/-- C8 (amended): for pairwise-disjoint units listed in increasing line order
whose spans are in range and contain non-whitespace content, reassembly emits,
for each unit in order, the gap lines before it, then the unit's own span,
then its annotation lines immediately after (nothing when the annotation is
empty); and when the file annotation is non-empty and the file has a
non-blank line, the output starts with the file annotation followed by one
blank line. -/
theorem reconstruct_structured (lines : List Line) (units : List CodeUnit)
    (fc : PyStr)
    (hu : ∀ u ∈ units, u.start_line ≤ u.end_line ∧ u.end_line < lines.length ∧
      anyNonBlank (unitSpan lines u) = true)
    (hch : List.Chain' (fun u v => u.end_line < v.start_line) units) :
    reconstructFile lines units fc = some (
      (if (!fc.isEmpty && anyNonBlank lines) = true then splitNl fc ++ [[]]
       else []) ++
      (gapsOut lines 0 units ++ lines.drop (unitsEnd 0 units))) := by
  have hsorted : List.Sorted unitLE units := chain_sorted units hch
    (fun u hu' => (hu u hu').1)
  have hsu : sortUnits units = units := by
    rw [sortUnits]
    exact List.Sorted.insertionSort_eq hsorted
  obtain ⟨proc', ht1, ht2, ht3, ht4⟩ := reconUnitsC lines units 0 []
    (if (!fc.isEmpty && anyNonBlank lines) = true then splitNl fc ++ [[]] else [])
    (fun j hj => absurd hj (List.not_mem_nil j)) (by omega) hu hch
    (fun v _ => by omega)
  rw [reconstructFile, hsu]
  rw [ht1]
  simp only [Option.bind_eq_bind, Option.some_bind]
  rw [trailingFlushC lines (lines.length - unitsEnd 0 units) (unitsEnd 0 units)
    proc' _ rfl ht2]
  rw [List.append_assoc]
  rfl

theorem reconstruct_structured_witness :
    reconstructFile [("a").data, ("b").data]
      [⟨[("a").data], 0, 0, "chunk", none, ("x").data⟩] (("f").data) =
      some (
        (if (!(("f").data).isEmpty && anyNonBlank [("a").data, ("b").data]) = true
         then splitNl (("f").data) ++ [[]] else []) ++
        (gapsOut [("a").data, ("b").data] 0
          [⟨[("a").data], 0, 0, "chunk", none, ("x").data⟩] ++
         [("a").data, ("b").data].drop (unitsEnd 0
          [⟨[("a").data], 0, 0, "chunk", none, ("x").data⟩]))) :=
  reconstruct_structured [("a").data, ("b").data]
    [⟨[("a").data], 0, 0, "chunk", none, ("x").data⟩] (("f").data)
    (by decide) (by simp)

/-- Claim C10 is false as stated: a unit with fewer than 3 lines is indeed
never annotated, but "the reassembled output contains that unit's lines" can
fail — a small unit whose clipped span is entirely blank (here the one unit
the segmenter itself produces for a vue file whose template body is a single
blank line) has its line marked processed without being emitted, so the
output does not contain it. -/
theorem small_unit_claim_false :
    splitIntoUnits "vue" [("<template>").data, [], ("</template>").data] =
      [⟨[[]], 1, 1, "chunk", some "template", []⟩] ∧
    (⟨[[]], 1, 1, "chunk", some "template", []⟩ : CodeUnit).getLineCount < 3 ∧
    annotateUnit (fun _ => some (("z").data)) "vue"
      ⟨[[]], 1, 1, "chunk", some "template", []⟩ =
      ⟨[[]], 1, 1, "chunk", some "template", []⟩ ∧
    reconstructFile [("<template>").data, [], ("</template>").data]
      [⟨[[]], 1, 1, "chunk", some "template", []⟩] [] =
      some [("<template>").data, ("</template>").data] ∧
    ¬ (([] : Line) ∈ [("<template>").data, ("</template>").data]) := by decide

/-- C10 (amended): a unit with fewer than 3 lines is returned unchanged by
the annotation step — the backend is never consulted (the result does not
depend on `gen`) and its annotation stays empty; and when such a unit's
in-range span contains non-blank content and the cursor has only earlier
lines processed, reassembly emits exactly the gap and the unit's own lines
for it, with no annotation lines after.  (A small unit whose span is
entirely blank instead has its lines dropped — see the counterexample.) -/
theorem small_unit_no_annotation (gen : CodeUnit → Option PyStr) (language : String)
    (lines : List Line) (u : CodeUnit) (c : Nat) (proc : List Nat) (acc : List Line)
    (hsmall : u.getLineCount < 3) (hcmt : u.comment = [])
    (hP : ProcBelow proc c) (hcs : c ≤ u.start_line) (hse : u.start_line ≤ u.end_line)
    (hel : u.end_line < lines.length)
    (hnb : anyNonBlank (unitSpan lines u) = true) :
    annotateUnit gen language u = u ∧
    ∃ proc', reconStep lines (c, proc, acc) (annotateUnit gen language u) =
        some (u.end_line + 1, proc',
          acc ++ ((lines.drop c).take (u.start_line - c) ++ unitSpan lines u)) ∧
      ProcBelow proc' (u.end_line + 1) := by
  have hid : annotateUnit gen language u = u := by
    rw [annotateUnit, if_pos hsmall]
  refine ⟨hid, ?_⟩
  rw [hid]
  obtain ⟨proc', h1, h2⟩ := reconStepC lines u c proc acc hP hcs hse hel hnb
  refine ⟨proc', ?_, h2⟩
  rw [h1, hcmt]
  simp

theorem small_unit_no_annotation_witness :
    annotateUnit (fun _ => some (("z").data)) "python"
      ⟨[("a").data], 0, 0, "chunk", none, []⟩ =
      ⟨[("a").data], 0, 0, "chunk", none, []⟩ ∧
    ∃ proc', reconStep [("a").data, ("b").data] (0, [], [])
        (annotateUnit (fun _ => some (("z").data)) "python"
          ⟨[("a").data], 0, 0, "chunk", none, []⟩) =
        some (1, proc',
          [] ++ (([("a").data, ("b").data].drop 0).take (0 - 0) ++
            unitSpan [("a").data, ("b").data]
              ⟨[("a").data], 0, 0, "chunk", none, []⟩)) ∧
      ProcBelow proc' 1 :=
  small_unit_no_annotation (fun _ => some (("z").data)) "python"
    [("a").data, ("b").data] ⟨[("a").data], 0, 0, "chunk", none, []⟩ 0 [] []
    (by decide) (by decide) (fun j hj => absurd hj (List.not_mem_nil j))
    (by decide) (by decide) (by decide) (by decide)

/-! ### Claim C7: vue section discovery and splicing -/

theorem findVueSectionsAux_mem (lines : List Line) :
    ∀ (n i : Nat) (cur : Option String) (secStart : Nat),
    n = lines.length - i → i ≤ lines.length →
    (∀ t, cur = some t → (t = "template" ∨ t = "script" ∨ t = "style")) →
    ∀ sec ∈ findVueSectionsAux lines n i cur secStart,
    (sec.1 = "template" ∨ sec.1 = "script" ∨ sec.1 = "style") ∧
    sec.2.1 ≤ sec.2.2 ∧ sec.2.2 < lines.length
  | 0, i, cur, secStart, hn, hi, hcur => by
    intro sec hsec
    cases cur with
    | none => simp [findVueSectionsAux] at hsec
    | some t =>
      simp only [findVueSectionsAux] at hsec
      by_cases hlt : secStart < lines.length
      · rw [if_pos hlt, List.mem_singleton] at hsec
        subst hsec
        exact ⟨hcur t rfl, by change secStart ≤ lines.length - 1; omega,
          by change lines.length - 1 < lines.length; omega⟩
      · rw [if_neg hlt] at hsec
        simp at hsec
  | n + 1, i, cur, secStart, hn, hi, hcur => by
    intro sec hsec
    have hilt : i < lines.length := by omega
    simp only [findVueSectionsAux] at hsec
    by_cases h1 : (("<template").data).isPrefixOf (pyStrip (lines.getD i [])) = true
    · rw [if_pos h1] at hsec
      exact findVueSectionsAux_mem lines n (i + 1) (some "template") (i + 1)
        (by omega) (by omega)
        (fun t ht => by injection ht with ht; subst ht; left; rfl) sec hsec
    · rw [if_neg h1] at hsec
      by_cases h2 : (("<script").data).isPrefixOf (pyStrip (lines.getD i [])) = true
      · rw [if_pos h2] at hsec
        exact findVueSectionsAux_mem lines n (i + 1) (some "script") (i + 1)
          (by omega) (by omega)
          (fun t ht => by injection ht with ht; subst ht; right; left; rfl) sec hsec
      · rw [if_neg h2] at hsec
        by_cases h3 : (("<style").data).isPrefixOf (pyStrip (lines.getD i [])) = true
        · rw [if_pos h3] at hsec
          exact findVueSectionsAux_mem lines n (i + 1) (some "style") (i + 1)
            (by omega) (by omega)
            (fun t ht => by injection ht with ht; subst ht; right; right; rfl) sec hsec
        · rw [if_neg h3] at hsec
          by_cases h4 : vueClosing (pyStrip (lines.getD i [])) = true
          · rw [if_pos h4] at hsec
            cases cur with
            | some t =>
              simp only [List.mem_append] at hsec
              rcases hsec with hsec | hsec
              · by_cases h5 : secStart < i
                · rw [if_pos h5, List.mem_singleton] at hsec
                  subst hsec
                  exact ⟨hcur t rfl, by change secStart ≤ i - 1; omega,
                    by change i - 1 < lines.length; omega⟩
                · rw [if_neg h5] at hsec
                  simp at hsec
              · exact findVueSectionsAux_mem lines n (i + 1) none secStart
                  (by omega) (by omega)
                  (fun t ht => by exact absurd ht (by simp)) sec hsec
            | none =>
              exact findVueSectionsAux_mem lines n (i + 1) none secStart
                (by omega) (by omega)
                (fun t ht => by exact absurd ht (by simp)) sec hsec
          · rw [if_neg h4] at hsec
            exact findVueSectionsAux_mem lines n (i + 1) cur secStart
              (by omega) (by omega) hcur sec hsec

/-- Claim C7 is false as stated: an unterminated trailing script section is
recorded by the scan, but when its body is blank the recursive javascript
segmentation drops every whitespace-only chunk, so the section contributes no
unit at all — not a unit running to the end of the file. -/
theorem vue_sections_claim_false :
    findVueSections [("<script>").data, []] = [("script", 1, 1)] ∧
    splitIntoUnits "vue" [("<script>").data, []] = [] := by decide

/-- C7 (amended): every section found by the vue scan is template, script or
style typed, with a non-empty in-range inner span; and a vue file's units are
exactly the sections' contributions — for a script section, the javascript
segmentation of its inner lines with both line numbers shifted by the
section's content start and the section tag set; for a template or style
section, the single chunk unit spanning the whole inner span tagged with that
section.  A closed section with no lines strictly between its markers is not
recorded, hence contributes nothing; an unterminated trailing section runs to
the end of the file but may still contribute no unit (see the
counterexample). -/
theorem vue_sections_spliced (lines : List Line) :
    (∀ sec ∈ findVueSections lines,
      (sec.1 = "template" ∨ sec.1 = "script" ∨ sec.1 = "style") ∧
      sec.2.1 ≤ sec.2.2 ∧ sec.2.2 < lines.length) ∧
    ∀ v : CodeUnit, v ∈ splitIntoUnits "vue" lines ↔
      ∃ sec ∈ findVueSections lines,
        (sec.1 = "script" ∧ ∃ u ∈ splitIntoUnitsCore "javascript"
            ((lines.drop sec.2.1).take (sec.2.2 + 1 - sec.2.1)),
          v = shiftUnit sec.2.1 sec.1 u) ∨
        (¬sec.1 = "script" ∧
          v = ⟨(lines.drop sec.2.1).take (sec.2.2 + 1 - sec.2.1),
            sec.2.1, sec.2.2, "chunk", some sec.1, []⟩) := by
  constructor
  · intro sec hsec
    exact findVueSectionsAux_mem lines lines.length 0 none 0 rfl (by omega)
      (fun t ht => by exact absurd ht (by simp)) sec hsec
  · intro v
    rw [splitIntoUnits, if_pos rfl, splitVueLines, List.mem_flatMap]
    constructor
    · rintro ⟨sec, hsec, hv⟩
      refine ⟨sec, hsec, ?_⟩
      by_cases hs : sec.1 = "script"
      · rw [if_pos hs, List.mem_map] at hv
        obtain ⟨u, hu, hvu⟩ := hv
        exact Or.inl ⟨hs, u, hu, hvu.symm⟩
      · rw [if_neg hs, List.mem_singleton] at hv
        exact Or.inr ⟨hs, hv⟩
    · rintro ⟨sec, hsec, hcase⟩
      refine ⟨sec, hsec, ?_⟩
      rcases hcase with ⟨hs, u, hu, hvu⟩ | ⟨hs, hv⟩
      · rw [if_pos hs, List.mem_map]
        exact ⟨u, hu, hvu.symm⟩
      · rw [if_neg hs, List.mem_singleton]
        exact hv

/-! ### Claim C4 revisited: reassembly with arbitrary annotations -/

/-- A unit with its annotation erased. -/
def eraseComment (u : CodeUnit) : CodeUnit := { u with comment := [] }

/-- One unit's effect in the interval abstraction of `_reconstruct_file`'s
main loop: the state is the cursor, the upper end `M` of the processed
interval `[0, M)`, and the output so far.  The step appends the newly emitted
original lines — the slice from `M` to the new interval end — followed by the
unit's annotation lines when its span has code and the annotation is
non-empty. -/
def reconAbsStep (lines : List Line) (st : Nat × Nat × List Line) (u : CodeUnit) :
    Nat × Nat × List Line :=
  let M1 := max st.2.1 (min (st.1 + (u.start_line - st.1)) lines.length)
  if anyNonBlank (unitSpan lines u) then
    let clip := min (u.end_line + 1) lines.length
    let M2 := max M1 (u.start_line + (clip - u.start_line))
    (u.end_line + 1, M2, st.2.2 ++ (lines.drop st.2.1).take (M2 - st.2.1) ++
      (if u.comment.isEmpty then [] else splitNl u.comment))
  else (u.end_line + 1, M1, st.2.2 ++ (lines.drop st.2.1).take (M1 - st.2.1))

/-- The whole reassembled output in the interval abstraction: the file
header, then for each unit (in sorted order) its newly emitted original
lines and its annotation, then the trailing flush of the still unprocessed
original lines.  Each original line index enters the processed interval
exactly once, so it is emitted exactly once, in order. -/
def reconAbs (lines : List Line) (units : List CodeUnit) (fc : PyStr) :
    List Line :=
  let init : List Line :=
    if !fc.isEmpty && anyNonBlank lines then splitNl fc ++ [[]] else []
  let st := (sortUnits units).foldl (reconAbsStep lines) (0, 0, init)
  st.2.2 ++ lines.drop (max st.1 st.2.1)

theorem take_drop_join (lines : List Line) (M M1 M2 : Nat) (h1 : M ≤ M1)
    (h2 : M1 ≤ M2) :
    (lines.drop M).take (M1 - M) ++ (lines.drop M1).take (M2 - M1) =
      (lines.drop M).take (M2 - M) := by
  have he : M2 - M = (M1 - M) + (M2 - M1) := by omega
  rw [he, List.take_add]
  congr 2
  rw [List.drop_drop]
  congr 1
  omega

theorem flushLoop_inc (lines : List Line) :
    ∀ (n c : Nat) (proc : List Nat) (acc : List Line) (M : Nat),
    ProcIs proc M → M ≤ lines.length → min c lines.length ≤ M →
    (n = 0 ∨ c + n ≤ lines.length) →
    ∃ proc', flushLoop lines n c proc acc =
        some (c + n, proc',
          acc ++ (lines.drop M).take (max M (min (c + n) lines.length) - M)) ∧
      ProcIs proc' (max M (min (c + n) lines.length))
  | 0, c, proc, acc, M, hP, hMl, hcM, _ => by
    have he : max M (min (c + 0) lines.length) - M = 0 := by omega
    rw [he, List.take_zero, List.append_nil]
    exact ⟨proc, rfl, by
      have he2 : max M (min (c + 0) lines.length) = M := by omega
      rw [he2]
      exact hP⟩
  | n + 1, c, proc, acc, M, hP, hMl, hcM, hn => by
    have hclen : c + (n + 1) ≤ lines.length := by omega
    have hclt : c < lines.length := by omega
    have hrw : c + (n + 1) = c + 1 + n := by omega
    by_cases hc : c ∈ proc
    · have hcont : proc.contains c = true := List.elem_iff.mpr hc
      have hcM' : c < M := (hP c).mp hc
      obtain ⟨proc', h1, h2⟩ := flushLoop_inc lines n (c + 1) proc acc M hP hMl
        (by omega) (by omega)
      refine ⟨proc', ?_, ?_⟩
      · rw [flushLoop, if_pos hcont, hrw]
        exact h1
      · rw [hrw]
        exact h2
    · have hMc : M ≤ c := by
        by_contra hlt
        exact hc ((hP c).mpr (by omega))
      have hcMe : c = M := by omega
      subst hcMe
      have hP' : ProcIs (c :: proc) (c + 1) := by
        intro j
        simp only [List.mem_cons, hP j]
        omega
      obtain ⟨proc', h1, h2⟩ := flushLoop_inc lines n (c + 1) (c :: proc)
        (acc ++ [lines.get ⟨c, hclt⟩]) (c + 1) hP' (by omega) (by omega) (by omega)
      have h5 : max (c + 1) (min (c + 1 + n) lines.length) =
          max c (min (c + 1 + n) lines.length) := by omega
      have hjoin : acc ++ [lines.get ⟨c, hclt⟩] ++
          (lines.drop (c + 1)).take (max (c + 1) (min (c + 1 + n) lines.length)
            - (c + 1)) =
          acc ++ (lines.drop c).take (max c (min (c + 1 + n) lines.length) - c) := by
        rw [h5, List.append_assoc]
        congr 1
        have he2 : max c (min (c + 1 + n) lines.length) - c =
            (max c (min (c + 1 + n) lines.length) - (c + 1)) + 1 := by omega
        rw [he2, List.drop_eq_getElem_cons hclt, List.take_succ_cons,
          List.singleton_append]
        rfl
      refine ⟨proc', ?_, ?_⟩
      · rw [flushLoop, if_neg (by simp only [List.elem_iff]; exact hc), dif_pos hclt,
          hrw, h1, hjoin]
      · rw [hrw, ← h5]
        exact h2

theorem emitSpan_inc (lines : List Line) :
    ∀ (n i : Nat) (proc : List Nat) (acc : List Line) (M : Nat),
    ProcIs proc M → i ≤ M → i + n ≤ lines.length →
    ∃ proc', emitSpan lines n i proc acc =
        (proc', acc ++ (lines.drop M).take (max M (i + n) - M)) ∧
      ProcIs proc' (max M (i + n))
  | 0, i, proc, acc, M, hP, hiM, _ => by
    have he : max M (i + 0) - M = 0 := by omega
    rw [he, List.take_zero, List.append_nil]
    exact ⟨proc, rfl, by
      have he2 : max M (i + 0) = M := by omega
      rw [he2]
      exact hP⟩
  | n + 1, i, proc, acc, M, hP, hiM, hil => by
    have hilt : i < lines.length := by omega
    have hrw : i + (n + 1) = i + 1 + n := by omega
    by_cases hi : i ∈ proc
    · have hcont : proc.contains i = true := List.elem_iff.mpr hi
      have hiM' : i < M := (hP i).mp hi
      obtain ⟨proc', h1, h2⟩ := emitSpan_inc lines n (i + 1) proc acc M hP
        (by omega) (by omega)
      refine ⟨proc', ?_, ?_⟩
      · rw [emitSpan, if_pos hcont, hrw]
        exact h1
      · rw [hrw]
        exact h2
    · have hMi : M ≤ i := by
        by_contra hlt
        exact hi ((hP i).mpr (by omega))
      have hiMe : i = M := by omega
      subst hiMe
      have hP' : ProcIs (i :: proc) (i + 1) := by
        intro j
        simp only [List.mem_cons, hP j]
        omega
      obtain ⟨proc', h1, h2⟩ := emitSpan_inc lines n (i + 1) (i :: proc)
        (acc ++ [lines.getD i []]) (i + 1) hP' (by omega) (by omega)
      have h5 : max (i + 1) (i + 1 + n) = max i (i + 1 + n) := by omega
      have hjoin : acc ++ [lines.getD i []] ++
          (lines.drop (i + 1)).take (max (i + 1) (i + 1 + n) - (i + 1)) =
          acc ++ (lines.drop i).take (max i (i + 1 + n) - i) := by
        rw [h5, List.append_assoc]
        congr 1
        have he2 : max i (i + 1 + n) - i = (max i (i + 1 + n) - (i + 1)) + 1 := by
          omega
        rw [he2, List.drop_eq_getElem_cons hilt, List.take_succ_cons,
          List.getD_eq_getElem lines [] hilt, List.singleton_append]
      refine ⟨proc', ?_, ?_⟩
      · rw [emitSpan, if_neg (by simp only [List.elem_iff]; exact hi), hrw, h1, hjoin]
      · rw [hrw, ← h5]
        exact h2
theorem reconStep_inc (lines : List Line) (u : CodeUnit) (c : Nat) (proc : List Nat)
    (acc : List Line) (M : Nat)
    (hu1 : u.start_line ≤ lines.length)
    (hu2 : u.start_line < lines.length → anyNonBlank (unitSpan lines u) = true)
    (hP : ProcIs proc M) (hMl : M ≤ lines.length) (hcM : min c lines.length ≤ M) :
    ∃ proc', reconStep lines (c, proc, acc) u =
        some ((reconAbsStep lines (c, M, acc) u).1, proc',
          (reconAbsStep lines (c, M, acc) u).2.2) ∧
      ProcIs proc' ((reconAbsStep lines (c, M, acc) u).2.1) ∧
      M ≤ (reconAbsStep lines (c, M, acc) u).2.1 ∧
      (reconAbsStep lines (c, M, acc) u).2.1 ≤ lines.length ∧
      min (reconAbsStep lines (c, M, acc) u).1 lines.length ≤
        (reconAbsStep lines (c, M, acc) u).2.1 := by
  obtain ⟨proc1, hf1, hf2⟩ := flushLoop_inc lines (u.start_line - c) c proc acc M
    hP hMl hcM (by omega)
  by_cases hcode : anyNonBlank (unitSpan lines u) = true
  · have hslt : u.start_line < lines.length := by
      by_contra h
      have hdrop : lines.drop u.start_line = [] := List.drop_eq_nil_of_le (by omega)
      rw [unitSpan, hdrop, List.take_nil] at hcode
      simp [anyNonBlank] at hcode
    have hsM1 : u.start_line ≤
        max M (min (c + (u.start_line - c)) lines.length) := by omega
    obtain ⟨proc2, he1, he2⟩ := emitSpan_inc lines
      (min (u.end_line + 1) lines.length - u.start_line) u.start_line proc1
      (acc ++ (lines.drop M).take
        (max M (min (c + (u.start_line - c)) lines.length) - M))
      (max M (min (c + (u.start_line - c)) lines.length)) hf2 hsM1 (by omega)
    have habs : reconAbsStep lines (c, M, acc) u =
        (u.end_line + 1,
          max (max M (min (c + (u.start_line - c)) lines.length))
            (u.start_line + (min (u.end_line + 1) lines.length - u.start_line)),
          acc ++ (lines.drop M).take
            (max (max M (min (c + (u.start_line - c)) lines.length))
              (u.start_line + (min (u.end_line + 1) lines.length - u.start_line))
              - M) ++
          (if u.comment.isEmpty then [] else splitNl u.comment)) := by
      simp only [reconAbsStep]
      rw [if_pos hcode]
    have hjoin := take_drop_join lines M
      (max M (min (c + (u.start_line - c)) lines.length))
      (max (max M (min (c + (u.start_line - c)) lines.length))
        (u.start_line + (min (u.end_line + 1) lines.length - u.start_line)))
      (by omega) (by omega)
    rw [habs]
    refine ⟨proc2, ?_, ?_, ?_, ?_, ?_⟩
    · rw [reconStep, hf1]
      simp only [Option.bind_eq_bind, Option.some_bind, hcode, if_true]
      rw [he1]
      have hn2 : u.start_line + (min (u.end_line + 1) lines.length - u.start_line) =
          u.start_line + (min (u.end_line + 1) lines.length - u.start_line) := rfl
      by_cases hcmt : u.comment.isEmpty = true
      · rw [if_pos hcmt, if_pos hcmt, List.append_nil, List.append_assoc, hjoin]
        rfl
      · rw [if_neg hcmt, if_neg hcmt, List.append_assoc, hjoin]
        rfl
    · exact he2
    · show M ≤ max (max M (min (c + (u.start_line - c)) lines.length))
        (u.start_line + (min (u.end_line + 1) lines.length - u.start_line))
      omega
    · show max (max M (min (c + (u.start_line - c)) lines.length))
        (u.start_line + (min (u.end_line + 1) lines.length - u.start_line)) ≤
        lines.length
      omega
    · show min (u.end_line + 1) lines.length ≤
        max (max M (min (c + (u.start_line - c)) lines.length))
          (u.start_line + (min (u.end_line + 1) lines.length - u.start_line))
      omega
  · have hsge : lines.length ≤ u.start_line := by
      by_contra h
      exact hcode (hu2 (by omega))
    have hzero : min (u.end_line + 1) lines.length - u.start_line = 0 := by omega
    have habs : reconAbsStep lines (c, M, acc) u =
        (u.end_line + 1, max M (min (c + (u.start_line - c)) lines.length),
          acc ++ (lines.drop M).take
            (max M (min (c + (u.start_line - c)) lines.length) - M)) := by
      simp only [reconAbsStep]
      rw [if_neg hcode]
    rw [habs]
    refine ⟨proc1, ?_, hf2, ?_, ?_, ?_⟩
    · rw [reconStep, hf1]
      simp only [Option.bind_eq_bind, Option.some_bind, hcode, if_false,
        Bool.false_eq_true]
      rw [hzero]
      rfl
    · show M ≤ max M (min (c + (u.start_line - c)) lines.length)
      omega
    · show max M (min (c + (u.start_line - c)) lines.length) ≤ lines.length
      omega
    · show min (u.end_line + 1) lines.length ≤
        max M (min (c + (u.start_line - c)) lines.length)
      omega
theorem reconUnits_inc (lines : List Line) :
    ∀ (us : List CodeUnit) (c : Nat) (proc : List Nat) (acc : List Line) (M : Nat),
    ProcIs proc M → M ≤ lines.length → min c lines.length ≤ M →
    (∀ u ∈ us, u.start_line ≤ lines.length) →
    (∀ u ∈ us, u.start_line < lines.length → anyNonBlank (unitSpan lines u) = true) →
    ∃ proc', reconUnits lines us (c, proc, acc) =
        some ((us.foldl (reconAbsStep lines) (c, M, acc)).1, proc',
          (us.foldl (reconAbsStep lines) (c, M, acc)).2.2) ∧
      ProcIs proc' ((us.foldl (reconAbsStep lines) (c, M, acc)).2.1) ∧
      (us.foldl (reconAbsStep lines) (c, M, acc)).2.1 ≤ lines.length ∧
      min (us.foldl (reconAbsStep lines) (c, M, acc)).1 lines.length ≤
        (us.foldl (reconAbsStep lines) (c, M, acc)).2.1
  | [], c, proc, acc, M, hP, hMl, hcM, _, _ =>
    ⟨proc, rfl, hP, hMl, hcM⟩
  | u :: rest, c, proc, acc, M, hP, hMl, hcM, h1, h2 => by
    obtain ⟨proc1, hs1, hs2, hs3, hs4, hs5⟩ := reconStep_inc lines u c proc acc M
      (h1 u (by simp)) (h2 u (by simp)) hP hMl hcM
    obtain ⟨proc', ht1, ht2, ht3, ht4⟩ := reconUnits_inc lines rest
      (reconAbsStep lines (c, M, acc) u).1 proc1
      (reconAbsStep lines (c, M, acc) u).2.2
      (reconAbsStep lines (c, M, acc) u).2.1 hs2 hs4 hs5
      (fun v hv => h1 v (by simp [hv])) (fun v hv => h2 v (by simp [hv]))
    have heta : ((reconAbsStep lines (c, M, acc) u).1,
        (reconAbsStep lines (c, M, acc) u).2.1,
        (reconAbsStep lines (c, M, acc) u).2.2) =
        reconAbsStep lines (c, M, acc) u := rfl
    rw [heta] at ht1 ht2 ht3 ht4
    rw [List.foldl_cons]
    refine ⟨proc', ?_, ht2, ht3, ht4⟩
    rw [reconUnits, hs1]
    simp only [Option.bind_eq_bind, Option.some_bind]
    exact ht1

/-- C4 (amended): for every line list, unit list and file annotation — unit
ranges may overlap, abut irregularly, or be clipped at the end of the file,
and annotations are arbitrary — provided each unit starts at or before the
end of the file and each unit whose span begins inside the file covers some
non-blank line, reassembly completes without an out-of-range access and its
output is exactly the interval-abstraction output `reconAbs`: each original
line is emitted exactly once, in original order, interleaved only with the
annotation blocks; in particular with annotations erased the output is
exactly the original lines. -/
theorem reconstruct_file_total (lines : List Line) (units : List CodeUnit)
    (fc : PyStr)
    (h1 : ∀ u ∈ units, u.start_line ≤ lines.length)
    (h2 : ∀ u ∈ units, u.start_line < lines.length →
      anyNonBlank (unitSpan lines u) = true) :
    reconstructFile lines units fc = some (reconAbs lines units fc) ∧
    reconstructFile lines (units.map eraseComment) [] = some lines := by
  constructor
  · have hmem : ∀ u, u ∈ sortUnits units ↔ u ∈ units := fun u =>
      (List.perm_insertionSort unitLE units).mem_iff
    obtain ⟨proc', ht1, ht2, ht3, ht4⟩ := reconUnits_inc lines (sortUnits units) 0 []
      (if !fc.isEmpty && anyNonBlank lines then splitNl fc ++ [[]] else []) 0
      procIs_nil (by omega) (by omega)
      (fun u hu => h1 u ((hmem u).mp hu)) (fun u hu => h2 u ((hmem u).mp hu))
    rw [reconstructFile]
    rw [ht1]
    simp only [Option.bind_eq_bind, Option.some_bind]
    rw [trailingFlush_spec lines _ _ proc' _ _ rfl ht2 ht3]
    rw [reconAbs]
    rfl
  · apply reconstruct_preserves
    · intro v hv
      rw [List.mem_map] at hv
      obtain ⟨u, hu, rfl⟩ := hv
      exact h1 u hu
    · intro v hv hlt
      rw [List.mem_map] at hv
      obtain ⟨u, hu, rfl⟩ := hv
      have hspan : unitSpan lines (eraseComment u) = unitSpan lines u := rfl
      rw [hspan]
      exact h2 u hu hlt
    · intro v hv
      rw [List.mem_map] at hv
      obtain ⟨u, hu, rfl⟩ := hv
      rfl

theorem reconstruct_file_total_witness :
    reconstructFile [("a").data, ("b").data]
      [⟨[("a").data], 0, 0, "chunk", none, ("x").data⟩] (("f").data) =
      some (reconAbs [("a").data, ("b").data]
        [⟨[("a").data], 0, 0, "chunk", none, ("x").data⟩] (("f").data)) ∧
    reconstructFile [("a").data, ("b").data]
      ([⟨[("a").data], 0, 0, "chunk", none, ("x").data⟩].map eraseComment) [] =
      some [("a").data, ("b").data] :=
  reconstruct_file_total [("a").data, ("b").data]
    [⟨[("a").data], 0, 0, "chunk", none, ("x").data⟩] (("f").data)
    (by decide) (by decide)
